import Mathlib

/-!
# popins: merging of contig sequences into a component graph

A shallow embedding of `popins_merge_seqs.h`.  Sequences are lists over an
arbitrary alphabet `α` (the source is a template over the string type).
The directed graph of the sequence library is an adjacency list: vertex `v`
is the index `v` of `graph`, and `graph[v]` lists the targets of the
out-edges of `v` in the order in which an out-edge iterator visits them.
The library links a new edge at the head of the source vertex's edge list.
-/

namespace Popins

/-! ## Data model -/

/-- Path of the component graph: the concatenated labels and the map from
cumulative end offsets to vertices (`std::map`, kept sorted by key). -/
structure Path (α : Type) where
  seq : List α
  positionMap : List (Nat × Nat)
deriving DecidableEq, Repr

/-- Component graph: adjacency lists, source vertices and vertex labels. -/
structure ComponentGraph (α : Type) where
  graph : List (List Nat)
  sources : List Nat
  sequenceMap : List (List α)
deriving DecidableEq, Repr

variable {α : Type}

/-- Number of vertices of the graph. -/
def numVertices (g : ComponentGraph α) : Nat := g.graph.length

/-- Targets of the out-edges of `v`, in iteration order. -/
def outEdges (g : ComponentGraph α) (v : Nat) : List Nat := g.graph.getD v []

/-- Label of vertex `v`. -/
def label (g : ComponentGraph α) (v : Nat) : List α := g.sequenceMap.getD v []

/-- Out-degree of `v`. -/
def outDegree (g : ComponentGraph α) (v : Nat) : Nat := (outEdges g v).length

/-- Library `addEdge`: the new edge becomes the first out-edge of `s`. -/
def addEdge (g : ComponentGraph α) (s t : Nat) : ComponentGraph α :=
  { g with graph := g.graph.set s (t :: outEdges g s) }

/-- Library `removeOutEdges`. -/
def removeOutEdges (g : ComponentGraph α) (u : Nat) : ComponentGraph α :=
  { g with graph := g.graph.set u [] }

/-- Assignment `graph.sequenceMap[u] = s`. -/
def setLabel (g : ComponentGraph α) (u : Nat) (s : List α) : ComponentGraph α :=
  { g with sequenceMap := g.sequenceMap.set u s }

/-- Source `addVertex`: a new vertex without edges whose id is the previous
vertex count; its label is appended to the sequence map. -/
def addVertex (g : ComponentGraph α) (seq : List α) : ComponentGraph α × Nat :=
  ({ g with graph := g.graph ++ [[]], sequenceMap := g.sequenceMap ++ [seq] },
   g.graph.length)

/-- Constructor `ComponentGraph(seq)`: one vertex, registered as a source. -/
def ComponentGraph.ofSeq (seq : List α) : ComponentGraph α :=
  let r := addVertex ({ graph := [], sources := [], sequenceMap := [] } : ComponentGraph α) seq
  { r.1 with sources := r.1.sources ++ [r.2] }

/-- Source `splitVertex`: the loop copies every out-edge of `u` to the new
vertex `v`, then `u` loses its out-edges, gets the label `uSeq` and the
single edge `u → v`. -/
def splitVertex (g : ComponentGraph α) (u : Nat) (uSeq vSeq : List α) :
    ComponentGraph α × Nat :=
  let r := addVertex g vSeq
  let v := r.2
  let g1 := (outEdges r.1 u).foldl (fun acc t => addEdge acc v t) r.1
  let g2 := removeOutEdges g1 u
  let g3 := setLabel g2 u uSeq
  (addEdge g3 u v, v)

/-- Well-formed component graph: one label per vertex, every edge target and
every source is a vertex. -/
structure WF (g : ComponentGraph α) : Prop where
  len : g.sequenceMap.length = g.graph.length
  edges : ∀ u w, w ∈ outEdges g u → w < g.graph.length
  srcs : ∀ v, v ∈ g.sources → v < g.graph.length


/-! ## Path enumeration -/

/-- Assignment `positionMap[k] = v` of the ordered map: overwrites the entry
with key `k` or inserts a new one at its sorted position. -/
def mapSet : List (Nat × Nat) → Nat → Nat → List (Nat × Nat)
  | [], k, v => [(k, v)]
  | e :: rest, k, v =>
    if k < e.1 then (k, v) :: e :: rest
    else if k = e.1 then (k, v) :: rest
    else e :: mapSet rest k v

/-- Map `lower_bound(x)`: the first entry whose key is not less than `x`;
`none` stands for the past-the-end iterator. -/
def lowerBound (m : List (Nat × Nat)) (x : Nat) : Option (Nat × Nat) :=
  m.find? (fun e => decide (x ≤ e.1))

/-- Map `upper_bound(x)`: the first entry whose key is greater than `x`. -/
def upperBound (m : List (Nat × Nat)) (x : Nat) : Option (Nat × Nat) :=
  m.find? (fun e => decide (x < e.1))

/-- Source `enumeratePathsDfs`.  The recursion of the source is unbounded on a
cyclic graph; `fuel` bounds the recursion depth and `none` means the depth was
exceeded.  The result is the extended list `paths` and the returned count. -/
def enumeratePathsDfs : Nat → ComponentGraph α → List (Path α) → Path α → Nat →
    Option (List (Path α) × Nat)
  | 0, _, _, _, _ => none
  | fuel + 1, g, paths, prevPath, v =>
    let len := paths.length
    let seq := prevPath.seq ++ label g v
    let path : Path α := { seq := seq, positionMap := mapSet prevPath.positionMap seq.length v }
    if outDegree g v = 0 then some (paths ++ [path], 1)
    else
      ((outEdges g v).foldlM
        (fun acc u => (enumeratePathsDfs fuel g acc path u).map Prod.fst) paths).map
        (fun out => (out, out.length - len))

/-- Source `enumeratePaths`: one traversal per entry of the source list, each
started with an empty path; returns the list and its length. -/
def enumeratePaths (fuel : Nat) (g : ComponentGraph α) (paths : List (Path α)) :
    Option (List (Path α) × Nat) :=
  (g.sources.foldlM
    (fun acc s => (enumeratePathsDfs fuel g acc { seq := [], positionMap := [] } s).map Prod.fst)
    paths).map (fun out => (out, out.length))

/-! ## Diagonal finder

Lengths and the seed length are `unsigned` in the source and the diagonal is
an `int`; sequence lengths are taken to be below `2^31`, so the only wrap that
occurs is `i - len1` for `i < len1`, which the conversion to `int` turns into
the negative difference.  The q-gram index is modelled by its contract: the
occurrences of a q-gram are the start positions of its exact copies. -/

/-- Sentinel `maxValue<int>()`. -/
def NONE : Int := 2147483647

/-- The q-gram of length `k` starting at position `i`. -/
def qgram (s : List α) (i k : Nat) : List α := (s.drop i).take k

/-- Modelled from the spec: the library q-gram index of `seq1` and its
`getOccurrences` are not part of the sources.  The result lists every
occurrence of `kmer` among the k-mers of `seq1` ("every k-mer occurrence shared
with the reference"), as start positions in increasing order.  For the seed
length 0, which neither the spec nor the source describes, this gives the
positions `0..len1`; what the library index does there is not known. -/
def getOccurrences [DecidableEq α] (seq1 : List α) (k : Nat) (kmer : List α) : List Nat :=
  (List.range (seq1.length + 1 - k)).filter (fun p => decide (qgram seq1 p k = kmer))

/-- Statement `++counters[idx]`; writing outside the array is undefined. -/
def incrCounter (counters : List Nat) (idx : Nat) : Option (List Nat) :=
  if idx < counters.length then some (counters.set idx (counters.getD idx 0 + 1)) else none

/-- The voting loop of `bestDiagonal` over the q-grams of `seq2`. -/
def countHits [DecidableEq α] (seq1 seq2 : List α) (k : Nat) : Option (List Nat) :=
  (List.range (seq2.length - k + 1)).foldlM
    (fun cs i =>
      (getOccurrences seq1 k (qgram seq2 i k)).foldlM
        (fun cs p => incrCounter cs (seq1.length + i - p)) cs)
    (List.replicate (seq1.length + seq2.length) 0)

/-- The `int` that the assignment `diag = i - len1` (line 203) stores for the
difference of two 32-bit `unsigned` values: the integer congruent to `x`
modulo `2^32` that lies in `[-2^31, 2^31)`. -/
def unsignedToInt (x : Int) : Int := (x + 2147483648) % 4294967296 - 2147483648

/-- The scan for the first counter with the largest value: the pair of `diag`
and `maxCount` after the loop. -/
def scanCounters (counters : List Nat) (len1 : Nat) : Int × Nat :=
  (List.range counters.length).foldl
    (fun st i =>
      if st.2 < counters.getD i 0 then
        (unsignedToInt ((i : Int) - (len1 : Int)), counters.getD i 0)
      else st)
    (NONE, 0)

/-- Source `bestDiagonal` with a bound on the recursion depth.  `none` means
that no value is returned: a counter outside the array is written or the
depth bound is exceeded. -/
def bestDiagonalFuel [DecidableEq α] : Nat → List α → List α → Nat → Option Int
  | 0, _, _, _ => none
  | fuel + 1, seq1, seq2, qgramLength =>
    if qgramLength > seq1.length ∨ qgramLength > seq2.length then some NONE
    else
      match countHits seq1 seq2 qgramLength with
      | none => none
      | some counters =>
        let diag := (scanCounters counters seq1.length).1
        if diag = NONE then bestDiagonalFuel fuel seq1 seq2 (qgramLength * 2 / 3)
        else some diag

/-- Source `bestDiagonal`.  The seed length strictly decreases along the retry
chain, so `qgramLength + 1` calls are enough for it to end. -/
def bestDiagonal [DecidableEq α] (seq1 seq2 : List α) (qgramLength : Nat) : Option Int :=
  bestDiagonalFuel (qgramLength + 1) seq1 seq2 qgramLength

/-! ## Applying an alignment to the graph -/

/-- What the driver reads from the pair of gapped sequences returned by the
library aligner: the score and the source positions of both ends of the
aligned region in the path sequence and in the new sequence. -/
structure Alignment where
  score : Int
  beginPath : Nat
  endPath : Nat
  beginSeq : Nat
  endSeq : Nat
deriving DecidableEq, Repr

/-- Library `localAlignment`, a parameter of the model: path sequence, new
sequence, match score, error penalty and the optional band of diagonals. -/
abbrev Aligner (α : Type) := List α → List α → Int → Int → Option (Int × Int) → Alignment

/-- Subtraction of two `size_t` values below `2^64`. -/
def wrapSub (a b : Nat) : Nat := if b ≤ a then a - b else 18446744073709551616 - (b - a)

/-- The split at `splitPos` of the label of `v`; a prefix longer than the
label reads outside the string, which is undefined. -/
def splitAt (g : ComponentGraph α) (v splitPos : Nat) : Option (ComponentGraph α × Nat) :=
  if splitPos ≤ (label g v).length then
    some (splitVertex g v ((label g v).take splitPos) ((label g v).drop splitPos))
  else none

/-- Right end of `mergeSeqWithGraph` (lines 229-254). -/
def mergeRight (g : ComponentGraph α) (path : Path α) (seq : List α) (al : Alignment)
    (minBranchLen : Nat) : Option (ComponentGraph α) :=
  if al.endSeq < seq.length then
    match lowerBound path.positionMap al.endPath with
    | none => none
    | some (vPos, v) =>
      if al.endPath = path.seq.length then
        some (setLabel g v (label g v ++ seq.drop al.endSeq))
      else if seq.length - al.endSeq > minBranchLen then
        let g1 : Option (ComponentGraph α) :=
          if vPos > al.endPath then
            (splitAt g v (wrapSub (label g v).length (vPos - al.endPath))).map Prod.fst
          else some g
        g1.map (fun g1 =>
          let r := addVertex g1 (seq.drop al.endSeq)
          addEdge r.1 v r.2)
      else some g
  else some g

/-- Left end of `mergeSeqWithGraph` (lines 258-285). -/
def mergeLeft (g : ComponentGraph α) (path : Path α) (seq : List α) (al : Alignment)
    (minBranchLen : Nat) : Option (ComponentGraph α) :=
  if al.beginSeq > 0 then
    match upperBound path.positionMap al.beginPath with
    | none => none
    | some (uPos, u) =>
      if al.beginPath = 0 then
        some (setLabel g u (seq.take al.beginSeq ++ label g u))
      else if al.beginSeq > minBranchLen then
        let r : Option (ComponentGraph α × Nat) :=
          if wrapSub uPos (label g u).length < al.beginPath then
            splitAt g u (wrapSub (label g u).length (uPos - al.beginPath))
          else some (g, u)
        r.map (fun r =>
          let b := addVertex r.1 (seq.take al.beginSeq)
          addEdge { b.1 with sources := b.1.sources ++ [b.2] } b.2 r.2)
      else some g
  else some g

/-- Source `mergeSeqWithGraph`; the source always returns `true`, `none` means
undefined behaviour (a past-the-end map iterator or a prefix beyond a label). -/
def mergeSeqWithGraph (g : ComponentGraph α) (path : Path α) (seq : List α) (al : Alignment)
    (minBranchLen : Nat) : Option (ComponentGraph α) :=
  (mergeRight g path seq al minBranchLen).bind
    (fun g1 => mergeLeft g1 path seq al minBranchLen)

/-! ## Merge driver -/

/-- Sentinel `minValue<int>()`. -/
def INT_MIN : Int := -2147483648

/-- Lines 324-331: the diagonal of the pair and the alignment, banded around
the diagonal when one was found. -/
def alignPath [DecidableEq α] (aligner : Aligner α) (seq : List α) (matchScore errorPenalty : Int)
    (qgramLength : Nat) (p : Path α) : Option Alignment :=
  (bestDiagonal seq p.seq qgramLength).map (fun diag =>
    if diag = NONE then aligner p.seq seq matchScore errorPenalty none
    else aligner p.seq seq matchScore errorPenalty (some (diag - 25, diag + 25)))

/-- One round of the selection loop (lines 322-340) on the state made of
`maxScore` and the best path with its alignment. -/
def selectStep [DecidableEq α] (aligner : Aligner α) (seq : List α) (matchScore errorPenalty : Int)
    (qgramLength : Nat) (st : Int × Option (Path α × Alignment)) (p : Path α) :
    Option (Int × Option (Path α × Alignment)) :=
  (alignPath aligner seq matchScore errorPenalty qgramLength p).map (fun al =>
    if al.score > st.1 then (al.score, some (p, al)) else st)

/-- The selection loop over all enumerated paths. -/
def selectPath [DecidableEq α] (aligner : Aligner α) (seq : List α) (matchScore errorPenalty : Int)
    (qgramLength : Nat) (paths : List (Path α)) : Option (Int × Option (Path α × Alignment)) :=
  paths.foldlM (selectStep aligner seq matchScore errorPenalty qgramLength) (INT_MIN, none)

/-- The loop of `addSequencesToGraph` over the sequences `seqs[1..]`.  When no
path was selected the source hands default-constructed gaps to
`mergeSeqWithGraph`, which is undefined. -/
def addSequencesLoop [DecidableEq α] (fuel : Nat) (aligner : Aligner α) (minBranchLen : Nat)
    (matchScore errorPenalty : Int) (qgramLength : Nat) :
    ComponentGraph α → List (List α) → Option (Bool × ComponentGraph α)
  | g, [] => some (true, g)
  | g, s :: rest =>
    match enumeratePaths fuel g [] with
    | none => none
    | some (paths, _) =>
      if paths.length > 30 then some (false, g)
      else
        match selectPath aligner s matchScore errorPenalty qgramLength paths with
        | none => none
        | some (_, none) => none
        | some (_, some (bestPath, al)) =>
          match mergeSeqWithGraph g bestPath s al minBranchLen with
          | none => none
          | some g1 =>
            addSequencesLoop fuel aligner minBranchLen matchScore errorPenalty qgramLength g1 rest

/-- Source `addSequencesToGraph`: the loop runs over `i = 1 .. length(seqs)-1`. -/
def addSequencesToGraph [DecidableEq α] (fuel : Nat) (aligner : Aligner α)
    (g : ComponentGraph α) (seqs : List (List α)) (minBranchLen : Nat)
    (matchScore errorPenalty : Int) (qgramLength : Nat) : Option (Bool × ComponentGraph α) :=
  addSequencesLoop fuel aligner minBranchLen matchScore errorPenalty qgramLength g (seqs.drop 1)

/-- Source `mergeSequences`: the result is the returned flag and the final
value of `mergedSeqs`.  The graph dump under `verbose` only prints. -/
def mergeSequences [DecidableEq α] (fuel : Nat) (aligner : Aligner α)
    (mergedSeqs : List (List α)) (seqs : List (List α)) (minBranchLen : Nat)
    (matchScore errorPenalty : Int) (qgramLength : Nat) (_verbose : Bool) :
    Option (Bool × List (List α)) :=
  match seqs with
  | [] => none
  | s0 :: _ =>
    match addSequencesToGraph fuel aligner (ComponentGraph.ofSeq s0) seqs minBranchLen
        matchScore errorPenalty qgramLength with
    | none => none
    | some (false, _) => some (false, mergedSeqs)
    | some (true, compGraph) =>
      match enumeratePaths fuel compGraph [] with
      | none => none
      | some (finalPaths, _) => some (true, mergedSeqs ++ finalPaths.map (fun p => p.seq))

/-! ## Routes (specification side) -/

/-- Consecutive vertices of the list are joined by an edge and the last vertex
is a sink. -/
def IsChain (g : ComponentGraph α) : List Nat → Prop
  | [] => False
  | [v] => outDegree g v = 0
  | u :: w :: rest => w ∈ outEdges g u ∧ IsChain g (w :: rest)

/-- Route: a chain from a vertex of the source list to a sink. -/
def IsRoute (g : ComponentGraph α) (r : List Nat) : Prop :=
  (∃ v, r.head? = some v ∧ v ∈ g.sources) ∧ IsChain g r

/-- Number of ways to walk the vertex list `r` along edges down to a sink,
parallel edges counted separately. -/
def chainMult (g : ComponentGraph α) : List Nat → Nat
  | [] => 0
  | [v] => if outDegree g v = 0 then 1 else 0
  | u :: w :: rest => (outEdges g u).count w * chainMult g (w :: rest)

/-- Multiplicity of the route `r`: occurrences of its first vertex in the
source list times the number of edge choices along it. -/
def routeMult (g : ComponentGraph α) (r : List Nat) : Nat :=
  match r with
  | [] => 0
  | v :: _ => g.sources.count v * chainMult g r

/-- Concatenation of the labels along a vertex list. -/
def routeSeq (g : ComponentGraph α) (r : List Nat) : List α :=
  r.foldl (fun acc v => acc ++ label g v) []

/-- Offset map built along a vertex list, starting from the state `p`. -/
def routePath (g : ComponentGraph α) (p : Path α) (r : List Nat) : Path α :=
  r.foldl (fun acc v =>
    { seq := acc.seq ++ label g v,
      positionMap := mapSet acc.positionMap (acc.seq ++ label g v).length v }) p

/-- The vertex lists walked by the traversal from `v`, in traversal order,
with the same depth bound as `enumeratePathsDfs`. -/
def routesFrom : Nat → ComponentGraph α → Nat → Option (List (List Nat))
  | 0, _, _ => none
  | fuel + 1, g, v =>
    if outDegree g v = 0 then some [[v]]
    else
      (outEdges g v).foldlM
        (fun acc u => (routesFrom fuel g u).map (fun rs => acc ++ rs.map (fun r => v :: r))) []

/-- The vertex lists walked from all entries of the source list. -/
def allRoutes (fuel : Nat) (g : ComponentGraph α) : Option (List (List Nat)) :=
  g.sources.foldlM (fun acc s => (routesFrom fuel g s).map (fun rs => acc ++ rs)) []

/-- Cumulative end offsets of the labels along a vertex list whose first label
starts at offset `base`, each paired with its vertex. -/
def offsets (g : ComponentGraph α) (base : Nat) : List Nat → List (Nat × Nat)
  | [] => []
  | v :: r => (base + (label g v).length, v) :: offsets g (base + (label g v).length) r

/-- The graph after hanging a new vertex labelled `suf` off the vertex `v`
(lines 250-252 of `mergeSeqWithGraph`). -/
def addBranch (g : ComponentGraph α) (v : Nat) (suf : List α) : ComponentGraph α :=
  addEdge (addVertex g suf).1 v (addVertex g suf).2

/-- Vertex lists that do not end in the vertex `b`. -/
def notEndsIn (b : Nat) (r : List Nat) : Bool := decide (r.getLast? ≠ some b)

/-- Acyclic graph: the vertices carry a rank that strictly decreases along
every edge. -/
def Acyclic (g : ComponentGraph α) : Prop :=
  ∃ rank : Nat → Nat, ∀ u w, w ∈ outEdges g u → rank w < rank u

/-! ## Votes of a diagonal (specification side) -/

/-- Number of pairs `(p, q)` of a q-gram start `p` in `seq1` and a q-gram start
`q` in `seq2` with equal q-grams of length `k` and `q - p = d`. -/
def diagVotes [DecidableEq α] (seq1 seq2 : List α) (k : Nat) (d : Int) : Nat :=
  ((List.range (seq2.length + 1 - k)).map (fun q =>
    ((List.range (seq1.length + 1 - k)).filter (fun p =>
      decide (qgram seq1 p k = qgram seq2 q k ∧ (q : Int) - (p : Int) = d))).length)).sum

/-! ## One round of the driver loop (specification side) -/

/-- One round of the loop of `addSequencesToGraph` on the graph `g` with the
sequence `s`: `some (false, g)` when the cap check fails, `some (true, g1)` when
`s` was merged and the loop goes on with `g1`. -/
def mergeRound [DecidableEq α] (fuel : Nat) (aligner : Aligner α) (minBranchLen : Nat)
    (matchScore errorPenalty : Int) (qgramLength : Nat) (g : ComponentGraph α) (s : List α) :
    Option (Bool × ComponentGraph α) :=
  match enumeratePaths fuel g [] with
  | none => none
  | some (paths, _) =>
    if paths.length > 30 then some (false, g)
    else
      match selectPath aligner s matchScore errorPenalty qgramLength paths with
      | none => none
      | some (_, none) => none
      | some (_, some (bestPath, al)) =>
        (mergeSeqWithGraph g bestPath s al minBranchLen).map (fun g1 => (true, g1))

/-! ## Example data -/

/-- The graph of the second example of the specification: `AAAACCCC` followed
by the branch `GGGG` or by `TTTT`. -/
def branchGraph : ComponentGraph Char :=
  { graph := [[2, 1], [], []], sources := [0],
    sequenceMap := ["AAAACCCC".toList, "TTTT".toList, "GGGG".toList] }

/-- Input set whose members share the first four symbols and end in pairwise
different symbols: the seed and thirty further sequences. -/
def capSeqs : List (List Nat) :=
  [1, 2, 3, 4, 50] :: (List.range 30).map (fun i => [1, 2, 3, 4, 51 + i])

/-- The local alignment of any two members of `capSeqs`: the common first four
symbols of both, with score 4. -/
def capAligner : Aligner Nat := fun _ _ _ _ _ =>
  { score := 4, beginPath := 0, endPath := 4, beginSeq := 0, endSeq := 4 }

/-- Alignment of the first example of the specification: `seq[0..8)` on
`path[4..12)`. -/
def extendAligner : Aligner Char := fun _ _ _ _ _ =>
  { score := 8, beginPath := 4, endPath := 12, beginSeq := 0, endSeq := 8 }

/-- Alignment of the second example of the specification: the first eight
symbols of both sequences. -/
def branchAligner : Aligner Char := fun _ _ _ _ _ =>
  { score := 8, beginPath := 0, endPath := 8, beginSeq := 0, endSeq := 8 }

end Popins

namespace Popins

variable {α : Type}

/-! ## Graph steps of `mergeSeqWithGraph` and the invariants (specification side) -/

/-- The graph after adding a new source vertex labelled `pre` with an edge to
the vertex `x` (lines 280-283 of `mergeSeqWithGraph`). -/
def addSource (g : ComponentGraph α) (x : Nat) (pre : List α) : ComponentGraph α :=
  addEdge { (addVertex g pre).1 with sources := (addVertex g pre).1.sources ++ [(addVertex g pre).2] }
    (addVertex g pre).2 x

/-- The four ways in which `mergeSeqWithGraph` changes the graph, each on a
vertex of the graph: a new label, a split, a branch vertex, a source vertex. -/
inductive GraphOp (g : ComponentGraph α) : ComponentGraph α → Prop
  | relabel (v : Nat) (l : List α) : v < g.graph.length → GraphOp g (setLabel g v l)
  | split (u : Nat) (a b : List α) : u < g.graph.length → GraphOp g (splitVertex g u a b).1
  | branch (v : Nat) (suf : List α) : v < g.graph.length → GraphOp g (addBranch g v suf)
  | source (x : Nat) (pre : List α) : x < g.graph.length → GraphOp g (addSource g x pre)

/-- Vertices reachable from a vertex of the source list along edges. -/
inductive Reach (g : ComponentGraph α) : Nat → Prop
  | source (s : Nat) : s ∈ g.sources → Reach g s
  | edge (u w : Nat) : Reach g u → w ∈ outEdges g u → Reach g w

/-- Every vertex is reachable from some source. -/
def AllReach (g : ComponentGraph α) : Prop := ∀ x, x < g.graph.length → Reach g x

/-- Every vertex has a non-empty label. -/
def LabelsNonEmpty (g : ComponentGraph α) : Prop :=
  ∀ v, v < g.graph.length → label g v ≠ []

/-! ## More example data -/

/-- Alignment of `GGGAAAACCCCTTT` against the seed `TAAAACCCCG`: the common
part `AAAACCCC` is `seq[3..11)` and `path[1..9)`. -/
def innerAligner : Aligner Char := fun _ _ _ _ _ =>
  { score := 8, beginPath := 1, endPath := 9, beginSeq := 3, endSeq := 11 }

/-- Two vertices in a row: `AAAA` followed by `CCCC`. -/
def chainGraph : ComponentGraph Char :=
  { graph := [[1], []], sources := [0], sequenceMap := ["AAAA".toList, "CCCC".toList] }

/-- The path of `chainGraph`. -/
def chainPath : Path Char :=
  { seq := "AAAACCCC".toList, positionMap := [(4, 0), (8, 1)] }

/-- Alignment of `GGGCCCC` against the path `AAAACCCC`: the common part `CCCC`
is `seq[3..7)` and `path[4..8)`. -/
def laterAlignment : Alignment :=
  { score := 4, beginPath := 4, endPath := 8, beginSeq := 3, endSeq := 7 }

/-- Alignment of `GGGAAAA` against the path `AAAACCCC`: the common part `AAAA`
is `seq[3..7)` and `path[0..4)`. -/
def firstAlignment : Alignment :=
  { score := 4, beginPath := 0, endPath := 4, beginSeq := 3, endSeq := 7 }

end Popins

namespace Popins

/-- The single path of the seed graph of `TAAAACCCCG`. -/
def stalePath : Path Char := { seq := "TAAAACCCCG".toList, positionMap := [(10, 0)] }

/-- The local alignment of `GGGAAAACCCCTTT` with `TAAAACCCCG`: the bases
`[3, 11)` of the sequence on the bases `[1, 9)` of the path. -/
def innerAlignment : Alignment :=
  { score := 8, beginPath := 1, endPath := 9, beginSeq := 3, endSeq := 11 }

/-- The graph after the right end of `innerAlignment` was applied to the seed
graph of `TAAAACCCCG`: the seed vertex is cut after `TAAAACCCC` and the branch
`TTT` hangs off it. -/
def staleRight : ComponentGraph Char :=
  { graph := [[2, 1], [], []], sources := [0],
    sequenceMap := ["TAAAACCCC".toList, "G".toList, "TTT".toList] }

/-- The graph after both ends were applied: the new source `GGG` enters the
unsplit vertex `TAAAACCCC`. -/
def staleResult : ComponentGraph Char :=
  { graph := [[2, 1], [], [], [0]], sources := [0, 3],
    sequenceMap := ["TAAAACCCC".toList, "G".toList, "TTT".toList, "GGG".toList] }

end Popins

namespace Popins

/-- The local alignment of `GGGAACCTTT` with the path `AAAACCCC`: the bases
`[3, 7)` of the sequence on the bases `[2, 6)` of the path, so that both ends
fall strictly inside a label. -/
def midAlignment : Alignment :=
  { score := 4, beginPath := 2, endPath := 6, beginSeq := 3, endSeq := 7 }

/-- The graph `AAAA → CCCC` after the right end of `midAlignment` was applied:
`CCCC` is cut in the middle and the branch `TTT` hangs off its first half. -/
def midRight : ComponentGraph Char :=
  { graph := [[1], [3, 2], [], []], sources := [0],
    sequenceMap := ["AAAA".toList, "CC".toList, "CC".toList, "TTT".toList] }

/-- The graph after both ends of `midAlignment` were applied: `AAAA` is cut in
the middle as well and the new source `GGG` enters its second half. -/
def midResult : ComponentGraph Char :=
  { graph := [[4], [3, 2], [], [], [1], [4]], sources := [0, 5],
    sequenceMap := ["AA".toList, "CC".toList, "CC".toList, "TTT".toList, "AA".toList,
      "GGG".toList] }

end Popins

namespace Popins

variable {α : Type}

/-- Graphs reachable in a merge session: the seed graph of a sequence, and
every graph that `mergeSeqWithGraph` returns on a session graph for one of its
enumerated paths, any sequence and any alignment. -/
inductive MergeSession : ComponentGraph α → Prop
  | seed (s : List α) : MergeSession (ComponentGraph.ofSeq s)
  | merge (g g1 : ComponentGraph α) (fuel : Nat) (paths : List (Path α)) (n : Nat) (P : Path α)
      (s : List α) (al : Alignment) (minBranchLen : Nat) :
      MergeSession g → enumeratePaths fuel g [] = some (paths, n) → P ∈ paths →
      mergeSeqWithGraph g P s al minBranchLen = some g1 → MergeSession g1

end Popins

namespace Popins

variable {ρ : Type}

/-- An aligner that finds nothing: score 0 and an empty aligned region at the
start of both sequences. -/
def zeroAligner : Aligner Char := fun _ _ _ _ _ =>
  { score := 0, beginPath := 0, endPath := 0, beginSeq := 0, endSeq := 0 }

/-- The single path of the seed graph of `AAAA`. -/
def seedPath : Path Char := { seq := "AAAA".toList, positionMap := [(4, 0)] }

/-! ## Repair of secondary records (`popins_contigmap.h`) -/

/-- Library `CigarElement`: an operation and its count. -/
structure CigarElement where
  operation : Char
  count : Nat
deriving DecidableEq, Repr

/-- The fields of the library `BamAlignmentRecord` that `fill_sequences` reads
or writes; `rest` stands for all other fields of the record. -/
structure BamAlignmentRecord (ρ : Type) where
  qName : List Char
  flag : Nat
  seq : List Char
  qual : List Char
  cigar : List CigarElement
  rest : ρ
deriving DecidableEq, Repr

/-- Library `hasFlagFirst`: bit `0x40` of the flag. -/
def hasFlagFirst (record : BamAlignmentRecord ρ) : Bool := (record.flag / 64) % 2 == 1

/-- A default-constructed record: empty name, flag 0, no sequence, no
quality, no CIGAR. -/
def defaultRecord [Inhabited ρ] : BamAlignmentRecord ρ :=
  ⟨[], 0, [], [], [], default⟩

/-- Library `infix(s, b, e)` copied into a string: the characters `[b, e)` of
`s`; a range outside the string is undefined. -/
def segment (s : List Char) (b e : Nat) : Option (List Char) :=
  if b ≤ e ∧ e ≤ s.length then some ((s.drop b).take (e - b)) else none

/-- The record with the sequence and the quality string replaced. -/
def setSeqQual (r : BamAlignmentRecord ρ) (s q : List Char) : BamAlignmentRecord ρ :=
  ⟨r.qName, r.flag, s, q, r.cigar, r.rest⟩

/-- Lines 87-109 of `fill_sequences`: the record written for `nextRecord`
when it belongs to the group of `firstRecord`.  `none` means undefined
behaviour: an element of an empty CIGAR string is read or a range outside the
sequence or quality string of `firstRecord` is copied. -/
def fillRecord (firstRecord nextRecord : BamAlignmentRecord ρ) :
    Option (BamAlignmentRecord ρ) :=
  if nextRecord.seq.length = 0 ∨ nextRecord.qual.length = 0 then
    match nextRecord.cigar[0]?, nextRecord.cigar[wrapSub nextRecord.cigar.length 1]? with
    | some c0, some cl =>
      if c0.operation = 'H' ∨ cl.operation = 'H' then
        match
          segment firstRecord.seq (if c0.operation = 'H' then c0.count else 0)
            (if cl.operation = 'H' then wrapSub firstRecord.seq.length cl.count
             else firstRecord.seq.length),
          segment firstRecord.qual (if c0.operation = 'H' then c0.count else 0)
            (if cl.operation = 'H' then wrapSub firstRecord.seq.length cl.count
             else firstRecord.seq.length) with
        | some s, some q => some (setSeqQual nextRecord s q)
        | _, _ => none
      else some (setSeqQual nextRecord firstRecord.seq firstRecord.qual)
    | _, _ => none
  else some nextRecord

/-- The loop of `fill_sequences` (lines 71-113) on the records still to be
read, with the current `firstRecord` and the records written so far.  The
result is the returned value (`true` for `return 1`) and the records written
to the output stream. -/
def fillLoop : BamAlignmentRecord ρ → List (BamAlignmentRecord ρ) → List (BamAlignmentRecord ρ) →
    Option (Bool × List (BamAlignmentRecord ρ))
  | _, [], out => some (false, out)
  | firstRecord, nextRecord :: inStream, out =>
    if firstRecord.qName ≠ nextRecord.qName ∨
        hasFlagFirst firstRecord ≠ hasFlagFirst nextRecord then
      if nextRecord.seq.length = 0 ∨ nextRecord.qual.length = 0 then some (true, out)
      else fillLoop nextRecord inStream (out ++ [nextRecord])
    else
      match fillRecord firstRecord nextRecord with
      | none => none
      | some r => fillLoop firstRecord inStream (out ++ [r])

/-- Source `fill_sequences` on the list of records of the input stream. -/
def fill_sequences [Inhabited ρ] (inStream : List (BamAlignmentRecord ρ)) :
    Option (Bool × List (BamAlignmentRecord ρ)) :=
  fillLoop defaultRecord inStream []

/-! ## Groups of records (specification side) -/

/-- Two records belong to the same group: same read name and same
first-in-pair flag. -/
def sameGroup (a b : BamAlignmentRecord ρ) : Prop :=
  a.qName = b.qName ∧ hasFlagFirst a = hasFlagFirst b

instance (a b : BamAlignmentRecord ρ) : Decidable (sameGroup a b) :=
  inferInstanceAs (Decidable (a.qName = b.qName ∧ hasFlagFirst a = hasFlagFirst b))

/-- The stream cut into its groups: maximal runs of consecutive records of the
same group. -/
def groups : List (BamAlignmentRecord ρ) → List (List (BamAlignmentRecord ρ))
  | [] => []
  | r :: rs =>
    match groups rs with
    | (q :: g) :: gs => if sameGroup r q then (r :: q :: g) :: gs else [r] :: (q :: g) :: gs
    | _ => [[r]]

/-- Count of the leading hard-clip operation of a record, 0 if there is none. -/
def leadingClip (r : BamAlignmentRecord ρ) : Nat :=
  match r.cigar.head? with
  | some c => if c.operation = 'H' then c.count else 0
  | none => 0

/-- Count of the trailing hard-clip operation of a record, 0 if there is none. -/
def trailingClip (r : BamAlignmentRecord ρ) : Nat :=
  match r.cigar.getLast? with
  | some c => if c.operation = 'H' then c.count else 0
  | none => 0

/-- The slice `s[b..e)`. -/
def slice (s : List Char) (b e : Nat) : List Char := (s.drop b).take (e - b)

/-- The record expected for a later record `r` of the group of `primary`. -/
def repairSpec (primary r : BamAlignmentRecord ρ) : BamAlignmentRecord ρ :=
  if r.seq = [] ∨ r.qual = [] then
    setSeqQual r
      (slice primary.seq (leadingClip r) (primary.seq.length - trailingClip r))
      (slice primary.qual (leadingClip r) (primary.seq.length - trailingClip r))
  else r

/-- The records expected for a group: its first record as it is, the later
ones repaired from the first. -/
def repairGroup : List (BamAlignmentRecord ρ) → List (BamAlignmentRecord ρ)
  | [] => []
  | primary :: later => primary :: later.map (repairSpec primary)

/-- A later record of a group that lacks sequence or quality has a CIGAR
string whose hard clips fit into the sequence of the first record. -/
def MemberOk (primary r : BamAlignmentRecord ρ) : Prop :=
  (r.seq = [] ∨ r.qual = []) →
    r.cigar ≠ [] ∧ leadingClip r + trailingClip r ≤ primary.seq.length

instance (primary r : BamAlignmentRecord ρ) : Decidable (MemberOk primary r) :=
  inferInstanceAs (Decidable ((r.seq = [] ∨ r.qual = []) →
    r.cigar ≠ [] ∧ leadingClip r + trailingClip r ≤ primary.seq.length))

/-- A group starts with a record that has a sequence and a quality string of
the same length, and its later records can be repaired from it. -/
def GroupOk : List (BamAlignmentRecord ρ) → Prop
  | [] => True
  | primary :: later =>
    primary.seq ≠ [] ∧ primary.qual ≠ [] ∧ primary.qual.length = primary.seq.length ∧
      ∀ r ∈ later, MemberOk primary r

instance : (g : List (BamAlignmentRecord ρ)) → Decidable (GroupOk g)
  | [] => isTrue trivial
  | primary :: later =>
    inferInstanceAs (Decidable (primary.seq ≠ [] ∧ primary.qual ≠ [] ∧
      primary.qual.length = primary.seq.length ∧ ∀ r ∈ later, MemberOk primary r))

/-- What `fill_sequences` may change in a record: only the sequence and the
quality string, and neither of them if the record carries both. -/
def Repaired (r o : BamAlignmentRecord ρ) : Prop :=
  o.qName = r.qName ∧ o.flag = r.flag ∧ o.cigar = r.cigar ∧ o.rest = r.rest ∧
    (r.seq ≠ [] ∧ r.qual ≠ [] → o = r)

/-- A primary record `r1` on the first read of its pair. -/
def primaryRecord : BamAlignmentRecord Unit :=
  ⟨"r1".toList, 64, "ACGTACGT".toList, "IIIIHHHH".toList, [⟨'M', 8⟩], ()⟩

/-- A secondary record of `r1` without sequence and quality, hard-clipped by 2
bases in front and by 3 bases at the end. -/
def clippedRecord : BamAlignmentRecord Unit :=
  ⟨"r1".toList, 320, [], [], [⟨'H', 2⟩, ⟨'M', 3⟩, ⟨'H', 3⟩], ()⟩

/-- A secondary record of `r1` without sequence, quality and hard clip. -/
def plainRecord : BamAlignmentRecord Unit :=
  ⟨"r1".toList, 320, [], [], [⟨'M', 8⟩], ()⟩

/-- A secondary record of `r1` without sequence, quality and CIGAR string. -/
def bareRecord : BamAlignmentRecord Unit :=
  ⟨"r1".toList, 320, [], [], [], ()⟩

/-- A record with an empty read name on the second read of its pair. -/
def namelessRecord : BamAlignmentRecord Unit :=
  ⟨[], 128, "ACGT".toList, "IIII".toList, [⟨'M', 4⟩], ()⟩

/-- A secondary record of the nameless read without sequence and quality. -/
def namelessSecondary : BamAlignmentRecord Unit :=
  ⟨[], 384, [], [], [⟨'M', 4⟩], ()⟩

/-- The primary record of the second read of `r1`. -/
def mateRecord : BamAlignmentRecord Unit :=
  ⟨"r1".toList, 128, "TTGGCC".toList, "FFFFFF".toList, [⟨'M', 6⟩], ()⟩

end Popins

namespace Popins

variable {α : Type}

/-! ## Reading lists through `getD` -/

theorem getD_set_self {β : Type} (l : List β) (i : Nat) (a d : β) (h : i < l.length) :
    (l.set i a).getD i d = a := by
  simp [List.getD_eq_getElem?_getD, h]

theorem getD_set_ne {β : Type} (l : List β) (i j : Nat) (a d : β) (h : i ≠ j) :
    (l.set i a).getD j d = l.getD j d := by
  simp [List.getD_eq_getElem?_getD, List.getElem?_set, h]

theorem getD_append_one {β : Type} (l : List β) (a d : β) (j : Nat) :
    (l ++ [a]).getD j d = if j = l.length then a else l.getD j d := by
  rcases Nat.lt_trichotomy j l.length with h | h | h
  · simp [List.getD_eq_getElem?_getD, List.getElem?_append_left h, Nat.ne_of_lt h]
  · subst h; simp [List.getD_eq_getElem?_getD]
  · have h1 : l.length ≤ j := Nat.le_of_lt h
    have h2 : (l ++ [a]).length ≤ j := by simp; omega
    simp [List.getD_eq_getElem?_getD, List.getElem?_eq_none h1, List.getElem?_eq_none h2,
      Nat.ne_of_gt h]

/-! ## Frame lemmas of the graph primitives -/

theorem outEdges_addEdge (g : ComponentGraph α) (s t w : Nat) (h : s < g.graph.length) :
    outEdges (addEdge g s t) w = if w = s then t :: outEdges g s else outEdges g w := by
  by_cases hw : w = s
  · subst hw
    simp only [outEdges, addEdge, if_true]
    rw [getD_set_self _ _ _ _ h]
  · simp only [outEdges, addEdge, hw, if_false]
    rw [getD_set_ne _ _ _ _ _ (Ne.symm hw)]

theorem label_addEdge (g : ComponentGraph α) (s t w : Nat) :
    label (addEdge g s t) w = label g w := rfl

theorem sources_addEdge (g : ComponentGraph α) (s t : Nat) :
    (addEdge g s t).sources = g.sources := rfl

theorem length_addEdge (g : ComponentGraph α) (s t : Nat) :
    (addEdge g s t).graph.length = g.graph.length := by simp [addEdge]

theorem seqLength_addEdge (g : ComponentGraph α) (s t : Nat) :
    (addEdge g s t).sequenceMap.length = g.sequenceMap.length := rfl

theorem outEdges_removeOutEdges (g : ComponentGraph α) (u w : Nat) :
    outEdges (removeOutEdges g u) w = if w = u then [] else outEdges g w := by
  by_cases hw : w = u
  · subst hw
    by_cases h : w < g.graph.length
    · simp only [outEdges, removeOutEdges, if_true]
      rw [getD_set_self _ _ _ _ h]
    · simp [outEdges, removeOutEdges, List.getD_eq_getElem?_getD, List.getElem?_eq_none,
        Nat.le_of_not_lt h]
  · simp only [outEdges, removeOutEdges, hw, if_false]
    rw [getD_set_ne _ _ _ _ _ (Ne.symm hw)]

theorem outEdges_setLabel (g : ComponentGraph α) (u : Nat) (s : List α) (w : Nat) :
    outEdges (setLabel g u s) w = outEdges g w := rfl

theorem label_setLabel (g : ComponentGraph α) (u : Nat) (s : List α) (w : Nat)
    (h : u < g.sequenceMap.length) :
    label (setLabel g u s) w = if w = u then s else label g w := by
  by_cases hw : w = u
  · subst hw
    simp only [label, setLabel, if_true]
    rw [getD_set_self _ _ _ _ h]
  · simp only [label, setLabel, hw, if_false]
    rw [getD_set_ne _ _ _ _ _ (Ne.symm hw)]

theorem outEdges_addVertex (g : ComponentGraph α) (s : List α) (w : Nat) :
    outEdges (addVertex g s).1 w = outEdges g w := by
  simp only [outEdges, addVertex, getD_append_one]
  split
  · next h => subst h; simp [List.getD_eq_getElem?_getD]
  · rfl

theorem label_addVertex (g : ComponentGraph α) (s : List α) (w : Nat) :
    label (addVertex g s).1 w = if w = g.sequenceMap.length then s else label g w := by
  simp only [label, addVertex, getD_append_one]

theorem foldl_addEdge_graph (v : Nat) (ts : List Nat) (g : ComponentGraph α) :
    (ts.foldl (fun acc t => addEdge acc v t) g).graph.length = g.graph.length ∧
    (ts.foldl (fun acc t => addEdge acc v t) g).sources = g.sources ∧
    (ts.foldl (fun acc t => addEdge acc v t) g).sequenceMap = g.sequenceMap := by
  induction ts generalizing g with
  | nil => simp
  | cons t ts ih =>
    rw [List.foldl_cons]
    obtain ⟨h1, h2, h3⟩ := ih (addEdge g v t)
    exact ⟨by rw [h1, length_addEdge], by rw [h2, sources_addEdge], by rw [h3]; rfl⟩

theorem outEdges_foldl_addEdge (v : Nat) (ts : List Nat) (g : ComponentGraph α)
    (h : v < g.graph.length) (w : Nat) :
    outEdges (ts.foldl (fun acc t => addEdge acc v t) g) w
      = if w = v then ts.reverse ++ outEdges g v else outEdges g w := by
  induction ts generalizing g with
  | nil => by_cases hw : w = v <;> simp [hw]
  | cons t ts ih =>
    have h2 : v < (addEdge g v t).graph.length := by rw [length_addEdge]; exact h
    rw [List.foldl_cons, ih _ h2, outEdges_addEdge g v t v h, outEdges_addEdge g v t w h]
    by_cases hw : w = v <;> simp [hw]

/-! ## `splitVertex` -/

theorem splitVertex_snd (g : ComponentGraph α) (u : Nat) (a b : List α) :
    (splitVertex g u a b).2 = g.graph.length := rfl

theorem splitVertex_sources (g : ComponentGraph α) (u : Nat) (a b : List α) :
    (splitVertex g u a b).1.sources = g.sources := by
  simp only [splitVertex, sources_addEdge, setLabel, removeOutEdges]
  exact (foldl_addEdge_graph _ _ _).2.1

theorem splitVertex_length (g : ComponentGraph α) (u : Nat) (a b : List α) :
    (splitVertex g u a b).1.graph.length = g.graph.length + 1 := by
  simp only [splitVertex, length_addEdge, setLabel, removeOutEdges, List.length_set]
  rw [(foldl_addEdge_graph _ _ _).1]
  simp [addVertex]

theorem splitVertex_seqLength (g : ComponentGraph α) (u : Nat) (a b : List α) :
    (splitVertex g u a b).1.sequenceMap.length = g.sequenceMap.length + 1 := by
  simp only [splitVertex, seqLength_addEdge, setLabel, removeOutEdges, List.length_set]
  rw [(foldl_addEdge_graph _ _ _).2.2]
  simp [addVertex]

theorem outEdges_splitVertex (g : ComponentGraph α) (u : Nat) (a b : List α)
    (hu : u < g.graph.length) (w : Nat) :
    outEdges (splitVertex g u a b).1 w
      = if w = u then [g.graph.length]
        else if w = g.graph.length then (outEdges g u).reverse else outEdges g w := by
  have hv : g.graph.length < (addVertex g b).1.graph.length := by simp [addVertex]
  have hu3 : u < (setLabel (removeOutEdges ((outEdges (addVertex g b).1 u).foldl
      (fun acc t => addEdge acc (addVertex g b).2 t) (addVertex g b).1) u) u a).graph.length := by
    simp only [setLabel, removeOutEdges, List.length_set]
    rw [(foldl_addEdge_graph _ _ _).1]
    exact Nat.lt_trans hu hv
  simp only [splitVertex]
  rw [outEdges_addEdge _ _ _ _ hu3]
  by_cases hw : w = u
  · subst hw
    simp [outEdges_setLabel, outEdges_removeOutEdges]
    rfl
  · simp only [hw, if_false, outEdges_setLabel, outEdges_removeOutEdges]
    have : (addVertex g b).2 = g.graph.length := rfl
    rw [this, outEdges_foldl_addEdge _ _ _ hv, outEdges_addVertex, outEdges_addVertex,
      outEdges_addVertex]
    by_cases hw2 : w = g.graph.length
    · simp [hw2, outEdges, List.getD_eq_getElem?_getD]
    · simp [hw2]

theorem label_splitVertex (g : ComponentGraph α) (u : Nat) (a b : List α)
    (hlen : g.sequenceMap.length = g.graph.length) (hu : u < g.graph.length) (w : Nat) :
    label (splitVertex g u a b).1 w
      = if w = u then a else if w = g.graph.length then b else label g w := by
  have hseq : ((outEdges (addVertex g b).1 u).foldl
      (fun acc t => addEdge acc (addVertex g b).2 t) (addVertex g b).1).sequenceMap
      = g.sequenceMap ++ [b] := by
    rw [(foldl_addEdge_graph _ _ _).2.2]; rfl
  have hu2 : u < (removeOutEdges ((outEdges (addVertex g b).1 u).foldl
      (fun acc t => addEdge acc (addVertex g b).2 t) (addVertex g b).1) u).sequenceMap.length := by
    simp only [removeOutEdges, hseq, List.length_append, List.length_singleton]
    omega
  simp only [splitVertex, label_addEdge]
  rw [label_setLabel _ _ _ _ hu2]
  by_cases hw : w = u
  · simp [hw]
  · simp only [hw, if_false]
    simp only [label, removeOutEdges, hseq, getD_append_one, hlen]

end Popins

namespace Popins

variable {α : Type}

/-! ## The traversal walks the listed routes -/

/-- State of the path after the traversal entered `v`. -/
theorem routePath_cons (g : ComponentGraph α) (p : Path α) (v : Nat) (r : List Nat) :
    routePath g p (v :: r)
      = routePath g { seq := p.seq ++ label g v,
                      positionMap := mapSet p.positionMap (p.seq ++ label g v).length v } r := rfl

theorem foldlM_dfs_eq (g : ComponentGraph α) (prev path : Path α) (v : Nat)
    (hpath : ∀ r, routePath g prev (v :: r) = routePath g path r)
    (D : List (Path α) → Nat → Option (List (Path α) × Nat))
    (R : Nat → Option (List (List Nat)))
    (hD : ∀ acc u, D acc u
      = (R u).map (fun rs => (acc ++ rs.map (routePath g path), rs.length)))
    (ts : List Nat) (paths : List (Path α)) (acc : List (List Nat)) :
    ts.foldlM (fun a u => (D a u).map Prod.fst) (paths ++ acc.map (routePath g prev))
      = (ts.foldlM (fun a u => (R u).map (fun rs => a ++ rs.map (fun r => v :: r))) acc).map
          (fun rs => paths ++ rs.map (routePath g prev)) := by
  induction ts generalizing acc with
  | nil => simp
  | cons t ts ih =>
    rw [List.foldlM_cons, List.foldlM_cons, hD]
    cases hR : R t with
    | none => simp
    | some rs =>
      simp only [Option.map_some', Option.bind_eq_bind, Option.some_bind]
      have h := ih (acc ++ rs.map (fun r => v :: r))
      have e : (rs.map (fun r => v :: r)).map (routePath g prev) = rs.map (routePath g path) := by
        rw [List.map_map]
        apply List.map_congr_left
        intro r _
        exact hpath r
      rw [List.map_append, e, ← List.append_assoc] at h
      exact h

theorem enumeratePathsDfs_eq (fuel : Nat) (g : ComponentGraph α) (paths : List (Path α))
    (prev : Path α) (v : Nat) :
    enumeratePathsDfs fuel g paths prev v
      = (routesFrom fuel g v).map
          (fun rs => (paths ++ rs.map (routePath g prev), rs.length)) := by
  induction fuel generalizing paths prev v with
  | zero => rfl
  | succ f ih =>
    simp only [enumeratePathsDfs, routesFrom]
    by_cases hs : outDegree g v = 0
    · simp [hs, routePath]
    · simp only [hs, if_false]
      have h := foldlM_dfs_eq g prev
        { seq := prev.seq ++ label g v,
          positionMap := mapSet prev.positionMap (prev.seq ++ label g v).length v } v
        (fun r => routePath_cons g prev v r)
        (fun acc u => enumeratePathsDfs f g acc
          { seq := prev.seq ++ label g v,
            positionMap := mapSet prev.positionMap (prev.seq ++ label g v).length v } u)
        (routesFrom f g) (fun acc u => ih acc _ u) (outEdges g v) paths []
      simp only [List.map_nil, List.append_nil] at h
      rw [h]
      cases (outEdges g v).foldlM
        (fun a u => (routesFrom f g u).map (fun rs => a ++ rs.map (fun r => v :: r))) [] with
      | none => rfl
      | some rs => simp

theorem foldlM_sources_eq (fuel : Nat) (g : ComponentGraph α) (p0 : Path α)
    (ts : List Nat) (paths : List (Path α)) (acc : List (List Nat)) :
    ts.foldlM (fun a s => (enumeratePathsDfs fuel g a p0 s).map Prod.fst)
        (paths ++ acc.map (routePath g p0))
      = (ts.foldlM (fun a s => (routesFrom fuel g s).map (fun rs => a ++ rs)) acc).map
          (fun rs => paths ++ rs.map (routePath g p0)) := by
  induction ts generalizing acc with
  | nil => simp
  | cons t ts ih =>
    rw [List.foldlM_cons, List.foldlM_cons, enumeratePathsDfs_eq]
    cases hR : routesFrom fuel g t with
    | none => simp
    | some rs =>
      simp only [Option.map_some', Option.bind_eq_bind, Option.some_bind]
      have h := ih (acc ++ rs)
      rw [List.map_append, ← List.append_assoc] at h
      exact h

/-- The traversal from the sources appends one path per listed route. -/
theorem enumeratePaths_eq (fuel : Nat) (g : ComponentGraph α) (paths : List (Path α)) :
    enumeratePaths fuel g paths
      = (allRoutes fuel g).map (fun rs =>
          (paths ++ rs.map (routePath g { seq := [], positionMap := [] }),
           (paths ++ rs.map (routePath g { seq := [], positionMap := [] })).length)) := by
  have h := foldlM_sources_eq fuel g { seq := [], positionMap := [] } g.sources paths []
  simp only [List.map_nil, List.append_nil] at h
  simp only [enumeratePaths, allRoutes, h, Option.map_map]
  rfl

end Popins

namespace Popins

variable {α : Type}

/-! ## Sequences of routes -/

theorem foldl_label_append (g : ComponentGraph α) (r : List Nat) (init : List α) :
    r.foldl (fun acc v => acc ++ label g v) init = init ++ routeSeq g r := by
  induction r generalizing init with
  | nil => simp [routeSeq]
  | cons v r ih =>
    simp only [routeSeq, List.foldl_cons, List.nil_append]
    rw [ih, ih (label g v), List.append_assoc]

theorem routeSeq_cons (g : ComponentGraph α) (v : Nat) (r : List Nat) :
    routeSeq g (v :: r) = label g v ++ routeSeq g r := by
  simp only [routeSeq, List.foldl_cons, List.nil_append]
  exact foldl_label_append g r (label g v)

theorem routeSeq_nil (g : ComponentGraph α) : routeSeq g [] = [] := rfl

theorem routeSeq_append (g : ComponentGraph α) (r1 r2 : List Nat) :
    routeSeq g (r1 ++ r2) = routeSeq g r1 ++ routeSeq g r2 := by
  induction r1 with
  | nil => simp [routeSeq_nil]
  | cons v r ih => simp [routeSeq_cons, ih]

theorem routePath_seq (g : ComponentGraph α) (p : Path α) (r : List Nat) :
    (routePath g p r).seq = p.seq ++ routeSeq g r := by
  induction r generalizing p with
  | nil => simp [routePath, routeSeq_nil]
  | cons v r ih => rw [routePath_cons, ih, routeSeq_cons, List.append_assoc]

/-! ## Multiplicity of the listed routes -/

theorem chainMult_pos_iff (g : ComponentGraph α) (r : List Nat) :
    0 < chainMult g r ↔ IsChain g r := by
  induction r with
  | nil => simp [chainMult, IsChain]
  | cons u r ih =>
    cases r with
    | nil => by_cases h : outDegree g u = 0 <;> simp [chainMult, IsChain, h]
    | cons w rest =>
      simp only [chainMult, IsChain, Nat.mul_pos_iff_of_pos_right, ← ih]
      rw [Nat.pos_iff_ne_zero, Nat.pos_iff_ne_zero, Ne, Nat.mul_eq_zero, not_or,
        ← Ne, ← Ne, ← Nat.pos_iff_ne_zero, List.count_pos_iff]

theorem count_map_cons (v : Nat) (rs : List (List Nat)) (r : List Nat) :
    (rs.map (fun x => v :: x)).count r
      = match r with
        | [] => 0
        | u :: r1 => if u = v then rs.count r1 else 0 := by
  induction rs with
  | nil => cases r <;> simp
  | cons x rs ih =>
    rw [List.map_cons, List.count_cons, ih]
    cases r with
    | nil => simp
    | cons u r1 =>
      by_cases huv : u = v
      · subst huv
        simp [List.count_cons]
      · have : ¬ (u = v ∧ r1 = x) := fun h => huv h.1
        have h2 : ¬ (v = u ∧ x = r1) := fun h => huv h.1.symm
        simp [huv, this, h2]

/-- Number of ways to walk `r` from `v`. -/
theorem count_fold_children (g : ComponentGraph α) (v : Nat)
    (R : Nat → Option (List (List Nat)))
    (hR : ∀ u rs, R u = some rs → ∀ r, rs.count r = if r.head? = some u then chainMult g r else 0)
    (ts : List Nat) (acc out : List (List Nat))
    (h : ts.foldlM (fun a u => (R u).map (fun rs => a ++ rs.map (fun r => v :: r))) acc = some out)
    (r : List Nat) :
    out.count r = acc.count r +
      match r with
      | [] => 0
      | [_] => 0
      | u :: w :: rest => if u = v then ts.count w * chainMult g (w :: rest) else 0 := by
  induction ts generalizing acc with
  | nil =>
    simp only [List.foldlM_nil, pure, Option.some.injEq] at h
    subst h
    rcases r with _ | ⟨u, _ | ⟨w, rest⟩⟩ <;> simp
  | cons t ts ih =>
    rw [List.foldlM_cons] at h
    cases hRt : R t with
    | none => simp [hRt] at h
    | some rs =>
      simp only [hRt, Option.map_some', Option.bind_eq_bind, Option.some_bind] at h
      rw [ih _ h, List.count_append, count_map_cons]
      rcases r with _ | ⟨u, _ | ⟨w, rest⟩⟩
      · simp
      · dsimp only
        rw [hR t rs hRt]
        simp [chainMult]
      · dsimp only
        rw [hR t rs hRt]
        by_cases huv : u = v
        · by_cases hwt : w = t
          · subst hwt; simp [huv, List.count_cons, Nat.add_mul]; ring
          · have : ¬ t = w := fun h => hwt h.symm
            simp [huv, hwt, this, List.count_cons]
        · simp [huv]

theorem routesFrom_count (fuel : Nat) (g : ComponentGraph α) (v : Nat) (rs : List (List Nat))
    (h : routesFrom fuel g v = some rs) (r : List Nat) :
    rs.count r = if r.head? = some v then chainMult g r else 0 := by
  induction fuel generalizing v rs r with
  | zero => simp [routesFrom] at h
  | succ f ih =>
    simp only [routesFrom] at h
    by_cases hs : outDegree g v = 0
    · simp only [hs, if_true, Option.some.injEq] at h
      subst h
      have hnil : outEdges g v = [] := List.length_eq_zero.mp hs
      rcases r with _ | ⟨u, _ | ⟨w, rest⟩⟩
      · simp
      · by_cases huv : u = v
        · subst huv; simp [chainMult, hs]
        · have : ¬ v = u := fun h => huv h.symm
          simp [huv, this]
      · by_cases huv : u = v
        · subst huv; simp [chainMult, hnil]
        · simp [huv]
    · simp only [hs, if_false] at h
      have hc := count_fold_children g v (routesFrom f g) (fun u rs hu r => ih u rs hu r)
        (outEdges g v) [] rs h r
      rw [hc]
      rcases r with _ | ⟨u, _ | ⟨w, rest⟩⟩
      · simp
      · by_cases huv : u = v
        · subst huv; simp [chainMult, hs]
        · simp [huv]
      · by_cases huv : u = v
        · subst huv; simp [chainMult]
        · simp [huv]

theorem count_fold_sources (fuel : Nat) (g : ComponentGraph α)
    (ts : List Nat) (acc out : List (List Nat))
    (h : ts.foldlM (fun a s => (routesFrom fuel g s).map (fun rs => a ++ rs)) acc = some out)
    (r : List Nat) :
    out.count r = acc.count r +
      match r with
      | [] => 0
      | v :: _ => ts.count v * chainMult g r := by
  induction ts generalizing acc with
  | nil =>
    simp only [List.foldlM_nil, pure, Option.some.injEq] at h
    subst h
    cases r <;> simp
  | cons t ts ih =>
    rw [List.foldlM_cons] at h
    cases hRt : routesFrom fuel g t with
    | none => simp [hRt] at h
    | some rs =>
      simp only [hRt, Option.map_some', Option.bind_eq_bind, Option.some_bind] at h
      rw [ih _ h, List.count_append, routesFrom_count fuel g t rs hRt]
      cases r with
      | nil => simp
      | cons v r1 =>
        by_cases hvt : v = t
        · subst hvt; simp [List.count_cons, Nat.add_mul]; ring
        · have : ¬ t = v := fun h => hvt h.symm
          simp [hvt, this, List.count_cons]

/-- Every vertex list occurs among the listed routes as often as its multiplicity. -/
theorem allRoutes_count (fuel : Nat) (g : ComponentGraph α) (rs : List (List Nat))
    (h : allRoutes fuel g = some rs) (r : List Nat) :
    rs.count r = routeMult g r := by
  have hc := count_fold_sources fuel g g.sources [] rs h r
  rw [hc]
  cases r <;> simp [routeMult]

theorem routeMult_pos_iff (g : ComponentGraph α) (r : List Nat) :
    0 < routeMult g r ↔ IsRoute g r := by
  cases r with
  | nil => simp [routeMult, IsRoute, IsChain]
  | cons v r1 =>
    simp only [routeMult, IsRoute, List.head?_cons, Option.some.injEq, exists_eq_left',
      ← chainMult_pos_iff, ← List.count_pos_iff]
    constructor
    · intro h
      exact ⟨Nat.pos_of_mul_pos_right h |> fun _ => Nat.pos_of_ne_zero (fun h0 => by simp [h0] at h),
             Nat.pos_of_ne_zero (fun h0 => by simp [h0] at h)⟩
    · intro h
      exact Nat.mul_pos h.1 h.2

end Popins

namespace Popins

variable {α : Type}

/-! ## Termination of the traversal on acyclic graphs -/

theorem foldlM_some_of_forall {β γ : Type} (F : β → γ → Option β) (ts : List γ)
    (h : ∀ a t, t ∈ ts → ∃ b, F a t = some b) (acc : β) :
    ∃ out, ts.foldlM F acc = some out := by
  induction ts generalizing acc with
  | nil => exact ⟨acc, rfl⟩
  | cons t ts ih =>
    obtain ⟨b, hb⟩ := h acc t (List.mem_cons_self _ _)
    obtain ⟨out, ho⟩ := ih (fun a x hx => h a x (List.mem_cons_of_mem _ hx)) b
    exact ⟨out, by rw [List.foldlM_cons, hb]; exact ho⟩

theorem foldlM_congr_mem {β γ : Type} (F G : β → γ → Option β) (ts : List γ)
    (h : ∀ a t, t ∈ ts → F a t = G a t) (acc : β) :
    ts.foldlM F acc = ts.foldlM G acc := by
  induction ts generalizing acc with
  | nil => rfl
  | cons t ts ih =>
    rw [List.foldlM_cons, List.foldlM_cons, h acc t (List.mem_cons_self _ _)]
    cases G acc t with
    | none => rfl
    | some b => exact ih (fun a x hx => h a x (List.mem_cons_of_mem _ hx)) b

theorem routesFrom_terminates (g : ComponentGraph α) (rank : Nat → Nat)
    (hrank : ∀ u w, w ∈ outEdges g u → rank w < rank u) (fuel v : Nat) (h : rank v < fuel) :
    ∃ rs, routesFrom fuel g v = some rs := by
  induction fuel generalizing v with
  | zero => omega
  | succ f ih =>
    simp only [routesFrom]
    by_cases hs : outDegree g v = 0
    · exact ⟨[[v]], by simp [hs]⟩
    · simp only [hs, if_false]
      apply foldlM_some_of_forall
      intro a t ht
      obtain ⟨rs, hrs⟩ := ih t (by have := hrank v t ht; omega)
      exact ⟨_, by rw [hrs]; rfl⟩

theorem rank_le_sum (rank : Nat → Nat) (l : List Nat) (s : Nat) (h : s ∈ l) :
    rank s ≤ (l.map rank).sum := by
  induction l with
  | nil => simp at h
  | cons x l ih =>
    rcases List.mem_cons.mp h with h | h
    · subst h; simp
    · have := ih h; simp; omega

theorem allRoutes_terminates (g : ComponentGraph α) (rank : Nat → Nat)
    (hrank : ∀ u w, w ∈ outEdges g u → rank w < rank u) (fuel : Nat)
    (h : (g.sources.map rank).sum < fuel) :
    ∃ rs, allRoutes fuel g = some rs := by
  apply foldlM_some_of_forall
  intro a t ht
  obtain ⟨rs, hrs⟩ := routesFrom_terminates g rank hrank fuel t
    (Nat.lt_of_le_of_lt (rank_le_sum rank _ _ ht) h)
  exact ⟨_, by rw [hrs]; rfl⟩

/-- More fuel does not change a result. -/
theorem routesFrom_mono (g : ComponentGraph α) (fuel v : Nat) (rs : List (List Nat))
    (h : routesFrom fuel g v = some rs) (fuel2 : Nat) (hle : fuel ≤ fuel2) :
    routesFrom fuel2 g v = some rs := by
  induction fuel generalizing v rs fuel2 with
  | zero => simp [routesFrom] at h
  | succ f ih =>
    obtain ⟨f2, rfl⟩ : ∃ f2, fuel2 = f2 + 1 := ⟨fuel2 - 1, by omega⟩
    simp only [routesFrom] at h ⊢
    by_cases hs : outDegree g v = 0
    · simpa [hs] using h
    · simp only [hs, if_false] at h ⊢
      have key : ∀ (ts : List Nat) (acc out : List (List Nat)),
          ts.foldlM (fun a u => (routesFrom f g u).map
            (fun rs => a ++ rs.map (fun r => v :: r))) acc = some out →
          ts.foldlM (fun a u => (routesFrom f2 g u).map
            (fun rs => a ++ rs.map (fun r => v :: r))) acc = some out := by
        intro ts
        induction ts with
        | nil => intro acc out h; exact h
        | cons t ts iht =>
          intro acc out h
          rw [List.foldlM_cons] at h ⊢
          cases hR : routesFrom f g t with
          | none => simp [hR] at h
          | some rs1 =>
            rw [ih t rs1 hR f2 (by omega)]
            simp only [hR, Option.map_some', Option.bind_eq_bind, Option.some_bind] at h ⊢
            exact iht _ _ h
      exact key _ _ _ h

theorem allRoutes_mono (g : ComponentGraph α) (fuel : Nat) (rs : List (List Nat))
    (h : allRoutes fuel g = some rs) (fuel2 : Nat) (hle : fuel ≤ fuel2) :
    allRoutes fuel2 g = some rs := by
  have key : ∀ (ts : List Nat) (acc out : List (List Nat)),
      ts.foldlM (fun a s => (routesFrom fuel g s).map (fun rs => a ++ rs)) acc = some out →
      ts.foldlM (fun a s => (routesFrom fuel2 g s).map (fun rs => a ++ rs)) acc = some out := by
    intro ts
    induction ts with
    | nil => intro acc out h; exact h
    | cons t ts iht =>
      intro acc out h
      rw [List.foldlM_cons] at h ⊢
      cases hR : routesFrom fuel g t with
      | none => simp [hR] at h
      | some rs1 =>
        rw [routesFrom_mono g fuel t rs1 hR fuel2 hle]
        simp only [hR, Option.map_some', Option.bind_eq_bind, Option.some_bind] at h ⊢
        exact iht _ _ h
  exact key _ _ _ h

end Popins

namespace Popins

variable {α : Type} [DecidableEq α]

/-! ## The driver loop -/

theorem addSequencesLoop_nil (fuel : Nat) (aligner : Aligner α) (mbl : Nat) (ms ep : Int)
    (q : Nat) (g : ComponentGraph α) :
    addSequencesLoop fuel aligner mbl ms ep q g [] = some (true, g) := rfl

theorem addSequencesLoop_cons (fuel : Nat) (aligner : Aligner α) (mbl : Nat) (ms ep : Int)
    (q : Nat) (g : ComponentGraph α) (s : List α) (rest : List (List α)) :
    addSequencesLoop fuel aligner mbl ms ep q g (s :: rest)
      = match mergeRound fuel aligner mbl ms ep q g s with
        | none => none
        | some (false, g1) => some (false, g1)
        | some (true, g1) => addSequencesLoop fuel aligner mbl ms ep q g1 rest := by
  simp only [addSequencesLoop, mergeRound]
  cases enumeratePaths fuel g [] with
  | none => rfl
  | some r =>
    obtain ⟨paths, n⟩ := r
    by_cases hc : paths.length > 30
    · simp [hc]
    · simp only [hc, if_false]
      cases selectPath aligner s ms ep q paths with
      | none => rfl
      | some st =>
        obtain ⟨m, b⟩ := st
        cases b with
        | none => rfl
        | some b =>
          obtain ⟨bp, al⟩ := b
          dsimp only
          cases mergeSeqWithGraph g bp s al mbl with
          | none => rfl
          | some g1 => rfl

theorem addSequencesLoop_append (fuel : Nat) (aligner : Aligner α) (mbl : Nat) (ms ep : Int)
    (q : Nat) (g : ComponentGraph α) (xs ys : List (List α)) :
    addSequencesLoop fuel aligner mbl ms ep q g (xs ++ ys)
      = match addSequencesLoop fuel aligner mbl ms ep q g xs with
        | none => none
        | some (false, g1) => some (false, g1)
        | some (true, g1) => addSequencesLoop fuel aligner mbl ms ep q g1 ys := by
  induction xs generalizing g with
  | nil => rfl
  | cons x xs ih =>
    rw [List.cons_append, addSequencesLoop_cons, addSequencesLoop_cons]
    cases mergeRound fuel aligner mbl ms ep q g x with
    | none => rfl
    | some r =>
      obtain ⟨b, g1⟩ := r
      cases b with
      | false => rfl
      | true => exact ih g1

/-- A failed round leaves the graph it was started on. -/
theorem mergeRound_false (fuel : Nat) (aligner : Aligner α) (mbl : Nat) (ms ep : Int)
    (q : Nat) (g g1 : ComponentGraph α) (s : List α) :
    mergeRound fuel aligner mbl ms ep q g s = some (false, g1) ↔
      g1 = g ∧ ∃ paths n, enumeratePaths fuel g [] = some (paths, n) ∧ 30 < paths.length := by
  simp only [mergeRound]
  cases enumeratePaths fuel g [] with
  | none => simp
  | some r =>
    obtain ⟨paths, n⟩ := r
    by_cases hc : paths.length > 30
    · simp only [hc, if_true, Option.some.injEq, Prod.mk.injEq, true_and]
      constructor
      · intro h; exact ⟨h.symm, paths, n, ⟨rfl, rfl⟩, hc⟩
      · intro h; exact h.1.symm
    · simp only [hc, if_false]
      constructor
      · intro h
        exfalso
        cases hsel : selectPath aligner s ms ep q paths with
        | none => simp [hsel] at h
        | some st =>
          obtain ⟨m, b⟩ := st
          cases b with
          | none => simp [hsel] at h
          | some b =>
            obtain ⟨bp, al⟩ := b
            simp only [hsel] at h
            cases hm : mergeSeqWithGraph g bp s al mbl with
            | none => simp [hm] at h
            | some g2 => simp [hm] at h
      · rintro ⟨_, p2, n2, h2, h3⟩
        simp only [Option.some.injEq, Prod.mk.injEq] at h2
        exact absurd (h2.1 ▸ h3) hc

/-- The loop fails exactly when some round is reached on a graph with more
than 30 paths. -/
theorem addSequencesLoop_false_iff (fuel : Nat) (aligner : Aligner α) (mbl : Nat) (ms ep : Int)
    (q : Nat) (g : ComponentGraph α) (rest : List (List α)) :
    (∃ g1, addSequencesLoop fuel aligner mbl ms ep q g rest = some (false, g1)) ↔
      ∃ j g1 paths n, j < rest.length ∧
        addSequencesLoop fuel aligner mbl ms ep q g (rest.take j) = some (true, g1) ∧
        enumeratePaths fuel g1 [] = some (paths, n) ∧ 30 < paths.length := by
  induction rest generalizing g with
  | nil => simp [addSequencesLoop_nil]
  | cons s rest ih =>
    rw [addSequencesLoop_cons]
    constructor
    · rintro ⟨g1, h⟩
      cases hr : mergeRound fuel aligner mbl ms ep q g s with
      | none => simp [hr] at h
      | some r =>
        obtain ⟨b, g2⟩ := r
        cases b with
        | false =>
          obtain ⟨_, paths, n, hp, hc⟩ := (mergeRound_false fuel aligner mbl ms ep q g g2 s).mp hr
          exact ⟨0, g, paths, n, by simp, rfl, hp, hc⟩
        | true =>
          simp only [hr] at h
          obtain ⟨j, g3, paths, n, hj, hl, hp, hc⟩ := (ih g2).mp ⟨g1, h⟩
          refine ⟨j + 1, g3, paths, n, by simp; omega, ?_, hp, hc⟩
          rw [List.take_succ_cons, addSequencesLoop_cons, hr]
          exact hl
    · rintro ⟨j, g3, paths, n, hj, hl, hp, hc⟩
      cases j with
      | zero =>
        simp only [List.take_zero, addSequencesLoop_nil, Option.some.injEq, Prod.mk.injEq,
          true_and] at hl
        subst hl
        have := (mergeRound_false fuel aligner mbl ms ep q g g s).mpr ⟨rfl, paths, n, hp, hc⟩
        exact ⟨g, by rw [this]⟩
      | succ j =>
        rw [List.take_succ_cons, addSequencesLoop_cons] at hl
        cases hr : mergeRound fuel aligner mbl ms ep q g s with
        | none => simp [hr] at hl
        | some r =>
          obtain ⟨b, g2⟩ := r
          cases b with
          | false => simp [hr] at hl
          | true =>
            simp only [hr] at hl ⊢
            exact (ih g2).mpr ⟨j, g3, paths, n, by simpa using hj, hl, hp, hc⟩

end Popins

namespace Popins

variable {α : Type} [DecidableEq α]

/-! ## The voting loop of the diagonal finder -/

theorem incrCounter_spec (cs : List Nat) (x : Nat) (h : x < cs.length) :
    ∃ cs1, incrCounter cs x = some cs1 ∧ cs1.length = cs.length ∧
      ∀ j, cs1.getD j 0 = cs.getD j 0 + if x = j then 1 else 0 := by
  refine ⟨cs.set x (cs.getD x 0 + 1), by simp [incrCounter, h], by simp, ?_⟩
  intro j
  by_cases hj : x = j
  · subst hj
    rw [getD_set_self _ _ _ _ h]; simp
  · rw [getD_set_ne _ _ _ _ _ hj]; simp [hj]

theorem foldlM_incr (idxs : List Nat) (cs : List Nat) (h : ∀ x ∈ idxs, x < cs.length) :
    ∃ cs1, idxs.foldlM incrCounter cs = some cs1 ∧ cs1.length = cs.length ∧
      ∀ j, cs1.getD j 0 = cs.getD j 0 + idxs.count j := by
  induction idxs generalizing cs with
  | nil => exact ⟨cs, rfl, rfl, by simp⟩
  | cons x idxs ih =>
    obtain ⟨c1, h1, h2, h3⟩ := incrCounter_spec cs x (h x (List.mem_cons_self _ _))
    obtain ⟨c2, h4, h5, h6⟩ := ih c1 (fun y hy => by
      rw [h2]; exact h y (List.mem_cons_of_mem _ hy))
    refine ⟨c2, by rw [List.foldlM_cons, h1]; exact h4, by rw [h5, h2], ?_⟩
    intro j
    rw [h6, h3, List.count_cons]
    by_cases hj : x = j
    · simp [hj]; omega
    · simp [hj]

theorem foldlM_incr_nested (L : Nat → List Nat) (is : List Nat) (cs : List Nat)
    (h : ∀ i ∈ is, ∀ x ∈ L i, x < cs.length) :
    ∃ cs1, is.foldlM (fun c i => (L i).foldlM incrCounter c) cs = some cs1 ∧
      cs1.length = cs.length ∧
      ∀ j, cs1.getD j 0 = cs.getD j 0 + (is.map (fun i => (L i).count j)).sum := by
  induction is generalizing cs with
  | nil => exact ⟨cs, rfl, rfl, by simp⟩
  | cons i is ih =>
    obtain ⟨c1, h1, h2, h3⟩ := foldlM_incr (L i) cs (h i (List.mem_cons_self _ _))
    obtain ⟨c2, h4, h5, h6⟩ := ih c1 (fun y hy x hx => by
      rw [h2]; exact h y (List.mem_cons_of_mem _ hy) x hx)
    refine ⟨c2, by rw [List.foldlM_cons, h1]; exact h4, by rw [h5, h2], ?_⟩
    intro j
    rw [h6, h3]
    simp only [List.map_cons, List.sum_cons]
    omega

theorem foldlM_map_incr (f : Nat → Nat) (ps : List Nat) (cs : List Nat) :
    ps.foldlM (fun c p => incrCounter c (f p)) cs = (ps.map f).foldlM incrCounter cs := by
  induction ps generalizing cs with
  | nil => rfl
  | cons p ps ih =>
    rw [List.map_cons, List.foldlM_cons, List.foldlM_cons]
    cases incrCounter cs (f p) with
    | none => rfl
    | some c => exact ih c

theorem getD_replicate_zero (n j : Nat) : (List.replicate n 0).getD j 0 = 0 := by
  by_cases h : j < n
  · simp [List.getD_eq_getElem?_getD, List.getElem?_replicate, h]
  · simp [List.getD_eq_getElem?_getD, List.getElem?_replicate, h]

/-- With a seed of positive length within both sequences the voting loop
stays inside the counter array, and counter `j` holds the votes of the diagonal
`j - len1`. -/
theorem countHits_spec (seq1 seq2 : List α) (k : Nat) (hk : 1 ≤ k)
    (h1 : k ≤ seq1.length) (h2 : k ≤ seq2.length) :
    ∃ cs, countHits seq1 seq2 k = some cs ∧ cs.length = seq1.length + seq2.length ∧
      ∀ j, cs.getD j 0 = diagVotes seq1 seq2 k ((j : Int) - (seq1.length : Int)) := by
  have hb : ∀ i ∈ List.range (seq2.length - k + 1),
      ∀ x ∈ (getOccurrences seq1 k (qgram seq2 i k)).map (fun p => seq1.length + i - p),
      x < (List.replicate (seq1.length + seq2.length) 0).length := by
    intro i hi x hx
    simp only [List.mem_range] at hi
    simp only [getOccurrences, List.mem_map, List.mem_filter, List.mem_range] at hx
    obtain ⟨p, ⟨hp, _⟩, rfl⟩ := hx
    simp only [List.length_replicate]
    omega
  obtain ⟨cs, hc1, hc2, hc3⟩ := foldlM_incr_nested
    (fun i => (getOccurrences seq1 k (qgram seq2 i k)).map (fun p => seq1.length + i - p))
    (List.range (seq2.length - k + 1)) _ hb
  refine ⟨cs, ?_, by simpa using hc2, ?_⟩
  · simp only [countHits, foldlM_map_incr]
    exact hc1
  · intro j
    rw [hc3, getD_replicate_zero, Nat.zero_add, diagVotes]
    have e : seq2.length - k + 1 = seq2.length + 1 - k := by omega
    rw [e]
    congr 1
    apply List.map_congr_left
    intro i _
    rw [List.count_eq_countP, List.countP_map, List.countP_eq_length_filter, getOccurrences,
      List.filter_filter]
    congr 1
    apply List.filter_congr
    intro p hp
    simp only [List.mem_range] at hp
    have : (seq1.length + i - p = j) ↔ ((i : Int) - (p : Int) = (j : Int) - (seq1.length : Int)) := by
      omega
    rw [Bool.eq_iff_iff]
    simp only [Function.comp, Bool.and_eq_true, decide_eq_true_eq, beq_iff_eq, this]
    tauto

end Popins

namespace Popins

variable {α : Type} [DecidableEq α]

/-! ## The scan for the best counter -/

/-- A difference that fits an `int` is stored as it is. -/
theorem unsignedToInt_eq (x : Int) (h1 : -2147483648 ≤ x) (h2 : x < 2147483648) :
    unsignedToInt x = x := by
  unfold unsignedToInt
  omega

/-- State of the scan after the first `m` counters: either all of them are zero
and the state is untouched, or the state holds the first largest counter. -/
theorem scan_invariant (c : List Nat) (len1 m : Nat) :
    ((List.range m).foldl
        (fun (st : Int × Nat) i =>
          if st.2 < c.getD i 0 then (unsignedToInt ((i : Int) - (len1 : Int)), c.getD i 0)
          else st)
        (NONE, 0) = (NONE, 0) ∧ ∀ j, j < m → c.getD j 0 = 0) ∨
    (∃ i0, i0 < m ∧
      (List.range m).foldl
        (fun (st : Int × Nat) i =>
          if st.2 < c.getD i 0 then (unsignedToInt ((i : Int) - (len1 : Int)), c.getD i 0)
          else st)
        (NONE, 0) = (unsignedToInt ((i0 : Int) - (len1 : Int)), c.getD i0 0) ∧
      0 < c.getD i0 0 ∧ (∀ j, j < m → c.getD j 0 ≤ c.getD i0 0) ∧
      (∀ j, j < i0 → c.getD j 0 < c.getD i0 0)) := by
  induction m with
  | zero => left; exact ⟨rfl, fun j hj => absurd hj (Nat.not_lt_zero j)⟩
  | succ m ih =>
    rw [List.range_succ, List.foldl_append, List.foldl_cons, List.foldl_nil]
    rcases ih with ⟨hst, hz⟩ | ⟨i0, hi0, hst, hpos, hmax, hfirst⟩
    · rw [hst]
      by_cases hm : 0 < c.getD m 0
      · right
        refine ⟨m, Nat.lt_succ_self m, by dsimp only; rw [if_pos hm], hm, ?_, ?_⟩
        · intro j hj
          rcases Nat.lt_succ_iff_lt_or_eq.mp hj with h | h
          · rw [hz j h]; exact Nat.zero_le _
          · rw [h]
        · intro j hj
          rw [hz j hj]; exact hm
      · left
        refine ⟨by dsimp only; rw [if_neg hm], ?_⟩
        intro j hj
        rcases Nat.lt_succ_iff_lt_or_eq.mp hj with h | h
        · exact hz j h
        · rw [h]; omega
    · rw [hst]
      by_cases hm : c.getD i0 0 < c.getD m 0
      · right
        refine ⟨m, Nat.lt_succ_self m, by dsimp only; rw [if_pos hm], by omega, ?_, ?_⟩
        · intro j hj
          rcases Nat.lt_succ_iff_lt_or_eq.mp hj with h | h
          · have := hmax j h; omega
          · rw [h]
        · intro j hj
          have := hmax j hj; omega
      · right
        refine ⟨i0, Nat.lt_succ_of_lt hi0, by dsimp only; rw [if_neg hm], hpos, ?_, hfirst⟩
        intro j hj
        rcases Nat.lt_succ_iff_lt_or_eq.mp hj with h | h
        · exact hmax j h
        · rw [h]; omega

theorem diagVotes_pos_of_shared (seq1 seq2 : List α) (k p q : Nat)
    (hp : p + k ≤ seq1.length) (hq : q + k ≤ seq2.length)
    (h : qgram seq1 p k = qgram seq2 q k) :
    0 < diagVotes seq1 seq2 k ((q : Int) - (p : Int)) := by
  unfold diagVotes
  apply Nat.pos_of_ne_zero
  intro hz
  have h1 := List.sum_eq_zero_iff.mp hz
    (((List.range (seq1.length + 1 - k)).filter (fun p1 =>
      decide (qgram seq1 p1 k = qgram seq2 q k ∧ (q : Int) - (p1 : Int) = (q : Int) - (p : Int)))).length)
    (List.mem_map.mpr ⟨q, List.mem_range.mpr (by omega), rfl⟩)
  rw [List.length_eq_zero, List.filter_eq_nil_iff] at h1
  exact h1 p (List.mem_range.mpr (by omega)) (by simp [h])

end Popins

namespace Popins

variable {α : Type} [DecidableEq α]

/-! ## Values returned by the diagonal finder -/

/-- The sentinel is returned only by the length check: while the seed fits
into both sequences no call of the retry chain returns it. -/
theorem bestDiagonalFuel_ne_NONE (fuel : Nat) (seq1 seq2 : List α) (k : Nat)
    (h1 : k ≤ seq1.length) (h2 : k ≤ seq2.length) :
    bestDiagonalFuel fuel seq1 seq2 k ≠ some NONE := by
  induction fuel generalizing k with
  | zero => simp [bestDiagonalFuel]
  | succ f ih =>
    have hg : ¬ (k > seq1.length ∨ k > seq2.length) := by omega
    simp only [bestDiagonalFuel, hg, if_false]
    cases countHits seq1 seq2 k with
    | none => simp
    | some cs =>
      dsimp only
      by_cases hd : (scanCounters cs seq1.length).1 = NONE
      · rw [if_pos hd]
        exact ih (k * 2 / 3) (by omega) (by omega)
      · rw [if_neg hd]
        intro h
        exact hd (Option.some.inj h)

/-- The first call returns the scanned diagonal when some counter is set. -/
theorem bestDiagonal_of_scan (seq1 seq2 : List α) (k : Nat)
    (h1 : k ≤ seq1.length) (h2 : k ≤ seq2.length) (cs : List Nat)
    (hc : countHits seq1 seq2 k = some cs) (d : Int)
    (hd : (scanCounters cs seq1.length).1 = d) (hne : d ≠ NONE) :
    bestDiagonal seq1 seq2 k = some d := by
  have hg : ¬ (k > seq1.length ∨ k > seq2.length) := by omega
  simp only [bestDiagonal, bestDiagonalFuel, hg, if_false, hc]
  rw [hd, if_neg hne]

end Popins

namespace Popins

variable {α : Type}

/-! ## The traversal as a flat map over the children -/

theorem foldlM_children_iff (R : Nat → Option (List (List Nat))) (v : Nat) (ts : List Nat)
    (acc out : List (List Nat)) :
    ts.foldlM (fun a u => (R u).map (fun rs => a ++ rs.map (fun r => v :: r))) acc = some out ↔
      (∀ u ∈ ts, ∃ L, R u = some L) ∧
      out = acc ++ ts.flatMap (fun u => ((R u).getD []).map (fun r => v :: r)) := by
  induction ts generalizing acc with
  | nil => simp [eq_comm]
  | cons t ts ih =>
    rw [List.foldlM_cons]
    cases hR : R t with
    | none => simp [hR]
    | some L =>
      simp only [Option.map_some', Option.bind_eq_bind, Option.some_bind, ih, List.mem_cons,
        forall_eq_or_imp, hR, Option.some.injEq, exists_eq', true_and, List.flatMap_cons,
        Option.getD_some, List.append_assoc]

theorem foldlM_sources_iff (R : Nat → Option (List (List Nat))) (ts : List Nat)
    (acc out : List (List Nat)) :
    ts.foldlM (fun a u => (R u).map (fun rs => a ++ rs)) acc = some out ↔
      (∀ u ∈ ts, ∃ L, R u = some L) ∧
      out = acc ++ ts.flatMap (fun u => (R u).getD []) := by
  induction ts generalizing acc with
  | nil => simp [eq_comm]
  | cons t ts ih =>
    rw [List.foldlM_cons]
    cases hR : R t with
    | none => simp [hR]
    | some L =>
      simp only [Option.map_some', Option.bind_eq_bind, Option.some_bind, ih, List.mem_cons,
        forall_eq_or_imp, hR, Option.some.injEq, exists_eq', true_and, List.flatMap_cons,
        Option.getD_some, List.append_assoc]

theorem routesFrom_zero (g : ComponentGraph α) (w : Nat) : routesFrom 0 g w = none := rfl

theorem routesFrom_sink (f : Nat) (g : ComponentGraph α) (w : Nat) (h : outEdges g w = []) :
    routesFrom (f + 1) g w = some [[w]] := by
  simp [routesFrom, outDegree, h]

theorem routesFrom_inner (f : Nat) (g : ComponentGraph α) (w : Nat) (h : outEdges g w ≠ [])
    (rs : List (List Nat)) :
    routesFrom (f + 1) g w = some rs ↔
      (∀ u ∈ outEdges g w, ∃ L, routesFrom f g u = some L) ∧
      rs = (outEdges g w).flatMap (fun u => ((routesFrom f g u).getD []).map (fun r => w :: r)) := by
  have hd : ¬ outDegree g w = 0 := by
    simp only [outDegree, List.length_eq_zero]; exact h
  simp only [routesFrom, hd, if_false]
  rw [foldlM_children_iff]
  simp

theorem allRoutes_iff (f : Nat) (g : ComponentGraph α) (rs : List (List Nat)) :
    allRoutes f g = some rs ↔
      (∀ u ∈ g.sources, ∃ L, routesFrom f g u = some L) ∧
      rs = g.sources.flatMap (fun u => (routesFrom f g u).getD []) := by
  simp only [allRoutes]
  rw [foldlM_sources_iff]
  simp

/-- A vertex with a child is not visited within depth 1. -/
theorem fuel_pos_of_child (f : Nat) (g : ComponentGraph α) (u : Nat) (L : List (List Nat))
    (h : routesFrom f g u = some L) : 0 < f := by
  cases f with
  | zero => simp [routesFrom] at h
  | succ f => exact Nat.succ_pos f

end Popins

namespace Popins

variable {α : Type}

/-! ## Routes after hanging a branch vertex off a vertex -/

theorem notEndsIn_cons (b w : Nat) (r : List Nat) (h : w ≠ b) :
    notEndsIn b (w :: r) = notEndsIn b r := by
  cases r with
  | nil => simp [notEndsIn, h]
  | cons x r => simp [notEndsIn, List.getLast?_cons_cons]

theorem filter_map_children (b w : Nat) (hw : w ≠ b) (lab : List α)
    (seqA seqB : List Nat → List α)
    (hA : ∀ r, seqA (w :: r) = lab ++ seqA r) (hB : ∀ r, seqB (w :: r) = lab ++ seqB r)
    (LA LB : Nat → List (List Nat)) (ts : List Nat)
    (h : ∀ u ∈ ts, ((LB u).filter (notEndsIn b)).map seqB = (LA u).map seqA) :
    ((ts.flatMap (fun u => (LB u).map (fun r => w :: r))).filter (notEndsIn b)).map seqB
      = (ts.flatMap (fun u => (LA u).map (fun r => w :: r))).map seqA := by
  rw [List.filter_flatMap, List.map_flatMap, List.map_flatMap]
  apply List.flatMap_congr
  intro u hu
  rw [List.filter_map, List.map_map, List.map_map]
  have e1 : (notEndsIn b ∘ fun r => w :: r) = notEndsIn b := by
    funext r; exact notEndsIn_cons b w r hw
  rw [e1]
  have e2 : (seqB ∘ fun r => w :: r) = (fun x => lab ++ x) ∘ seqB := by
    funext r; exact hB r
  have e3 : (seqA ∘ fun r => w :: r) = (fun x => lab ++ x) ∘ seqA := by
    funext r; exact hA r
  rw [e2, e3, ← List.map_map, ← List.map_map, h u hu]

theorem perm_map_children (w : Nat) (labA labB : List α)
    (seqA seqB : List Nat → List α)
    (hA : ∀ r, seqA (w :: r) = labA ++ seqA r) (hB : ∀ r, seqB (w :: r) = labB ++ seqB r)
    (hlab : labA = labB)
    (LA LB : Nat → List (List Nat)) (ts : List Nat)
    (h : ∀ u ∈ ts, ((LB u).map seqB).Perm ((LA u).map seqA)) :
    ((ts.flatMap (fun u => (LB u).map (fun r => w :: r))).map seqB).Perm
      ((ts.flatMap (fun u => (LA u).map (fun r => w :: r))).map seqA) := by
  subst hlab
  rw [List.map_flatMap, List.map_flatMap]
  apply List.Perm.flatMap_left
  intro u hu
  rw [List.map_map, List.map_map]
  have e2 : (seqB ∘ fun r => w :: r) = (fun x => labA ++ x) ∘ seqB := by
    funext r; exact hB r
  have e3 : (seqA ∘ fun r => w :: r) = (fun x => labA ++ x) ∘ seqA := by
    funext r; exact hA r
  rw [e2, e3, ← List.map_map, ← List.map_map]
  exact (h u hu).map _

/-- Adding the edge `v → b` to a fresh sink `b` below a vertex `v` that has
children: the routes not ending in `b` keep their sequences. -/
theorem branch_routes (G1 G2 : ComponentGraph α) (v b : Nat)
    (hE : ∀ w, w ≠ v → outEdges G2 w = outEdges G1 w)
    (hEv : outEdges G2 v = b :: outEdges G1 v)
    (hne : outEdges G1 v ≠ [])
    (hL : ∀ w, w ≠ b → label G2 w = label G1 w)
    (hwf : ∀ u w, w ∈ outEdges G1 u → w ≠ b) (hvb : v ≠ b) (hb : outEdges G1 b = [])
    (f w : Nat) (rs : List (List Nat)) (hw : w ≠ b) (h : routesFrom f G1 w = some rs) :
    ∃ rs2, routesFrom f G2 w = some rs2 ∧
      (rs2.filter (notEndsIn b)).map (routeSeq G2) = rs.map (routeSeq G1) := by
  induction f generalizing w rs with
  | zero => simp [routesFrom] at h
  | succ f ih =>
    have hAseq : ∀ r, routeSeq G1 (w :: r) = label G1 w ++ routeSeq G1 r :=
      fun r => routeSeq_cons G1 w r
    have hBseq : ∀ r, routeSeq G2 (w :: r) = label G1 w ++ routeSeq G2 r :=
      fun r => by rw [routeSeq_cons, hL w hw]
    by_cases hs : outEdges G1 w = []
    · -- a sink of the old graph is not `v`
      have hwv : w ≠ v := fun e => hne (e ▸ hs)
      rw [routesFrom_sink f G1 w hs] at h
      simp only [Option.some.injEq] at h
      subst h
      refine ⟨[[w]], routesFrom_sink f G2 w (by rw [hE w hwv]; exact hs), ?_⟩
      simp [notEndsIn, hw, routeSeq_cons, routeSeq_nil, hL w hw]
    · obtain ⟨hall, hrs⟩ := (routesFrom_inner f G1 w hs rs).mp h
      have hchild : ∀ u ∈ outEdges G1 w, ∃ L2, routesFrom f G2 u = some L2 ∧
          (L2.filter (notEndsIn b)).map (routeSeq G2)
            = ((routesFrom f G1 u).getD []).map (routeSeq G1) := by
        intro u hu
        obtain ⟨L, hLu⟩ := hall u hu
        obtain ⟨L2, h2, h3⟩ := ih u L (hwf w u hu) hLu
        exact ⟨L2, h2, by rw [hLu]; exact h3⟩
      have hkey := filter_map_children b w hw (label G1 w) (routeSeq G1) (routeSeq G2)
        hAseq hBseq (fun u => (routesFrom f G1 u).getD []) (fun u => (routesFrom f G2 u).getD [])
        (outEdges G1 w) (fun u hu => by
          obtain ⟨L2, h2, h3⟩ := hchild u hu
          dsimp only
          rw [h2]; exact h3)
      by_cases hwv : w = v
      · subst hwv
        have hs2 : outEdges G2 w ≠ [] := by rw [hEv]; simp
        have hfpos : 0 < f := by
          obtain ⟨t, ht⟩ := List.exists_mem_of_ne_nil _ hs
          obtain ⟨L, hLt⟩ := hall t ht
          exact fuel_pos_of_child f G1 t L hLt
        obtain ⟨f1, rfl⟩ : ∃ f1, f = f1 + 1 := ⟨f - 1, by omega⟩
        have hbsink : routesFrom (f1 + 1) G2 b = some [[b]] :=
          routesFrom_sink f1 G2 b (by rw [hE b (Ne.symm hvb)]; exact hb)
        refine ⟨_, (routesFrom_inner (f1 + 1) G2 w hs2 _).mpr ⟨?_, rfl⟩, ?_⟩
        · intro u hu
          rw [hEv] at hu
          rcases List.mem_cons.mp hu with rfl | hu
          · exact ⟨_, hbsink⟩
          · obtain ⟨L2, h2, _⟩ := hchild u hu
            exact ⟨L2, h2⟩
        · rw [hEv, List.flatMap_cons, hbsink, List.filter_append, List.map_append, hrs]
          have : List.filter (notEndsIn b) (List.map (fun r => w :: r) ((some [[b]]).getD []))
              = [] := by
            simp [notEndsIn]
          rw [this, List.map_nil, List.nil_append]
          exact hkey
      · have hs2 : outEdges G2 w ≠ [] := by rw [hE w hwv]; exact hs
        refine ⟨_, (routesFrom_inner f G2 w hs2 _).mpr ⟨?_, rfl⟩, ?_⟩
        · intro u hu
          rw [hE w hwv] at hu
          obtain ⟨L2, h2, _⟩ := hchild u hu
          exact ⟨L2, h2⟩
        · rw [hE w hwv, hrs]
          exact hkey

end Popins

namespace Popins

variable {α : Type}

/-! ## Routes after splitting a vertex -/

theorem perm_map_children_gen (lab : List α) (cA cB : List Nat → List Nat)
    (seqA seqB : List Nat → List α)
    (hA : ∀ r, seqA (cA r) = lab ++ seqA r) (hB : ∀ r, seqB (cB r) = lab ++ seqB r)
    (LA LB : Nat → List (List Nat)) (ts : List Nat)
    (h : ∀ u ∈ ts, ((LB u).map seqB).Perm ((LA u).map seqA)) :
    ((ts.flatMap (fun u => (LB u).map cB)).map seqB).Perm
      ((ts.flatMap (fun u => (LA u).map cA)).map seqA) := by
  rw [List.map_flatMap, List.map_flatMap]
  apply List.Perm.flatMap_left
  intro u hu
  rw [List.map_map, List.map_map]
  have e2 : (seqB ∘ cB) = (fun x => lab ++ x) ∘ seqB := by
    funext r; exact hB r
  have e3 : (seqA ∘ cA) = (fun x => lab ++ x) ∘ seqA := by
    funext r; exact hA r
  rw [e2, e3, ← List.map_map, ← List.map_map]
  exact (h u hu).map _

/-- Splitting `v` into `v → n1`, where `n1` takes over the out-edges of `v` in
reversed order and the two labels concatenate to the old label: every old
vertex keeps the sequences of its routes, as a multiset. -/
theorem split_routes (G G1 : ComponentGraph α) (v n1 : Nat)
    (hE : ∀ w, w ≠ v → w ≠ n1 → outEdges G1 w = outEdges G w)
    (hEv : outEdges G1 v = [n1])
    (hEn : outEdges G1 n1 = (outEdges G v).reverse)
    (hL : ∀ w, w ≠ v → w ≠ n1 → label G1 w = label G w)
    (hLv : label G1 v ++ label G1 n1 = label G v)
    (hwf : ∀ u w, w ∈ outEdges G u → w ≠ n1) (hvn : v ≠ n1)
    (f w : Nat) (rs : List (List Nat)) (hw : w ≠ n1) (h : routesFrom f G w = some rs) :
    ∃ rs1, routesFrom (2 * f) G1 w = some rs1 ∧
      (rs1.map (routeSeq G1)).Perm (rs.map (routeSeq G)) := by
  induction f generalizing w rs with
  | zero => simp [routesFrom] at h
  | succ f ih =>
    have e2f : 2 * (f + 1) = (2 * f + 1) + 1 := by ring
    rw [e2f]
    by_cases hwv : w = v
    · subst hwv
      have hs1 : outEdges G1 w ≠ [] := by rw [hEv]; simp
      have hAseq : ∀ r, routeSeq G (w :: r) = label G w ++ routeSeq G r :=
        fun r => routeSeq_cons G w r
      have hBseq : ∀ r, routeSeq G1 (w :: n1 :: r) = label G w ++ routeSeq G1 r :=
        fun r => by rw [routeSeq_cons, routeSeq_cons, ← List.append_assoc, hLv]
      by_cases hs : outEdges G w = []
      · rw [routesFrom_sink f G w hs] at h
        simp only [Option.some.injEq] at h
        subst h
        have hn : routesFrom (2 * f + 1) G1 n1 = some [[n1]] :=
          routesFrom_sink (2 * f) G1 n1 (by rw [hEn, hs]; rfl)
        refine ⟨_, (routesFrom_inner (2 * f + 1) G1 w hs1 _).mpr ⟨?_, rfl⟩, ?_⟩
        · intro u hu
          rw [hEv] at hu
          simp only [List.mem_singleton] at hu
          subst hu
          exact ⟨_, hn⟩
        · rw [hEv]
          simp only [List.flatMap_cons, List.flatMap_nil, List.append_nil, hn, Option.getD_some,
            List.map_cons, List.map_nil]
          rw [hBseq, routeSeq_cons, routeSeq_nil, routeSeq_nil]
      · obtain ⟨hall, hrs⟩ := (routesFrom_inner f G w hs rs).mp h
        have hchild : ∀ u ∈ outEdges G w, ∃ L1, routesFrom (2 * f) G1 u = some L1 ∧
            (L1.map (routeSeq G1)).Perm (((routesFrom f G u).getD []).map (routeSeq G)) := by
          intro u hu
          obtain ⟨L, hLu⟩ := hall u hu
          obtain ⟨L1, h2, h3⟩ := ih u L (hwf w u hu) hLu
          exact ⟨L1, h2, by rw [hLu]; exact h3⟩
        have hsn : outEdges G1 n1 ≠ [] := by
          rw [hEn]; simpa using hs
        obtain ⟨fp, hfp⟩ : ∃ fp, 2 * f = fp + 1 := by
          obtain ⟨t, ht⟩ := List.exists_mem_of_ne_nil _ hs
          obtain ⟨L, hLt⟩ := hall t ht
          have := fuel_pos_of_child f G t L hLt
          exact ⟨2 * f - 1, by omega⟩
        have hn : routesFrom (2 * f + 1) G1 n1
            = some ((outEdges G1 n1).flatMap
                (fun u => ((routesFrom (2 * f) G1 u).getD []).map (fun r => n1 :: r))) := by
          refine (routesFrom_inner (2 * f) G1 n1 hsn _).mpr ⟨?_, rfl⟩
          intro u hu
          rw [hEn, List.mem_reverse] at hu
          obtain ⟨L1, h2, _⟩ := hchild u hu
          exact ⟨L1, h2⟩
        refine ⟨_, (routesFrom_inner (2 * f + 1) G1 w hs1 _).mpr ⟨?_, rfl⟩, ?_⟩
        · intro u hu
          rw [hEv] at hu
          simp only [List.mem_singleton] at hu
          subst hu
          exact ⟨_, hn⟩
        · rw [hEv]
          simp only [List.flatMap_cons, List.flatMap_nil, List.append_nil, hn, Option.getD_some]
          rw [hrs, hEn, List.map_flatMap]
          simp only [List.map_map]
          have hperm := perm_map_children_gen (label G w) (fun r => w :: r)
            (fun r => w :: n1 :: r) (routeSeq G) (routeSeq G1) hAseq hBseq
            (fun u => (routesFrom f G u).getD []) (fun u => (routesFrom (2 * f) G1 u).getD [])
            (outEdges G w) (fun u hu => by
              obtain ⟨L1, h2, h3⟩ := hchild u hu
              dsimp only
              rw [h2]; exact h3)
          refine List.Perm.trans ?_ hperm
          apply List.Perm.map
          exact List.Perm.flatMap_right _ (List.reverse_perm _)
    · have hAseq : ∀ r, routeSeq G (w :: r) = label G w ++ routeSeq G r :=
        fun r => routeSeq_cons G w r
      have hBseq : ∀ r, routeSeq G1 (w :: r) = label G w ++ routeSeq G1 r :=
        fun r => by rw [routeSeq_cons, hL w hwv hw]
      by_cases hs : outEdges G w = []
      · rw [routesFrom_sink f G w hs] at h
        simp only [Option.some.injEq] at h
        subst h
        refine ⟨[[w]], routesFrom_sink _ G1 w (by rw [hE w hwv hw]; exact hs), ?_⟩
        simp [routeSeq_cons, routeSeq_nil, hL w hwv hw]
      · obtain ⟨hall, hrs⟩ := (routesFrom_inner f G w hs rs).mp h
        have hchild : ∀ u ∈ outEdges G w, ∃ L1, routesFrom (2 * f + 1) G1 u = some L1 ∧
            (L1.map (routeSeq G1)).Perm (((routesFrom f G u).getD []).map (routeSeq G)) := by
          intro u hu
          obtain ⟨L, hLu⟩ := hall u hu
          obtain ⟨L1, h2, h3⟩ := ih u L (hwf w u hu) hLu
          exact ⟨L1, routesFrom_mono G1 _ u L1 h2 _ (Nat.le_succ _), by rw [hLu]; exact h3⟩
        have hs2 : outEdges G1 w ≠ [] := by rw [hE w hwv hw]; exact hs
        refine ⟨_, (routesFrom_inner (2 * f + 1) G1 w hs2 _).mpr ⟨?_, rfl⟩, ?_⟩
        · intro u hu
          rw [hE w hwv hw] at hu
          obtain ⟨L1, h2, _⟩ := hchild u hu
          exact ⟨L1, h2⟩
        · rw [hE w hwv hw, hrs]
          exact perm_map_children_gen (label G w) (fun r => w :: r) (fun r => w :: r)
            (routeSeq G) (routeSeq G1) hAseq hBseq
            (fun u => (routesFrom f G u).getD []) (fun u => (routesFrom (2 * f + 1) G1 u).getD [])
            (outEdges G w) (fun u hu => by
              obtain ⟨L1, h2, h3⟩ := hchild u hu
              dsimp only
              rw [h2]; exact h3)

end Popins

namespace Popins

variable {α : Type}

/-! ## The two steps on the routes from all sources -/

theorem branch_allRoutes (G1 G2 : ComponentGraph α) (v b : Nat)
    (hE : ∀ w, w ≠ v → outEdges G2 w = outEdges G1 w)
    (hEv : outEdges G2 v = b :: outEdges G1 v)
    (hne : outEdges G1 v ≠ [])
    (hL : ∀ w, w ≠ b → label G2 w = label G1 w)
    (hwf : ∀ u w, w ∈ outEdges G1 u → w ≠ b) (hvb : v ≠ b) (hb : outEdges G1 b = [])
    (hsrc : G2.sources = G1.sources) (hsb : ∀ s ∈ G1.sources, s ≠ b)
    (f : Nat) (rs : List (List Nat)) (h : allRoutes f G1 = some rs) :
    ∃ rs2, allRoutes f G2 = some rs2 ∧
      (rs2.filter (notEndsIn b)).map (routeSeq G2) = rs.map (routeSeq G1) := by
  obtain ⟨hall, hrs⟩ := (allRoutes_iff f G1 rs).mp h
  have hchild : ∀ u ∈ G1.sources, ∃ L2, routesFrom f G2 u = some L2 ∧
      (L2.filter (notEndsIn b)).map (routeSeq G2)
        = ((routesFrom f G1 u).getD []).map (routeSeq G1) := by
    intro u hu
    obtain ⟨L, hLu⟩ := hall u hu
    obtain ⟨L2, h2, h3⟩ := branch_routes G1 G2 v b hE hEv hne hL hwf hvb hb f u L (hsb u hu) hLu
    exact ⟨L2, h2, by rw [hLu]; exact h3⟩
  refine ⟨_, (allRoutes_iff f G2 _).mpr ⟨?_, rfl⟩, ?_⟩
  · intro u hu
    rw [hsrc] at hu
    obtain ⟨L2, h2, _⟩ := hchild u hu
    exact ⟨L2, h2⟩
  · rw [hsrc, hrs, List.filter_flatMap, List.map_flatMap, List.map_flatMap]
    apply List.flatMap_congr
    intro u hu
    obtain ⟨L2, h2, h3⟩ := hchild u hu
    rw [h2]; exact h3

theorem split_allRoutes (G G1 : ComponentGraph α) (v n1 : Nat)
    (hE : ∀ w, w ≠ v → w ≠ n1 → outEdges G1 w = outEdges G w)
    (hEv : outEdges G1 v = [n1])
    (hEn : outEdges G1 n1 = (outEdges G v).reverse)
    (hL : ∀ w, w ≠ v → w ≠ n1 → label G1 w = label G w)
    (hLv : label G1 v ++ label G1 n1 = label G v)
    (hwf : ∀ u w, w ∈ outEdges G u → w ≠ n1) (hvn : v ≠ n1)
    (hsrc : G1.sources = G.sources) (hsn : ∀ s ∈ G.sources, s ≠ n1)
    (f : Nat) (rs : List (List Nat)) (h : allRoutes f G = some rs) :
    ∃ rs1, allRoutes (2 * f) G1 = some rs1 ∧
      (rs1.map (routeSeq G1)).Perm (rs.map (routeSeq G)) := by
  obtain ⟨hall, hrs⟩ := (allRoutes_iff f G rs).mp h
  have hchild : ∀ u ∈ G.sources, ∃ L1, routesFrom (2 * f) G1 u = some L1 ∧
      (L1.map (routeSeq G1)).Perm (((routesFrom f G u).getD []).map (routeSeq G)) := by
    intro u hu
    obtain ⟨L, hLu⟩ := hall u hu
    obtain ⟨L1, h2, h3⟩ := split_routes G G1 v n1 hE hEv hEn hL hLv hwf hvn f u L (hsn u hu) hLu
    exact ⟨L1, h2, by rw [hLu]; exact h3⟩
  refine ⟨_, (allRoutes_iff (2 * f) G1 _).mpr ⟨?_, rfl⟩, ?_⟩
  · intro u hu
    rw [hsrc] at hu
    obtain ⟨L1, h2, _⟩ := hchild u hu
    exact ⟨L1, h2⟩
  · rw [hsrc, hrs, List.map_flatMap, List.map_flatMap]
    apply List.Perm.flatMap_left
    intro u hu
    obtain ⟨L1, h2, h3⟩ := hchild u hu
    rw [h2]; exact h3

/-! ## Routes of a terminating traversal do not repeat a vertex -/

theorem mem_routesFrom (f : Nat) (g : ComponentGraph α) (w : Nat) (rs : List (List Nat))
    (h : routesFrom (f + 1) g w = some rs) (r : List Nat) (hr : r ∈ rs) :
    ∃ r1, r = w :: r1 ∧
      ((outEdges g w = [] ∧ r1 = []) ∨
        ∃ u ∈ outEdges g w, ∃ L, routesFrom f g u = some L ∧ r1 ∈ L) := by
  by_cases hs : outEdges g w = []
  · rw [routesFrom_sink f g w hs] at h
    simp only [Option.some.injEq] at h
    subst h
    simp only [List.mem_singleton] at hr
    exact ⟨[], hr, Or.inl ⟨hs, rfl⟩⟩
  · obtain ⟨hall, hrs⟩ := (routesFrom_inner f g w hs rs).mp h
    subst hrs
    simp only [List.mem_flatMap, List.mem_map] at hr
    obtain ⟨u, hu, r1, hr1, rfl⟩ := hr
    obtain ⟨L, hLu⟩ := hall u hu
    rw [hLu] at hr1
    exact ⟨r1, rfl, Or.inr ⟨u, hu, L, hLu, hr1⟩⟩

/-- Every vertex of a listed route is itself visited within the same depth. -/
theorem routesFrom_vertex_some (f : Nat) (g : ComponentGraph α) (w : Nat) (rs : List (List Nat))
    (h : routesFrom f g w = some rs) (r : List Nat) (hr : r ∈ rs) (x : Nat) (hx : x ∈ r) :
    ∃ L, routesFrom f g x = some L := by
  induction f generalizing w rs r with
  | zero => simp [routesFrom] at h
  | succ f ih =>
    obtain ⟨r1, rfl, hcase⟩ := mem_routesFrom f g w rs h r hr
    rcases List.mem_cons.mp hx with rfl | hx1
    · exact ⟨rs, h⟩
    · rcases hcase with ⟨_, rfl⟩ | ⟨u, _, L, hLu, hr1⟩
      · simp at hx1
      · obtain ⟨L2, hL2⟩ := ih u L hLu r1 hr1 hx1
        exact ⟨L2, routesFrom_mono g f x L2 hL2 (f + 1) (Nat.le_succ f)⟩

theorem routesFrom_head_not_in_tail (f : Nat) (g : ComponentGraph α) (w : Nat)
    (rs : List (List Nat)) (h : routesFrom f g w = some rs) (r1 : List Nat)
    (hr : w :: r1 ∈ rs) : w ∉ r1 := by
  induction f with
  | zero => simp [routesFrom] at h
  | succ f ih =>
    intro hmem
    obtain ⟨r2, heq, hcase⟩ := mem_routesFrom f g w rs h _ hr
    simp only [List.cons.injEq, true_and] at heq
    subst heq
    rcases hcase with ⟨_, rfl⟩ | ⟨u, _, L, hLu, hr1⟩
    · simp at hmem
    · obtain ⟨L2, hL2⟩ := routesFrom_vertex_some f g u L hLu r1 hr1 w hmem
      have hsame := routesFrom_mono g f w L2 hL2 (f + 1) (Nat.le_succ f)
      rw [h] at hsame
      simp only [Option.some.injEq] at hsame
      subst hsame
      exact ih hL2 hmem

theorem routesFrom_nodup (f : Nat) (g : ComponentGraph α) (w : Nat) (rs : List (List Nat))
    (h : routesFrom f g w = some rs) (r : List Nat) (hr : r ∈ rs) : r.Nodup := by
  induction f generalizing w rs r with
  | zero => simp [routesFrom] at h
  | succ f ih =>
    obtain ⟨r1, rfl, hcase⟩ := mem_routesFrom f g w rs h r hr
    have hnot := routesFrom_head_not_in_tail (f + 1) g w rs h r1 hr
    rcases hcase with ⟨_, rfl⟩ | ⟨u, _, L, hLu, hr1⟩
    · simp
    · exact List.nodup_cons.mpr ⟨hnot, ih u L hLu r1 hr1⟩

theorem allRoutes_nodup (f : Nat) (g : ComponentGraph α) (rs : List (List Nat))
    (h : allRoutes f g = some rs) (r : List Nat) (hr : r ∈ rs) : r.Nodup := by
  obtain ⟨hall, hrs⟩ := (allRoutes_iff f g rs).mp h
  subst hrs
  simp only [List.mem_flatMap] at hr
  obtain ⟨u, hu, hr1⟩ := hr
  obtain ⟨L, hLu⟩ := hall u hu
  rw [hLu] at hr1
  exact routesFrom_nodup f g u L hLu r hr1

end Popins

namespace Popins

variable {α : Type}

/-! ## The offset map of a path -/

theorem mapSet_mem (m : List (Nat × Nat)) (k v : Nat) : (k, v) ∈ mapSet m k v := by
  induction m with
  | nil => simp [mapSet]
  | cons e m ih =>
    simp only [mapSet]
    split
    · simp
    · split
      · simp
      · exact List.mem_cons_of_mem _ ih

theorem mapSet_keys (m : List (Nat × Nat)) (k v : Nat) (e : Nat × Nat)
    (h : e ∈ mapSet m k v) : e = (k, v) ∨ e ∈ m := by
  induction m with
  | nil => simp [mapSet] at h; exact Or.inl h
  | cons a m ih =>
    simp only [mapSet] at h
    split at h
    · rcases List.mem_cons.mp h with h | h
      · exact Or.inl h
      · exact Or.inr h
    · split at h
      · rcases List.mem_cons.mp h with h | h
        · exact Or.inl h
        · exact Or.inr (List.mem_cons_of_mem _ h)
      · rcases List.mem_cons.mp h with h | h
        · exact Or.inr (h ▸ List.mem_cons_self _ _)
        · rcases ih h with h | h
          · exact Or.inl h
          · exact Or.inr (List.mem_cons_of_mem _ h)

theorem mapSet_sorted (m : List (Nat × Nat)) (k v : Nat)
    (h : m.Pairwise (fun a b => a.1 < b.1)) :
    (mapSet m k v).Pairwise (fun a b => a.1 < b.1) := by
  induction m with
  | nil => simp [mapSet]
  | cons a m ih =>
    rw [List.pairwise_cons] at h
    simp only [mapSet]
    split
    · next hlt =>
      refine List.pairwise_cons.mpr ⟨?_, List.pairwise_cons.mpr h⟩
      intro e he
      rcases List.mem_cons.mp he with rfl | he
      · exact hlt
      · exact Nat.lt_trans hlt (h.1 e he)
    · split
      · next _ heq =>
        refine List.pairwise_cons.mpr ⟨?_, h.2⟩
        intro e he
        have := h.1 e he
        simpa [heq] using this
      · next hnlt hne =>
        refine List.pairwise_cons.mpr ⟨?_, ih h.2⟩
        intro e he
        rcases mapSet_keys m k v e he with rfl | he
        · simp only; omega
        · exact h.1 e he

theorem mapSet_append (m : List (Nat × Nat)) (k v : Nat) (h : ∀ e ∈ m, e.1 < k) :
    mapSet m k v = m ++ [(k, v)] := by
  induction m with
  | nil => rfl
  | cons a m ih =>
    have ha := h a (List.mem_cons_self _ _)
    have h1 : ¬ k < a.1 := by omega
    have h2 : ¬ k = a.1 := by omega
    simp only [mapSet, h1, h2, if_false, List.cons_append]
    rw [ih (fun e he => h e (List.mem_cons_of_mem _ he))]

theorem lowerBound_of_max (m : List (Nat × Nat)) (k v : Nat)
    (hs : m.Pairwise (fun a b => a.1 < b.1)) (hb : ∀ e ∈ m, e.1 ≤ k) (hm : (k, v) ∈ m) :
    lowerBound m k = some (k, v) := by
  induction m with
  | nil => simp at hm
  | cons a m ih =>
    rw [List.pairwise_cons] at hs
    simp only [lowerBound, List.find?_cons]
    by_cases hk : k ≤ a.1
    · have hak : a.1 = k := Nat.le_antisymm (hb a (List.mem_cons_self _ _)) hk
      rcases List.mem_cons.mp hm with h | h
      · simp [← h]
      · have := hs.1 _ h
        simp only at this
        omega
    · simp only [hk, decide_False]
      rcases List.mem_cons.mp hm with h | h
      · rw [← h] at hk
        simp at hk
      · exact ih hs.2 (fun e he => hb e (List.mem_cons_of_mem _ he)) h

theorem routePath_append_one (g : ComponentGraph α) (p : Path α) (r : List Nat) (v : Nat) :
    routePath g p (r ++ [v])
      = { seq := (routePath g p r).seq ++ label g v,
          positionMap := mapSet (routePath g p r).positionMap
            ((routePath g p r).seq ++ label g v).length v } := by
  simp [routePath, List.foldl_append]

theorem routePath_map_ok (g : ComponentGraph α) (p : Path α) (r : List Nat)
    (hs : p.positionMap.Pairwise (fun a b => a.1 < b.1))
    (hb : ∀ e ∈ p.positionMap, e.1 ≤ p.seq.length) :
    (routePath g p r).positionMap.Pairwise (fun a b => a.1 < b.1) ∧
    ∀ e ∈ (routePath g p r).positionMap, e.1 ≤ (routePath g p r).seq.length := by
  induction r generalizing p with
  | nil => exact ⟨hs, hb⟩
  | cons v r ih =>
    rw [routePath_cons]
    apply ih
    · exact mapSet_sorted _ _ _ hs
    · intro e he
      rcases mapSet_keys _ _ _ e he with rfl | he
      · exact Nat.le_refl _
      · have := hb e he
        simp only [List.length_append] at this ⊢
        omega

/-- The entry of the last vertex of a path has the length of the path as key,
and `lower_bound` of that length finds it. -/
theorem lowerBound_routePath_end (g : ComponentGraph α) (r : List Nat) (v : Nat) :
    lowerBound (routePath g { seq := [], positionMap := [] } (r ++ [v])).positionMap
        (routePath g { seq := [], positionMap := [] } (r ++ [v])).seq.length
      = some ((routePath g { seq := [], positionMap := [] } (r ++ [v])).seq.length, v) := by
  obtain ⟨hs, hb⟩ := routePath_map_ok g { seq := [], positionMap := [] } (r ++ [v])
    List.Pairwise.nil (fun e he => by simp at he)
  apply lowerBound_of_max _ _ _ hs hb
  rw [routePath_append_one]
  exact mapSet_mem _ _ _

/-- With non-empty labels every vertex adds its own entry to the offset map. -/
theorem routePath_positionMap (g : ComponentGraph α) (p : Path α) (r : List Nat)
    (hne : ∀ x ∈ r, label g x ≠ [])
    (hb : ∀ e ∈ p.positionMap, e.1 ≤ p.seq.length) :
    (routePath g p r).positionMap = p.positionMap ++ offsets g p.seq.length r := by
  induction r generalizing p with
  | nil => simp [routePath, offsets]
  | cons v r ih =>
    have hv : 0 < (label g v).length :=
      List.length_pos.mpr (hne v (List.mem_cons_self _ _))
    have happ : mapSet p.positionMap (p.seq ++ label g v).length v
        = p.positionMap ++ [((p.seq ++ label g v).length, v)] := by
      apply mapSet_append
      intro e he
      have := hb e he
      simp only [List.length_append]
      omega
    rw [routePath_cons, ih _ (fun x hx => hne x (List.mem_cons_of_mem _ hx)), happ]
    · simp [offsets, List.length_append]
    · rw [happ]
      intro e he
      rcases List.mem_append.mp he with he | he
      · have := hb e he
        simp only [List.length_append]
        omega
      · simp only [List.mem_singleton] at he
        subst he
        exact Nat.le_refl _

/-- `lower_bound` on the offsets of a vertex list finds the vertex whose label
covers the offset `x`. -/
theorem lowerBound_offsets (g : ComponentGraph α) (r : List Nat) (base x : Nat)
    (h1 : base < x) (h2 : x ≤ base + (routeSeq g r).length) :
    ∃ r1 v r2, r = r1 ++ v :: r2 ∧ base + (routeSeq g r1).length < x ∧
      x ≤ base + (routeSeq g r1).length + (label g v).length ∧
      lowerBound (offsets g base r) x
        = some (base + (routeSeq g r1).length + (label g v).length, v) := by
  induction r generalizing base with
  | nil => simp [routeSeq_nil] at h2; omega
  | cons v r ih =>
    by_cases hx : x ≤ base + (label g v).length
    · refine ⟨[], v, r, rfl, by simpa [routeSeq_nil] using h1, by simpa [routeSeq_nil] using hx, ?_⟩
      simp [lowerBound, offsets, hx, routeSeq_nil]
    · rw [routeSeq_cons, List.length_append] at h2
      obtain ⟨r1, u, r2, hr, hlo, hhi, hfind⟩ := ih (base + (label g v).length) (by omega)
        (by omega)
      refine ⟨v :: r1, u, r2, by rw [hr]; rfl, ?_, ?_, ?_⟩
      · rw [routeSeq_cons, List.length_append]; omega
      · rw [routeSeq_cons, List.length_append]; omega
      · simp only [lowerBound, offsets, List.find?_cons, hx, decide_False]
        rw [routeSeq_cons, List.length_append]
        simp only [lowerBound] at hfind
        rw [hfind]
        congr 2
        omega

end Popins

namespace Popins

variable {α : Type}

/-! ## Paths and their routes -/

theorem isChain_ne_nil (g : ComponentGraph α) (r : List Nat) (h : IsChain g r) : r ≠ [] := by
  intro e; subst e; exact h

theorem isChain_tail_targets (g : ComponentGraph α) (r : List Nat) (h : IsChain g r) :
    ∀ x ∈ r.tail, ∃ u, x ∈ outEdges g u := by
  induction r with
  | nil => intro x hx; simp at hx
  | cons a r ih =>
    cases r with
    | nil => intro x hx; simp at hx
    | cons b rest =>
      obtain ⟨hab, hrest⟩ := h
      intro x hx
      simp only [List.tail_cons] at hx
      rcases List.mem_cons.mp hx with rfl | hx
      · exact ⟨a, hab⟩
      · exact ih hrest x (by simpa using hx)

theorem isRoute_vertex_lt (g : ComponentGraph α) (hwf : WF g) (r : List Nat)
    (h : IsRoute g r) : ∀ x ∈ r, x < g.graph.length := by
  obtain ⟨⟨v, hv, hsrc⟩, hchain⟩ := h
  cases r with
  | nil => simp at hv
  | cons a r =>
    simp only [List.head?_cons, Option.some.injEq] at hv
    subst hv
    intro x hx
    rcases List.mem_cons.mp hx with rfl | hx
    · exact hwf.srcs _ hsrc
    · obtain ⟨u, hu⟩ := isChain_tail_targets g _ hchain x (by simpa using hx)
      exact hwf.edges u x hu

/-- A path returned by `enumeratePaths` is the path of a listed route. -/
theorem path_route (fuel : Nat) (g : ComponentGraph α) (paths : List (Path α)) (n : Nat)
    (h : enumeratePaths fuel g [] = some (paths, n)) (P : Path α) (hP : P ∈ paths) :
    ∃ rs r, allRoutes fuel g = some rs ∧ r ∈ rs ∧
      paths = rs.map (routePath g { seq := [], positionMap := [] }) ∧
      P = routePath g { seq := [], positionMap := [] } r ∧ IsRoute g r ∧ r.Nodup := by
  rw [enumeratePaths_eq] at h
  cases hrs : allRoutes fuel g with
  | none => simp [hrs] at h
  | some rs =>
    simp only [hrs, Option.map_some', List.nil_append, Option.some.injEq, Prod.mk.injEq] at h
    obtain ⟨hp, _⟩ := h
    subst hp
    obtain ⟨r, hr, hPr⟩ := List.mem_map.mp hP
    refine ⟨rs, r, rfl, hr, rfl, hPr.symm, ?_, allRoutes_nodup fuel g rs hrs r hr⟩
    rw [← routeMult_pos_iff, ← allRoutes_count fuel g rs hrs, List.count_pos_iff]
    exact hr

theorem routePath_nil_seq (g : ComponentGraph α) (r : List Nat) :
    (routePath g { seq := [], positionMap := [] } r).seq = routeSeq g r := by
  rw [routePath_seq]; rfl

theorem WF_ofSeq (s : List α) : WF (ComponentGraph.ofSeq s) := by
  refine ⟨rfl, ?_, ?_⟩
  · intro u w h
    cases u with
    | zero => simp [outEdges, ComponentGraph.ofSeq, addVertex] at h
    | succ u => simp [outEdges, ComponentGraph.ofSeq, addVertex] at h
  · intro v h
    simp [ComponentGraph.ofSeq, addVertex] at h
    simp [ComponentGraph.ofSeq, addVertex, h]

end Popins

namespace Popins

variable {α : Type}

/-! ## The graphs built by the right end of `mergeSeqWithGraph` -/

theorem WF_splitVertex (g : ComponentGraph α) (hwf : WF g) (u : Nat) (a b : List α)
    (hu : u < g.graph.length) : WF (splitVertex g u a b).1 := by
  refine ⟨?_, ?_, ?_⟩
  · rw [splitVertex_seqLength, splitVertex_length, hwf.len]
  · intro x w hw
    rw [splitVertex_length]
    rw [outEdges_splitVertex g u a b hu x] at hw
    split at hw
    · simp only [List.mem_singleton] at hw; omega
    · split at hw
      · rw [List.mem_reverse] at hw
        exact Nat.lt_succ_of_lt (hwf.edges u w hw)
      · exact Nat.lt_succ_of_lt (hwf.edges x w hw)
  · intro v hv
    rw [splitVertex_sources] at hv
    rw [splitVertex_length]
    exact Nat.lt_succ_of_lt (hwf.srcs v hv)

theorem outEdges_ge (g : ComponentGraph α) (w : Nat) (h : g.graph.length ≤ w) :
    outEdges g w = [] := by
  simp [outEdges, List.getD_eq_getElem?_getD, List.getElem?_eq_none h]

theorem outEdges_addBranch (g : ComponentGraph α) (v : Nat) (suf : List α)
    (hv : v < g.graph.length) (w : Nat) :
    outEdges (addBranch g v suf) w
      = if w = v then g.graph.length :: outEdges g v else outEdges g w := by
  have hv2 : v < (addVertex g suf).1.graph.length := by
    simp only [addVertex, List.length_append, List.length_singleton]; omega
  simp only [addBranch]
  rw [outEdges_addEdge _ _ _ _ hv2, outEdges_addVertex, outEdges_addVertex]
  rfl

theorem label_addBranch (g : ComponentGraph α) (hwf : WF g) (v : Nat) (suf : List α) (w : Nat) :
    label (addBranch g v suf) w = if w = g.graph.length then suf else label g w := by
  simp only [addBranch, label_addEdge]
  rw [label_addVertex, hwf.len]

theorem sources_addBranch (g : ComponentGraph α) (v : Nat) (suf : List α) :
    (addBranch g v suf).sources = g.sources := rfl

theorem length_addBranch (g : ComponentGraph α) (v : Nat) (suf : List α) :
    (addBranch g v suf).graph.length = g.graph.length + 1 := by
  simp [addBranch, addEdge, addVertex]

/-- Routes of the graph with the branch: those not ending in the new vertex
have the sequences of the old routes. -/
theorem addBranch_allRoutes (g : ComponentGraph α) (hwf : WF g) (v : Nat) (suf : List α)
    (hv : v < g.graph.length) (hne : outEdges g v ≠ [])
    (f : Nat) (rs : List (List Nat)) (h : allRoutes f g = some rs) :
    ∃ rs2, allRoutes f (addBranch g v suf) = some rs2 ∧
      (rs2.filter (notEndsIn g.graph.length)).map (routeSeq (addBranch g v suf))
        = rs.map (routeSeq g) := by
  apply branch_allRoutes g (addBranch g v suf) v g.graph.length
  · intro w hw
    rw [outEdges_addBranch g v suf hv, if_neg hw]
  · rw [outEdges_addBranch g v suf hv, if_pos rfl]
  · exact hne
  · intro w hw
    rw [label_addBranch g hwf, if_neg hw]
  · intro u w hw
    exact Nat.ne_of_lt (hwf.edges u w hw)
  · exact Nat.ne_of_lt hv
  · exact outEdges_ge g _ (Nat.le_refl _)
  · rfl
  · intro s hs
    exact Nat.ne_of_lt (hwf.srcs s hs)
  · exact h

/-- Routes of the graph after a split keep their sequences as a multiset. -/
theorem splitVertex_allRoutes (g : ComponentGraph α) (hwf : WF g) (v : Nat) (a b : List α)
    (hv : v < g.graph.length) (hab : a ++ b = label g v)
    (f : Nat) (rs : List (List Nat)) (h : allRoutes f g = some rs) :
    ∃ rs1, allRoutes (2 * f) (splitVertex g v a b).1 = some rs1 ∧
      (rs1.map (routeSeq (splitVertex g v a b).1)).Perm (rs.map (routeSeq g)) := by
  have hvn : v ≠ g.graph.length := Nat.ne_of_lt hv
  apply split_allRoutes g (splitVertex g v a b).1 v g.graph.length
  · intro w h1 h2
    rw [outEdges_splitVertex g v a b hv, if_neg h1, if_neg h2]
  · rw [outEdges_splitVertex g v a b hv, if_pos rfl]
  · rw [outEdges_splitVertex g v a b hv, if_neg (Ne.symm hvn), if_pos rfl]
  · intro w h1 h2
    rw [label_splitVertex g v a b hwf.len hv, if_neg h1, if_neg h2]
  · rw [label_splitVertex g v a b hwf.len hv, label_splitVertex g v a b hwf.len hv,
      if_pos rfl, if_neg (Ne.symm hvn), if_pos rfl, hab]
  · intro u w hw
    exact Nat.ne_of_lt (hwf.edges u w hw)
  · exact hvn
  · exact splitVertex_sources g v a b
  · intro s hs
    exact Nat.ne_of_lt (hwf.srcs s hs)
  · exact h

end Popins

namespace Popins

variable {α : Type}

/-! ## The route through the new branch -/

theorem routeSeq_congr (g g1 : ComponentGraph α) (r : List Nat)
    (h : ∀ x ∈ r, label g1 x = label g x) : routeSeq g1 r = routeSeq g r := by
  induction r with
  | nil => rfl
  | cons a r ih =>
    rw [routeSeq_cons, routeSeq_cons, h a (List.mem_cons_self _ _),
      ih (fun x hx => h x (List.mem_cons_of_mem _ hx))]

theorem chain_branch (g g1 : ComponentGraph α) (r1 : List Nat) (v : Nat) (r2 : List Nat) (b : Nat)
    (hc : IsChain g (r1 ++ v :: r2))
    (hE : ∀ u ∈ r1, outEdges g1 u = outEdges g u)
    (hb : b ∈ outEdges g1 v) (hsink : outEdges g1 b = []) :
    IsChain g1 (r1 ++ [v, b]) := by
  induction r1 with
  | nil =>
    refine ⟨hb, ?_⟩
    show outDegree g1 b = 0
    rw [outDegree, hsink]; rfl
  | cons a r1 ih =>
    have hrest : ∀ u ∈ r1, outEdges g1 u = outEdges g u :=
      fun u hu => hE u (List.mem_cons_of_mem _ hu)
    cases r1 with
    | nil =>
      obtain ⟨hav, hrest2⟩ := hc
      refine ⟨?_, ih hrest2 hrest⟩
      rw [hE a (List.mem_cons_self _ _)]
      exact hav
    | cons c r1 =>
      obtain ⟨hac, hrest2⟩ := hc
      refine ⟨?_, ih hrest2 hrest⟩
      rw [hE a (List.mem_cons_self _ _)]
      exact hac

theorem chain_next (g : ComponentGraph α) (r1 : List Nat) (v u : Nat) (r2 : List Nat)
    (hc : IsChain g (r1 ++ v :: u :: r2)) : u ∈ outEdges g v := by
  induction r1 with
  | nil => exact hc.1
  | cons a r1 ih =>
    cases r1 with
    | nil => exact ih hc.2
    | cons c r1 => exact ih hc.2

theorem head?_append_cons (r1 : List Nat) (v : Nat) (r2 r3 : List Nat) :
    (r1 ++ v :: r2).head? = (r1 ++ v :: r3).head? := by
  cases r1 <;> rfl

theorem routeSeq_suffix_of_last (g : ComponentGraph α) (r : List Nat) (b : Nat)
    (h : r.getLast? = some b) : label g b <:+ routeSeq g r := by
  rcases List.eq_nil_or_concat r with hr | ⟨r1, x, hr⟩
  · subst hr; simp at h
  · rw [List.concat_eq_append] at hr
    subst hr
    rw [List.getLast?_append, List.getLast?_singleton] at h
    have h : x = b := by simpa [Option.or] using h
    subst h
    rw [routeSeq_append, routeSeq_cons, routeSeq_nil, List.append_nil]
    exact List.suffix_append _ _

/-- Routes of the graph with a branch hanging off `v`, given the routes of the
graph `g1` the branch was added to and a route of the first graph `g` through
`v` whose part before `v` is untouched in `g1`. -/
theorem right_branch_paths (g g1 : ComponentGraph α) (hwf1 : WF g1)
    (r1 : List Nat) (v : Nat) (r2 : List Nat) (suf : List α)
    (hroute : IsRoute g (r1 ++ v :: r2))
    (hv : v < g1.graph.length) (hne : outEdges g1 v ≠ [])
    (hsame : ∀ u ∈ r1, outEdges g1 u = outEdges g u ∧ label g1 u = label g u ∧
      u ≠ v ∧ u < g1.graph.length)
    (hsrc : g1.sources = g.sources)
    (f1 : Nat) (rs1 : List (List Nat)) (h1 : allRoutes f1 g1 = some rs1) :
    ∃ rs2 newSeqs, allRoutes f1 (addBranch g1 v suf) = some rs2 ∧
      (rs2.map (routeSeq (addBranch g1 v suf))).Perm (rs1.map (routeSeq g1) ++ newSeqs) ∧
      (∀ x ∈ newSeqs, suf <:+ x) ∧
      routeSeq g r1 ++ label g1 v ++ suf ∈ newSeqs := by
  obtain ⟨rs2, h2, hold⟩ := addBranch_allRoutes g1 hwf1 v suf hv hne f1 rs1 h1
  have hlabb : label (addBranch g1 v suf) g1.graph.length = suf := by
    rw [label_addBranch g1 hwf1, if_pos rfl]
  refine ⟨rs2, (rs2.filter (fun r => !(notEndsIn g1.graph.length r))).map
    (routeSeq (addBranch g1 v suf)), h2, ?_, ?_, ?_⟩
  · rw [← hold, ← List.map_append]
    exact ((List.filter_append_perm (notEndsIn g1.graph.length) rs2).symm).map _
  · intro x hx
    obtain ⟨r, hr, rfl⟩ := List.mem_map.mp hx
    have hlast : r.getLast? = some g1.graph.length := by
      have := (List.mem_filter.mp hr).2
      simpa [notEndsIn] using this
    have := routeSeq_suffix_of_last (addBranch g1 v suf) r _ hlast
    rwa [hlabb] at this
  · have hvb : v ≠ g1.graph.length := Nat.ne_of_lt hv
    have hchain : IsChain (addBranch g1 v suf) (r1 ++ [v, g1.graph.length]) := by
      apply chain_branch g (addBranch g1 v suf) r1 v r2 _ hroute.2
      · intro u hu
        obtain ⟨hE, _, huv, _⟩ := hsame u hu
        rw [outEdges_addBranch g1 v suf hv, if_neg huv, hE]
      · rw [outEdges_addBranch g1 v suf hv, if_pos rfl]
        exact List.mem_cons_self _ _
      · rw [outEdges_addBranch g1 v suf hv, if_neg (Ne.symm hvb)]
        exact outEdges_ge g1 _ (Nat.le_refl _)
    have hrt : IsRoute (addBranch g1 v suf) (r1 ++ [v, g1.graph.length]) := by
      refine ⟨?_, hchain⟩
      obtain ⟨x, hx, hxs⟩ := hroute.1
      refine ⟨x, ?_, ?_⟩
      · rw [← hx]; exact head?_append_cons r1 v _ _
      · rw [sources_addBranch, hsrc]; exact hxs
    have hmem : r1 ++ [v, g1.graph.length] ∈ rs2 := by
      rw [← List.count_pos_iff, allRoutes_count f1 _ rs2 h2, routeMult_pos_iff]
      exact hrt
    apply List.mem_map.mpr
    refine ⟨r1 ++ [v, g1.graph.length], List.mem_filter.mpr ⟨hmem, ?_⟩, ?_⟩
    · simp [notEndsIn]
    · rw [routeSeq_append, routeSeq_cons, routeSeq_cons, routeSeq_nil, List.append_nil, hlabb,
        label_addBranch g1 hwf1, if_neg hvb, List.append_assoc]
      congr 1
      apply routeSeq_congr
      intro u hu
      obtain ⟨_, hL, _, hlt⟩ := hsame u hu
      rw [label_addBranch g1 hwf1, if_neg (Nat.ne_of_lt hlt), hL]

end Popins

namespace Popins

variable {α : Type}

/-! ## Evaluation of the right end of `mergeSeqWithGraph` -/

theorem enumeratePaths_of_allRoutes (f : Nat) (g : ComponentGraph α) (rs : List (List Nat))
    (h : allRoutes f g = some rs) :
    enumeratePaths f g [] = some (rs.map (routePath g { seq := [], positionMap := [] }),
      (rs.map (routePath g { seq := [], positionMap := [] })).length) ∧
    (rs.map (routePath g { seq := [], positionMap := [] })).map (fun p => p.seq)
      = rs.map (routeSeq g) := by
  constructor
  · rw [enumeratePaths_eq, h]; rfl
  · rw [List.map_map]
    apply List.map_congr_left
    intro r _
    exact routePath_nil_seq g r

theorem take_route_cover (A B C : List α) (k : Nat) (h1 : A.length < k)
    (h2 : k ≤ A.length + B.length) :
    (A ++ (B ++ C)).take k = A ++ B.take (k - A.length) := by
  rw [List.take_append_eq_append_take, List.take_of_length_le (Nat.le_of_lt h1),
    List.take_append_eq_append_take]
  have : k - A.length - B.length = 0 := by omega
  rw [this, List.take_zero, List.append_nil]

/-- The right end in the branch case with a boundary strictly inside the label
of `v`: the vertex is split and the branch hangs off the prefix vertex. -/
theorem mergeSeqWithGraph_split_eval (g : ComponentGraph α) (P : Path α) (s : List α)
    (al : Alignment) (minBranchLen : Nat) (vPos v : Nat)
    (hb : al.beginSeq = 0) (hes : al.endSeq < s.length)
    (hlb : lowerBound P.positionMap al.endPath = some (vPos, v))
    (hend : al.endPath ≠ P.seq.length) (hov : minBranchLen < s.length - al.endSeq)
    (hin : al.endPath < vPos) (hle : vPos - al.endPath ≤ (label g v).length) :
    mergeSeqWithGraph g P s al minBranchLen
      = some (addBranch (splitVertex g v
          ((label g v).take ((label g v).length - (vPos - al.endPath)))
          ((label g v).drop ((label g v).length - (vPos - al.endPath)))).1 v
          (s.drop al.endSeq)) := by
  have hw : wrapSub (label g v).length (vPos - al.endPath)
      = (label g v).length - (vPos - al.endPath) := by
    simp [wrapSub, hle]
  have hsp : (label g v).length - (vPos - al.endPath) ≤ (label g v).length := Nat.sub_le _ _
  have hgt : vPos > al.endPath := hin
  have hov2 : s.length - al.endSeq > minBranchLen := hov
  simp only [mergeSeqWithGraph, mergeRight, hes, if_true, hlb, hend, if_false, hov2, hgt, hw,
    splitAt, hsp, Option.map_some', Option.some_bind, mergeLeft, hb, gt_iff_lt, Nat.lt_irrefl]
  rfl

/-- The right end in the branch case with the boundary at the end of the label
of `v`: only the branch vertex is added. -/
theorem mergeSeqWithGraph_nosplit_eval (g : ComponentGraph α) (P : Path α) (s : List α)
    (al : Alignment) (minBranchLen : Nat) (vPos v : Nat)
    (hb : al.beginSeq = 0) (hes : al.endSeq < s.length)
    (hlb : lowerBound P.positionMap al.endPath = some (vPos, v))
    (hend : al.endPath ≠ P.seq.length) (hov : minBranchLen < s.length - al.endSeq)
    (hin : ¬ al.endPath < vPos) :
    mergeSeqWithGraph g P s al minBranchLen = some (addBranch g v (s.drop al.endSeq)) := by
  have hgt : ¬ vPos > al.endPath := hin
  have hov2 : s.length - al.endSeq > minBranchLen := hov
  simp only [mergeSeqWithGraph, mergeRight, hes, if_true, hlb, hend, if_false, hov2, hgt,
    Option.map_some', Option.some_bind, mergeLeft, hb, gt_iff_lt, Nat.lt_irrefl]
  rfl

end Popins

namespace Popins

variable {α : Type} [DecidableEq α]

/-! ## The retry chain of the diagonal finder ends -/

theorem incrCounter_length (cs cs1 : List Nat) (x : Nat) (h : incrCounter cs x = some cs1) :
    cs1.length = cs.length := by
  simp only [incrCounter] at h
  split at h
  · simp only [Option.some.injEq] at h
    subst h
    simp
  · simp at h

theorem foldlM_incr_length (f : Nat → Nat) (ps : List Nat) (cs cs1 : List Nat)
    (h : ps.foldlM (fun c p => incrCounter c (f p)) cs = some cs1) :
    cs1.length = cs.length := by
  induction ps generalizing cs with
  | nil =>
    simp only [List.foldlM_nil, pure, Option.some.injEq] at h
    subst h; rfl
  | cons p ps ih =>
    rw [List.foldlM_cons] at h
    cases hc : incrCounter cs (f p) with
    | none => simp [hc] at h
    | some c =>
      simp only [hc, Option.bind_eq_bind, Option.some_bind] at h
      rw [ih c h, incrCounter_length cs c _ hc]

theorem foldlM_votes_length (occ : Nat → List Nat) (f : Nat → Nat → Nat) (is : List Nat)
    (cs cs1 : List Nat)
    (h : is.foldlM (fun c i => (occ i).foldlM (fun c p => incrCounter c (f i p)) c) cs
      = some cs1) :
    cs1.length = cs.length := by
  induction is generalizing cs with
  | nil =>
    simp only [List.foldlM_nil, pure, Option.some.injEq] at h
    subst h; rfl
  | cons i is ih =>
    rw [List.foldlM_cons] at h
    cases hc : (occ i).foldlM (fun c p => incrCounter c (f i p)) cs with
    | none => simp [hc] at h
    | some c =>
      simp only [hc, Option.bind_eq_bind, Option.some_bind] at h
      rw [ih c h, foldlM_incr_length (f i) (occ i) cs c hc]

/-- With the seed length 0 the vote of the empty q-gram at the end of `seq2`
against position 0 of `seq1` addresses the counter `len1 + len2`. -/
theorem countHits_zero (seq1 seq2 : List α) : countHits seq1 seq2 0 = none := by
  simp only [countHits, Nat.sub_zero, List.range_succ, List.foldlM_append]
  cases hc : (List.range seq2.length).foldlM
      (fun cs i => (getOccurrences seq1 0 (qgram seq2 i 0)).foldlM
        (fun cs p => incrCounter cs (seq1.length + i - p)) cs)
      (List.replicate (seq1.length + seq2.length) 0) with
  | none => rfl
  | some cs =>
    have hlen : cs.length = seq1.length + seq2.length := by
      have := foldlM_votes_length (fun i => getOccurrences seq1 0 (qgram seq2 i 0))
        (fun i p => seq1.length + i - p) _ _ _ hc
      simpa using this
    have hocc : getOccurrences seq1 0 (qgram seq2 seq2.length 0)
        = 0 :: (List.range seq1.length).map Nat.succ := by
      simp only [getOccurrences, qgram, List.take_zero, decide_True, Nat.sub_zero]
      rw [List.filter_eq_self.mpr (fun _ _ => rfl), List.range_succ_eq_map]
    simp only [Option.bind_eq_bind, Option.some_bind, List.foldlM_cons, List.foldlM_nil, hocc]
    have : incrCounter cs (seq1.length + seq2.length - 0) = none := by
      simp [incrCounter, hlen]
    rw [this]
    rfl

/-- Every call of the retry chain with a seed length below the depth bound
gives the value of `bestDiagonal`: the bound is never the reason for `none`. -/
theorem bestDiagonalFuel_stable (seq1 seq2 : List α) (k fuel : Nat) (h : k < fuel) :
    bestDiagonalFuel fuel seq1 seq2 k = bestDiagonal seq1 seq2 k := by
  induction k using Nat.strong_induction_on generalizing fuel with
  | _ k ih =>
    obtain ⟨f, rfl⟩ : ∃ f, fuel = f + 1 := ⟨fuel - 1, by omega⟩
    simp only [bestDiagonal, bestDiagonalFuel]
    split
    · rfl
    · cases hc : countHits seq1 seq2 k with
      | none => rfl
      | some cs =>
        dsimp only
        split
        · have hk : 0 < k := by
            rcases Nat.eq_zero_or_pos k with h0 | h0
            · subst h0; rw [countHits_zero] at hc; simp at hc
            · exact h0
          have hlt : k * 2 / 3 < k := by omega
          rw [ih (k * 2 / 3) hlt f (by omega), ih (k * 2 / 3) hlt k hlt]
        · rfl

end Popins

namespace Popins

variable {α : Type}

/-! ## Frame lemmas of the remaining graph steps -/

theorem addSource_eq (g : ComponentGraph α) (x : Nat) (pre : List α) :
    addSource g x pre
      = addEdge (⟨g.graph ++ [[]], g.sources ++ [g.graph.length], g.sequenceMap ++ [pre]⟩ :
          ComponentGraph α) g.graph.length x := rfl

theorem outEdges_addSource (g : ComponentGraph α) (x : Nat) (pre : List α) (w : Nat) :
    outEdges (addSource g x pre) w = if w = g.graph.length then [x] else outEdges g w := by
  have hlt : g.graph.length <
      (⟨g.graph ++ [[]], g.sources ++ [g.graph.length], g.sequenceMap ++ [pre]⟩ :
        ComponentGraph α).graph.length := by
    simp
  have hsame : ∀ y, outEdges (⟨g.graph ++ [[]], g.sources ++ [g.graph.length],
      g.sequenceMap ++ [pre]⟩ : ComponentGraph α) y = outEdges g y :=
    fun y => outEdges_addVertex g pre y
  rw [addSource_eq, outEdges_addEdge _ _ _ _ hlt, hsame, hsame, outEdges_ge g _ (Nat.le_refl _)]

theorem label_addSource (g : ComponentGraph α) (hwf : WF g) (x : Nat) (pre : List α) (w : Nat) :
    label (addSource g x pre) w = if w = g.graph.length then pre else label g w := by
  rw [addSource_eq, label_addEdge]
  have : label (⟨g.graph ++ [[]], g.sources ++ [g.graph.length], g.sequenceMap ++ [pre]⟩ :
      ComponentGraph α) w = label (addVertex g pre).1 w := rfl
  rw [this, label_addVertex, hwf.len]

theorem sources_addSource (g : ComponentGraph α) (x : Nat) (pre : List α) :
    (addSource g x pre).sources = g.sources ++ [g.graph.length] := rfl

theorem length_addSource (g : ComponentGraph α) (x : Nat) (pre : List α) :
    (addSource g x pre).graph.length = g.graph.length + 1 := by
  simp [addSource, addEdge, addVertex]

theorem seqLength_addSource (g : ComponentGraph α) (x : Nat) (pre : List α) :
    (addSource g x pre).sequenceMap.length = g.sequenceMap.length + 1 := by
  simp [addSource, addEdge, addVertex]

theorem seqLength_addBranch (g : ComponentGraph α) (v : Nat) (suf : List α) :
    (addBranch g v suf).sequenceMap.length = g.sequenceMap.length + 1 := by
  simp [addBranch, addEdge, addVertex]

theorem length_setLabel (g : ComponentGraph α) (v : Nat) (l : List α) :
    (setLabel g v l).graph.length = g.graph.length := rfl

theorem WF_setLabel (g : ComponentGraph α) (hwf : WF g) (v : Nat) (l : List α) :
    WF (setLabel g v l) := by
  refine ⟨?_, ?_, ?_⟩
  · simp only [setLabel, List.length_set]; exact hwf.len
  · intro u w hw; exact hwf.edges u w hw
  · intro s hs; exact hwf.srcs s hs

theorem WF_addBranch (g : ComponentGraph α) (hwf : WF g) (v : Nat) (suf : List α)
    (hv : v < g.graph.length) : WF (addBranch g v suf) := by
  refine ⟨?_, ?_, ?_⟩
  · rw [seqLength_addBranch, length_addBranch, hwf.len]
  · intro u w hw
    rw [length_addBranch]
    rw [outEdges_addBranch g v suf hv] at hw
    split at hw
    · rcases List.mem_cons.mp hw with h | h
      · omega
      · exact Nat.lt_succ_of_lt (hwf.edges v w h)
    · exact Nat.lt_succ_of_lt (hwf.edges u w hw)
  · intro s hs
    rw [length_addBranch]
    exact Nat.lt_succ_of_lt (hwf.srcs s hs)

theorem WF_addSource (g : ComponentGraph α) (hwf : WF g) (x : Nat) (pre : List α)
    (hx : x < g.graph.length) : WF (addSource g x pre) := by
  refine ⟨?_, ?_, ?_⟩
  · rw [seqLength_addSource, length_addSource, hwf.len]
  · intro u w hw
    rw [length_addSource]
    rw [outEdges_addSource] at hw
    split at hw
    · simp only [List.mem_singleton] at hw; omega
    · exact Nat.lt_succ_of_lt (hwf.edges u w hw)
  · intro s hs
    rw [length_addSource]
    rw [sources_addSource] at hs
    rcases List.mem_append.mp hs with h | h
    · exact Nat.lt_succ_of_lt (hwf.srcs s h)
    · simp only [List.mem_singleton] at h; omega

theorem GraphOp_WF (g g1 : ComponentGraph α) (hwf : WF g) (h : GraphOp g g1) : WF g1 := by
  cases h with
  | relabel v l _ => exact WF_setLabel g hwf v l
  | split u a b hu => exact WF_splitVertex g hwf u a b hu
  | branch v suf hv => exact WF_addBranch g hwf v suf hv
  | source x pre hx => exact WF_addSource g hwf x pre hx

theorem GraphOp_length (g g1 : ComponentGraph α) (h : GraphOp g g1) :
    g.graph.length ≤ g1.graph.length := by
  cases h with
  | relabel v l _ => exact Nat.le_refl _
  | split u a b hu => rw [splitVertex_length]; exact Nat.le_succ _
  | branch v suf hv => rw [length_addBranch]; exact Nat.le_succ _
  | source x pre hx => rw [length_addSource]; exact Nat.le_succ _

/-! ## The cases of the two ends of `mergeSeqWithGraph` -/

theorem mergeRight_shape (g : ComponentGraph α) (P : Path α) (s : List α) (al : Alignment)
    (mbl : Nat) (g1 : ComponentGraph α) (h : mergeRight g P s al mbl = some g1) :
    g1 = g ∨ ∃ vPos v, lowerBound P.positionMap al.endPath = some (vPos, v) ∧
      al.endSeq < s.length ∧
      ((al.endPath = P.seq.length ∧ g1 = setLabel g v (label g v ++ s.drop al.endSeq)) ∨
       (al.endPath ≠ P.seq.length ∧ mbl < s.length - al.endSeq ∧ ¬ al.endPath < vPos ∧
          g1 = addBranch g v (s.drop al.endSeq)) ∨
       (al.endPath ≠ P.seq.length ∧ mbl < s.length - al.endSeq ∧ al.endPath < vPos ∧
          wrapSub (label g v).length (vPos - al.endPath) ≤ (label g v).length ∧
          g1 = addBranch (splitVertex g v
            ((label g v).take (wrapSub (label g v).length (vPos - al.endPath)))
            ((label g v).drop (wrapSub (label g v).length (vPos - al.endPath)))).1 v
            (s.drop al.endSeq))) := by
  simp only [mergeRight] at h
  by_cases hes : al.endSeq < s.length
  · simp only [hes, if_true] at h
    cases hlb : lowerBound P.positionMap al.endPath with
    | none => simp [hlb] at h
    | some e =>
      obtain ⟨vPos, v⟩ := e
      simp only [hlb] at h
      by_cases hend : al.endPath = P.seq.length
      · simp only [hend, if_true, Option.some.injEq] at h
        exact Or.inr ⟨vPos, v, rfl, hes, Or.inl ⟨hend, h.symm⟩⟩
      · simp only [hend, if_false] at h
        by_cases hov : s.length - al.endSeq > mbl
        · simp only [hov, if_true] at h
          by_cases hin : vPos > al.endPath
          · simp only [hin, if_true, splitAt] at h
            by_cases hsp : wrapSub (label g v).length (vPos - al.endPath) ≤ (label g v).length
            · simp only [hsp, if_true, Option.map_some', Option.some.injEq] at h
              exact Or.inr ⟨vPos, v, rfl, hes, Or.inr (Or.inr ⟨hend, hov, hin, hsp, h.symm⟩)⟩
            · simp [hsp] at h
          · simp only [hin, if_false, Option.map_some', Option.some.injEq] at h
            exact Or.inr ⟨vPos, v, rfl, hes, Or.inr (Or.inl ⟨hend, hov, hin, h.symm⟩)⟩
        · simp only [hov, if_false, Option.some.injEq] at h
          exact Or.inl h.symm
  · simp only [hes, if_false, Option.some.injEq] at h
    exact Or.inl h.symm

theorem mergeLeft_shape (g1 : ComponentGraph α) (P : Path α) (s : List α) (al : Alignment)
    (mbl : Nat) (g2 : ComponentGraph α) (h : mergeLeft g1 P s al mbl = some g2) :
    g2 = g1 ∨ ∃ uPos u, upperBound P.positionMap al.beginPath = some (uPos, u) ∧
      0 < al.beginSeq ∧
      ((al.beginPath = 0 ∧ g2 = setLabel g1 u (s.take al.beginSeq ++ label g1 u)) ∨
       (al.beginPath ≠ 0 ∧ mbl < al.beginSeq ∧
          ¬ wrapSub uPos (label g1 u).length < al.beginPath ∧
          g2 = addSource g1 u (s.take al.beginSeq)) ∨
       (al.beginPath ≠ 0 ∧ mbl < al.beginSeq ∧
          wrapSub uPos (label g1 u).length < al.beginPath ∧
          wrapSub (label g1 u).length (uPos - al.beginPath) ≤ (label g1 u).length ∧
          g2 = addSource (splitVertex g1 u
            ((label g1 u).take (wrapSub (label g1 u).length (uPos - al.beginPath)))
            ((label g1 u).drop (wrapSub (label g1 u).length (uPos - al.beginPath)))).1
            g1.graph.length (s.take al.beginSeq))) := by
  simp only [mergeLeft] at h
  by_cases hbs : al.beginSeq > 0
  · simp only [hbs, if_true] at h
    cases hub : upperBound P.positionMap al.beginPath with
    | none => simp [hub] at h
    | some e =>
      obtain ⟨uPos, u⟩ := e
      simp only [hub] at h
      by_cases hbp : al.beginPath = 0
      · simp only [hbp, if_true, Option.some.injEq] at h
        exact Or.inr ⟨uPos, u, rfl, hbs, Or.inl ⟨hbp, h.symm⟩⟩
      · simp only [hbp, if_false] at h
        by_cases hov : al.beginSeq > mbl
        · simp only [hov, if_true] at h
          by_cases hin : wrapSub uPos (label g1 u).length < al.beginPath
          · simp only [hin, if_true, splitAt] at h
            by_cases hsp : wrapSub (label g1 u).length (uPos - al.beginPath)
                ≤ (label g1 u).length
            · simp only [hsp, if_true, Option.map_some', Option.some.injEq] at h
              exact Or.inr ⟨uPos, u, rfl, hbs, Or.inr (Or.inr ⟨hbp, hov, hin, hsp, h.symm⟩)⟩
            · simp [hsp] at h
          · simp only [hin, if_false, Option.map_some', Option.some.injEq] at h
            exact Or.inr ⟨uPos, u, rfl, hbs, Or.inr (Or.inl ⟨hbp, hov, hin, h.symm⟩)⟩
        · simp only [hov, if_false, Option.some.injEq] at h
          exact Or.inl h.symm
  · simp only [hbs, if_false, Option.some.injEq] at h
    exact Or.inl h.symm

end Popins

namespace Popins

variable {α : Type}

/-! ## Lookups in the offset map of a path -/

theorem lowerBound_some (m : List (Nat × Nat)) (x : Nat) (e : Nat × Nat)
    (h : lowerBound m x = some e) : e ∈ m ∧ x ≤ e.1 := by
  simp only [lowerBound] at h
  exact ⟨List.mem_of_find?_eq_some h, by simpa using List.find?_some h⟩

theorem upperBound_some (m : List (Nat × Nat)) (x : Nat) (e : Nat × Nat)
    (h : upperBound m x = some e) : e ∈ m ∧ x < e.1 := by
  simp only [upperBound] at h
  exact ⟨List.mem_of_find?_eq_some h, by simpa using List.find?_some h⟩

theorem lowerBound_exists (m : List (Nat × Nat)) (x : Nat) (e : Nat × Nat)
    (he : e ∈ m) (hx : x ≤ e.1) : ∃ e1, lowerBound m x = some e1 := by
  cases h : lowerBound m x with
  | some e1 => exact ⟨e1, rfl⟩
  | none =>
    simp only [lowerBound, List.find?_eq_none] at h
    have := h e he
    simp at this
    omega

theorem upperBound_exists (m : List (Nat × Nat)) (x : Nat) (e : Nat × Nat)
    (he : e ∈ m) (hx : x < e.1) : ∃ e1, upperBound m x = some e1 := by
  cases h : upperBound m x with
  | some e1 => exact ⟨e1, rfl⟩
  | none =>
    simp only [upperBound, List.find?_eq_none] at h
    have := h e he
    simp at this
    omega

theorem routePath_entries (g : ComponentGraph α) (p : Path α) (r : List Nat) (e : Nat × Nat)
    (h : e ∈ (routePath g p r).positionMap) : e ∈ p.positionMap ∨ e.2 ∈ r := by
  induction r generalizing p with
  | nil => exact Or.inl h
  | cons v r ih =>
    rw [routePath_cons] at h
    rcases ih _ h with h1 | h1
    · rcases mapSet_keys _ _ _ e h1 with rfl | h2
      · exact Or.inr (List.mem_cons_self _ _)
      · exact Or.inl h2
    · exact Or.inr (List.mem_cons_of_mem _ h1)

theorem routePath_last_entry (g : ComponentGraph α) (r : List Nat) (hne : r ≠ []) :
    ∃ v, v ∈ r ∧ ((routePath g { seq := [], positionMap := [] } r).seq.length, v)
      ∈ (routePath g { seq := [], positionMap := [] } r).positionMap := by
  rcases List.eq_nil_or_concat r with h | ⟨r1, v, hr⟩
  · exact absurd h hne
  · rw [List.concat_eq_append] at hr
    subst hr
    refine ⟨v, by simp, ?_⟩
    rw [routePath_append_one]
    exact mapSet_mem _ _ _

/-- In the offset map of a path `lower_bound` is defined up to the length of
the path and `upper_bound` below it; both give a vertex of the route. -/
theorem path_bounds (g : ComponentGraph α) (r : List Nat) (hne : r ≠ []) :
    (∀ x, x ≤ (routePath g { seq := [], positionMap := [] } r).seq.length →
      ∃ vPos v, lowerBound (routePath g { seq := [], positionMap := [] } r).positionMap x
        = some (vPos, v) ∧ v ∈ r ∧ x ≤ vPos) ∧
    (∀ x, x < (routePath g { seq := [], positionMap := [] } r).seq.length →
      ∃ uPos u, upperBound (routePath g { seq := [], positionMap := [] } r).positionMap x
        = some (uPos, u) ∧ u ∈ r ∧ x < uPos) := by
  obtain ⟨v, _, hv⟩ := routePath_last_entry g r hne
  constructor
  · intro x hx
    obtain ⟨e, he⟩ := lowerBound_exists _ x _ hv hx
    obtain ⟨hmem, hle⟩ := lowerBound_some _ _ _ he
    rcases routePath_entries g _ r e hmem with h | h
    · simp at h
    · exact ⟨e.1, e.2, he, h, hle⟩
  · intro x hx
    obtain ⟨e, he⟩ := upperBound_exists _ x _ hv hx
    obtain ⟨hmem, hle⟩ := upperBound_some _ _ _ he
    rcases routePath_entries g _ r e hmem with h | h
    · simp at h
    · exact ⟨e.1, e.2, he, h, hle⟩

/-- `upper_bound` on the offsets of a vertex list finds the vertex whose label
covers the position `x`. -/
theorem upperBound_offsets (g : ComponentGraph α) (r : List Nat) (base x : Nat)
    (h1 : base ≤ x) (h2 : x < base + (routeSeq g r).length) :
    ∃ r1 v r2, r = r1 ++ v :: r2 ∧ base + (routeSeq g r1).length ≤ x ∧
      x < base + (routeSeq g r1).length + (label g v).length ∧
      upperBound (offsets g base r) x
        = some (base + (routeSeq g r1).length + (label g v).length, v) := by
  induction r generalizing base with
  | nil => simp [routeSeq_nil] at h2; omega
  | cons v r ih =>
    by_cases hx : x < base + (label g v).length
    · refine ⟨[], v, r, rfl, by simpa [routeSeq_nil] using h1, by simpa [routeSeq_nil] using hx, ?_⟩
      simp [upperBound, offsets, hx, routeSeq_nil]
    · rw [routeSeq_cons, List.length_append] at h2
      obtain ⟨r1, u, r2, hr, hlo, hhi, hfind⟩ := ih (base + (label g v).length) (by omega)
        (by omega)
      refine ⟨v :: r1, u, r2, by rw [hr]; rfl, ?_, ?_, ?_⟩
      · rw [routeSeq_cons, List.length_append]; omega
      · rw [routeSeq_cons, List.length_append]; omega
      · simp only [upperBound, offsets, List.find?_cons, hx, decide_False]
        rw [routeSeq_cons, List.length_append]
        simp only [upperBound] at hfind
        rw [hfind]
        congr 2
        omega

/-- Variant of `lowerBound_offsets` that admits the offset `base` itself. -/
theorem lowerBound_offsets_ge (g : ComponentGraph α) (r : List Nat) (hne : r ≠ [])
    (base x : Nat) (h1 : base ≤ x) (h2 : x ≤ base + (routeSeq g r).length) :
    ∃ r1 v r2, r = r1 ++ v :: r2 ∧ base + (routeSeq g r1).length ≤ x ∧
      x ≤ base + (routeSeq g r1).length + (label g v).length ∧
      lowerBound (offsets g base r) x
        = some (base + (routeSeq g r1).length + (label g v).length, v) := by
  rcases Nat.eq_or_lt_of_le h1 with heq | hlt
  · subst heq
    obtain ⟨v, r2, rfl⟩ := List.exists_cons_of_ne_nil hne
    refine ⟨[], v, r2, rfl, by simp [routeSeq_nil], by simp [routeSeq_nil], ?_⟩
    simp [lowerBound, offsets, routeSeq_nil]
  · obtain ⟨r1, v, r2, hr, hlo, hhi, hfind⟩ := lowerBound_offsets g r base x hlt h2
    exact ⟨r1, v, r2, hr, Nat.le_of_lt hlo, hhi, hfind⟩

/-! ## The split position of the left end -/

/-- Whenever the test of line 273 succeeds, the split position of line 275 lies
strictly inside the label, whatever the label length is. -/
theorem left_split_inside (uPos len bp : Nat) (hbp : bp < uPos)
    (hcond : wrapSub uPos len < bp) :
    wrapSub len (uPos - bp) = len - (uPos - bp) ∧ 0 < len - (uPos - bp) ∧
      len - (uPos - bp) < len := by
  by_cases hle : len ≤ uPos
  · have h1 : wrapSub uPos len = uPos - len := by simp [wrapSub, hle]
    rw [h1] at hcond
    have h2 : uPos - bp ≤ len := by omega
    refine ⟨by simp [wrapSub, h2], by omega, by omega⟩
  · have h2 : uPos - bp ≤ len := by omega
    refine ⟨by simp [wrapSub, h2], by omega, by omega⟩

/-- Without wrap-around the test of line 273 compares the start offset of the
label with the begin of the alignment. -/
theorem wrapSub_le (a b : Nat) (h : b ≤ a) : wrapSub a b = a - b := by
  simp [wrapSub, h]

end Popins

namespace Popins

variable {α : Type}

/-! ## The offsets of a route -/

theorem offsets_map_snd (g : ComponentGraph α) (base : Nat) (r : List Nat) :
    (offsets g base r).map Prod.snd = r := by
  induction r generalizing base with
  | nil => rfl
  | cons v r ih => simp [offsets, ih]

theorem offsets_getElem? (g : ComponentGraph α) (base : Nat) (r : List Nat) (i v : Nat)
    (h : r[i]? = some v) :
    (offsets g base r)[i]? = some (base + (routeSeq g (r.take (i + 1))).length, v) := by
  induction r generalizing base i with
  | nil => simp at h
  | cons a r ih =>
    cases i with
    | zero =>
      simp only [List.getElem?_cons_zero, Option.some.injEq] at h
      subst h
      simp [offsets, routeSeq_cons, routeSeq_nil]
    | succ i =>
      simp only [List.getElem?_cons_succ] at h
      simp only [offsets, List.getElem?_cons_succ, List.take_succ_cons]
      rw [ih _ i h, routeSeq_cons, List.length_append, Nat.add_assoc]

theorem offsets_key_gt (g : ComponentGraph α) (base : Nat) (r : List Nat)
    (hne : ∀ x ∈ r, label g x ≠ []) (e : Nat × Nat) (he : e ∈ offsets g base r) :
    base < e.1 := by
  induction r generalizing base with
  | nil => simp [offsets] at he
  | cons v r ih =>
    have hv : 0 < (label g v).length :=
      List.length_pos.mpr (hne v (List.mem_cons_self _ _))
    simp only [offsets, List.mem_cons] at he
    rcases he with rfl | he
    · simp only; omega
    · have := ih (base + (label g v).length) (fun x hx => hne x (List.mem_cons_of_mem _ hx)) he
      omega

theorem offsets_sorted (g : ComponentGraph α) (base : Nat) (r : List Nat)
    (hne : ∀ x ∈ r, label g x ≠ []) :
    (offsets g base r).Pairwise (fun a b => a.1 < b.1) := by
  induction r generalizing base with
  | nil => exact List.Pairwise.nil
  | cons v r ih =>
    simp only [offsets]
    refine List.pairwise_cons.mpr ⟨?_, ih _ (fun x hx => hne x (List.mem_cons_of_mem _ hx))⟩
    intro e he
    exact offsets_key_gt g _ r (fun x hx => hne x (List.mem_cons_of_mem _ hx)) e he

theorem offsets_getLast? (g : ComponentGraph α) (base : Nat) (r : List Nat) (hne : r ≠ []) :
    ∃ v, (offsets g base r).getLast? = some (base + (routeSeq g r).length, v) := by
  induction r generalizing base with
  | nil => exact absurd rfl hne
  | cons a r ih =>
    cases r with
    | nil => exact ⟨a, by simp [offsets, routeSeq_cons, routeSeq_nil]⟩
    | cons b r =>
      obtain ⟨v, hv⟩ := ih (base + (label g a).length) (by simp)
      refine ⟨v, ?_⟩
      rw [routeSeq_cons, List.length_append, ← Nat.add_assoc, ← hv]
      simp [offsets, List.getLast?_cons_cons]

theorem offsets_entry (g : ComponentGraph α) (base : Nat) (r : List Nat) (k v : Nat)
    (h : (k, v) ∈ offsets g base r) :
    ∃ r1 r2, r = r1 ++ v :: r2 ∧ k = base + (routeSeq g r1).length + (label g v).length := by
  induction r generalizing base with
  | nil => simp [offsets] at h
  | cons a r ih =>
    simp only [offsets, List.mem_cons, Prod.mk.injEq] at h
    rcases h with ⟨hk, hv⟩ | h
    · subst hv
      exact ⟨[], r, rfl, by simp [routeSeq_nil, hk]⟩
    · obtain ⟨r1, r2, hr, hk⟩ := ih _ h
      refine ⟨a :: r1, r2, by rw [hr]; rfl, ?_⟩
      rw [routeSeq_cons, List.length_append, hk]
      omega

theorem slice_of_entry (A B C : List α) :
    ((A ++ (B ++ C)).drop (A.length + B.length - B.length)).take B.length = B := by
  rw [Nat.add_sub_cancel, List.drop_left, List.take_left]

end Popins

namespace Popins

variable {α : Type}

/-! ## The example graph `AAAA → CCCC` -/

theorem chainGraph_WF : WF chainGraph := by
  refine ⟨rfl, ?_, ?_⟩
  · intro u w h
    match u with
    | 0 =>
      have : w = 1 := by simpa [outEdges, chainGraph] using h
      subst this; decide
    | 1 => simp [outEdges, chainGraph] at h
    | k + 2 => simp [outEdges, chainGraph] at h
  · intro v h
    have : v = 0 := by simpa [chainGraph] using h
    subst this; decide

theorem chainGraph_labels : LabelsNonEmpty chainGraph := by
  intro v hv
  have hv2 : v < 2 := hv
  match v with
  | 0 => decide
  | 1 => decide
  | k + 2 => omega

/-! ## The two ends as sequences of graph steps -/

theorem ops_WF (g g1 : ComponentGraph α) (hwf : WF g)
    (h : Relation.ReflTransGen GraphOp g g1) : WF g1 := by
  induction h with
  | refl => exact hwf
  | tail _ hstep ih => exact GraphOp_WF _ _ ih hstep

theorem ops_length (g g1 : ComponentGraph α) (h : Relation.ReflTransGen GraphOp g g1) :
    g.graph.length ≤ g1.graph.length := by
  induction h with
  | refl => exact Nat.le_refl _
  | tail _ hstep ih => exact Nat.le_trans ih (GraphOp_length _ _ hstep)

theorem mergeRight_ops (g : ComponentGraph α) (P : Path α) (s : List α) (al : Alignment)
    (mbl : Nat) (g1 : ComponentGraph α)
    (hent : ∀ e ∈ P.positionMap, e.2 < g.graph.length)
    (h : mergeRight g P s al mbl = some g1) : Relation.ReflTransGen GraphOp g g1 := by
  rcases mergeRight_shape g P s al mbl g1 h with rfl | ⟨vPos, v, hlb, _, hcase⟩
  · exact Relation.ReflTransGen.refl
  · have hv : v < g.graph.length := hent _ (lowerBound_some _ _ _ hlb).1
    rcases hcase with ⟨_, rfl⟩ | ⟨_, _, _, rfl⟩ | ⟨_, _, _, _, rfl⟩
    · exact Relation.ReflTransGen.single (GraphOp.relabel v _ hv)
    · exact Relation.ReflTransGen.single (GraphOp.branch v _ hv)
    · refine Relation.ReflTransGen.tail
        (Relation.ReflTransGen.single (GraphOp.split v _ _ hv)) (GraphOp.branch v _ ?_)
      rw [splitVertex_length]; omega

theorem mergeLeft_ops (g1 : ComponentGraph α) (P : Path α) (s : List α) (al : Alignment)
    (mbl : Nat) (g2 : ComponentGraph α)
    (hent : ∀ e ∈ P.positionMap, e.2 < g1.graph.length)
    (h : mergeLeft g1 P s al mbl = some g2) : Relation.ReflTransGen GraphOp g1 g2 := by
  rcases mergeLeft_shape g1 P s al mbl g2 h with rfl | ⟨uPos, u, hub, _, hcase⟩
  · exact Relation.ReflTransGen.refl
  · have hu : u < g1.graph.length := hent _ (upperBound_some _ _ _ hub).1
    rcases hcase with ⟨_, rfl⟩ | ⟨_, _, _, rfl⟩ | ⟨_, _, _, _, rfl⟩
    · exact Relation.ReflTransGen.single (GraphOp.relabel u _ hu)
    · exact Relation.ReflTransGen.single (GraphOp.source u _ hu)
    · refine Relation.ReflTransGen.tail
        (Relation.ReflTransGen.single (GraphOp.split u _ _ hu)) (GraphOp.source _ _ ?_)
      rw [splitVertex_length]; omega

/-- The vertices in the offset map of a path of a well-formed graph are
vertices of the graph. -/
theorem path_entries_lt (g : ComponentGraph α) (hwf : WF g) (fuel : Nat)
    (paths : List (Path α)) (n : Nat) (henum : enumeratePaths fuel g [] = some (paths, n))
    (P : Path α) (hP : P ∈ paths) : ∀ e ∈ P.positionMap, e.2 < g.graph.length := by
  obtain ⟨rs, r, _, _, _, hPr, hroute, _⟩ := path_route fuel g paths n henum P hP
  intro e he
  rw [hPr] at he
  rcases routePath_entries g _ r e he with h | h
  · simp at h
  · exact isRoute_vertex_lt g hwf r hroute _ h

/-- `mergeSeqWithGraph` is a sequence of graph steps. -/
theorem mergeSeqWithGraph_ops (g : ComponentGraph α) (hwf : WF g) (fuel : Nat)
    (paths : List (Path α)) (n : Nat) (henum : enumeratePaths fuel g [] = some (paths, n))
    (P : Path α) (hP : P ∈ paths) (s : List α) (al : Alignment) (mbl : Nat)
    (g2 : ComponentGraph α) (h : mergeSeqWithGraph g P s al mbl = some g2) :
    Relation.ReflTransGen GraphOp g g2 := by
  have hent := path_entries_lt g hwf fuel paths n henum P hP
  simp only [mergeSeqWithGraph] at h
  cases hr : mergeRight g P s al mbl with
  | none => simp [hr] at h
  | some g1 =>
    simp only [hr, Option.some_bind] at h
    have h1 := mergeRight_ops g P s al mbl g1 hent hr
    have hlen := ops_length g g1 h1
    have h2 := mergeLeft_ops g1 P s al mbl g2
      (fun e he => Nat.lt_of_lt_of_le (hent e he) hlen) h
    exact Relation.ReflTransGen.trans h1 h2

/-! ## The ends are defined for boundaries within the path -/

theorem routeSeq_length_pos (g : ComponentGraph α) (r : List Nat) (hne : r ≠ [])
    (hlab : ∀ x ∈ r, label g x ≠ []) : 0 < (routeSeq g r).length := by
  obtain ⟨a, r2, rfl⟩ := List.exists_cons_of_ne_nil hne
  rw [routeSeq_cons, List.length_append]
  have := List.length_pos.mpr (hlab a (List.mem_cons_self _ _))
  omega

theorem mergeRight_defined (g : ComponentGraph α) (r : List Nat) (hne : r ≠ [])
    (P : Path α) (hseq : P.seq = routeSeq g r) (hmap : P.positionMap = offsets g 0 r)
    (s : List α) (al : Alignment) (mbl : Nat) (hep : al.endPath ≤ P.seq.length) :
    ∃ g1, mergeRight g P s al mbl = some g1 := by
  obtain ⟨r1, v, r2, _, hlo, hhi, hfind⟩ :=
    lowerBound_offsets_ge g r hne 0 al.endPath (Nat.zero_le _)
      (by rw [← hseq, Nat.zero_add]; exact hep)
  rw [Nat.zero_add] at hlo hhi hfind
  rw [← hmap] at hfind
  simp only [mergeRight, hfind]
  by_cases hes : al.endSeq < s.length
  · simp only [hes, if_true]
    by_cases hend : al.endPath = P.seq.length
    · simp only [hend, if_true]; exact ⟨_, rfl⟩
    · simp only [hend, if_false]
      by_cases hov : s.length - al.endSeq > mbl
      · simp only [hov, if_true]
        by_cases hin : (routeSeq g r1).length + (label g v).length > al.endPath
        · have hw : wrapSub (label g v).length
              ((routeSeq g r1).length + (label g v).length - al.endPath)
              ≤ (label g v).length := by
            rw [wrapSub_le _ _ (by omega)]; exact Nat.sub_le _ _
          simp only [hin, if_true, splitAt, hw, Option.map_some']
          exact ⟨_, rfl⟩
        · simp only [hin, if_false, Option.map_some']
          exact ⟨_, rfl⟩
      · exact ⟨g, by simp only [hov, if_false]⟩
  · exact ⟨g, by simp only [hes, if_false]⟩

theorem mergeLeft_defined (g1 : ComponentGraph α) (P : Path α) (s : List α) (al : Alignment)
    (mbl : Nat) (uPos u : Nat) (hub : upperBound P.positionMap al.beginPath = some (uPos, u)) :
    ∃ g2, mergeLeft g1 P s al mbl = some g2 := by
  have hlt : al.beginPath < uPos := (upperBound_some _ _ _ hub).2
  simp only [mergeLeft, hub]
  by_cases hbs : al.beginSeq > 0
  · simp only [hbs, if_true]
    by_cases hbp : al.beginPath = 0
    · simp only [hbp, if_true]; exact ⟨_, rfl⟩
    · simp only [hbp, if_false]
      by_cases hov : al.beginSeq > mbl
      · simp only [hov, if_true]
        by_cases hin : wrapSub uPos (label g1 u).length < al.beginPath
        · obtain ⟨he, _, hlt2⟩ := left_split_inside uPos (label g1 u).length al.beginPath hlt hin
          have hw : wrapSub (label g1 u).length (uPos - al.beginPath) ≤ (label g1 u).length := by
            rw [he]; omega
          simp only [hin, if_true, splitAt, hw, Option.map_some']
          exact ⟨_, rfl⟩
        · simp only [hin, if_false, Option.map_some']
          exact ⟨_, rfl⟩
      · exact ⟨g1, by simp only [hov, if_false]⟩
  · exact ⟨g1, by simp only [hbs, if_false]⟩

end Popins

namespace Popins

variable {α : Type} [DecidableEq α]

/-! ## Range of the diagonals with a vote -/

theorem diagVotes_pos_bounds (seq1 seq2 : List α) (k : Nat) (d : Int)
    (h : 0 < diagVotes seq1 seq2 k d) :
    ∃ p q, p < seq1.length + 1 - k ∧ q < seq2.length + 1 - k ∧ (q : Int) - (p : Int) = d ∧
      qgram seq1 p k = qgram seq2 q k := by
  by_contra hcon
  have hz : diagVotes seq1 seq2 k d = 0 := by
    unfold diagVotes
    apply List.sum_eq_zero
    intro x hx
    simp only [List.mem_map, List.mem_range] at hx
    obtain ⟨q, hq, rfl⟩ := hx
    rw [List.length_eq_zero, List.filter_eq_nil_iff]
    intro p hp hdec
    simp only [List.mem_range] at hp
    simp only [decide_eq_true_eq] at hdec
    exact hcon ⟨p, q, hp, hq, hdec.2, hdec.1⟩
  omega

/-- A diagonal with a vote, for a seed length of at least 1 and sequences
whose lengths fit the 32-bit integers of the source, lies strictly between
`-len1` and `len2` and is stored in the `int` without change. -/
theorem diag_in_range (seq1 seq2 : List α) (k : Nat) (hk : 1 ≤ k)
    (hint1 : seq1.length ≤ 2147483648) (hint2 : seq2.length ≤ 2147483647) (d : Int)
    (h : 0 < diagVotes seq1 seq2 k d) :
    -(seq1.length : Int) < d ∧ d < (seq2.length : Int) ∧ unsignedToInt d = d ∧ d ≠ NONE := by
  obtain ⟨p, q, hp, hq, hpq, _⟩ := diagVotes_pos_bounds seq1 seq2 k d h
  refine ⟨by omega, by omega, unsignedToInt_eq d (by omega) (by omega), ?_⟩
  simp only [NONE]
  omega

/-- With a seed length of at least 1 within both sequences every vote of the
counting loop addresses a counter of the array. -/
theorem countHits_index_lt (seq1 seq2 : List α) (k i p : Nat) (hk : 1 ≤ k)
    (h1 : k ≤ seq1.length) (h2 : k ≤ seq2.length) (hi : i ∈ List.range (seq2.length - k + 1))
    (hp : p ∈ getOccurrences seq1 k (qgram seq2 i k)) :
    p ≤ seq1.length + i ∧ seq1.length + i - p < seq1.length + seq2.length := by
  simp only [List.mem_range] at hi
  simp only [getOccurrences, List.mem_filter, List.mem_range] at hp
  omega

/-- Every call with the seed length 0 writes outside the counter array, at
every recursion depth. -/
theorem bestDiagonalFuel_zero (fuel : Nat) (seq1 seq2 : List α) :
    bestDiagonalFuel fuel seq1 seq2 0 = none := by
  cases fuel with
  | zero => rfl
  | succ f =>
    have hg : ¬ (0 > seq1.length ∨ 0 > seq2.length) := by omega
    simp only [bestDiagonalFuel, hg, if_false, countHits_zero]

end Popins

namespace Popins

variable {α : Type}

/-! ## Acyclicity along the graph steps -/

theorem outEdges_ofSeq (s : List α) (u : Nat) : outEdges (ComponentGraph.ofSeq s) u = [] := by
  cases u with
  | zero => simp [outEdges, ComponentGraph.ofSeq, addVertex]
  | succ u => simp [outEdges, ComponentGraph.ofSeq, addVertex]

theorem Acyclic_ofSeq (s : List α) : Acyclic (ComponentGraph.ofSeq s) := by
  refine ⟨fun _ => 0, ?_⟩
  intro u w hw
  rw [outEdges_ofSeq] at hw
  simp at hw

theorem Acyclic_setLabel (g : ComponentGraph α) (v : Nat) (l : List α) (h : Acyclic g) :
    Acyclic (setLabel g v l) := h

theorem Acyclic_splitVertex (g : ComponentGraph α) (hwf : WF g) (u : Nat) (a b : List α)
    (hu : u < g.graph.length) (h : Acyclic g) : Acyclic (splitVertex g u a b).1 := by
  obtain ⟨rank, hrank⟩ := h
  refine ⟨fun w => if w = g.graph.length then 2 * rank u + 1 else 2 * rank w + 2, ?_⟩
  intro x w hw
  rw [outEdges_splitVertex g u a b hu x] at hw
  by_cases hxu : x = u
  · subst hxu
    simp only [if_true, List.mem_singleton] at hw
    subst hw
    have : x ≠ g.graph.length := by omega
    simp only [if_true, this, if_false]
    omega
  · simp only [hxu, if_false] at hw
    by_cases hxn : x = g.graph.length
    · simp only [hxn, if_true, List.mem_reverse] at hw
      have hwn : w ≠ g.graph.length := by have := hwf.edges u w hw; omega
      have := hrank u w hw
      simp only [hxn, if_true, hwn, if_false]
      omega
    · simp only [hxn, if_false] at hw
      have hwn : w ≠ g.graph.length := by have := hwf.edges x w hw; omega
      have := hrank x w hw
      simp only [hxn, hwn, if_false]
      omega

theorem Acyclic_addBranch (g : ComponentGraph α) (hwf : WF g) (v : Nat) (suf : List α)
    (hv : v < g.graph.length) (h : Acyclic g) : Acyclic (addBranch g v suf) := by
  obtain ⟨rank, hrank⟩ := h
  refine ⟨fun w => if w = g.graph.length then 0 else rank w + 1, ?_⟩
  intro x w hw
  rw [outEdges_addBranch g v suf hv x] at hw
  have hxn : x ≠ g.graph.length := by
    intro hx
    subst hx
    have hvx : g.graph.length ≠ v := by omega
    simp only [hvx, if_false] at hw
    rw [outEdges_ge g _ (Nat.le_refl _)] at hw
    simp at hw
  by_cases hxv : x = v
  · subst hxv
    simp only [if_true] at hw
    rcases List.mem_cons.mp hw with hw | hw
    · subst hw
      simp only [if_true, hxn, if_false]
      omega
    · have hwn : w ≠ g.graph.length := by have := hwf.edges x w hw; omega
      have := hrank x w hw
      simp only [hwn, hxn, if_false]
      omega
  · simp only [hxv, if_false] at hw
    have hwn : w ≠ g.graph.length := by have := hwf.edges x w hw; omega
    have := hrank x w hw
    simp only [hwn, hxn, if_false]
    omega

theorem Acyclic_addSource (g : ComponentGraph α) (hwf : WF g) (x : Nat) (pre : List α)
    (hx : x < g.graph.length) (h : Acyclic g) : Acyclic (addSource g x pre) := by
  obtain ⟨rank, hrank⟩ := h
  refine ⟨fun w => if w = g.graph.length then rank x + 1 else rank w, ?_⟩
  intro y w hw
  rw [outEdges_addSource] at hw
  by_cases hyn : y = g.graph.length
  · simp only [hyn, if_true, List.mem_singleton] at hw
    subst hw
    have : w ≠ g.graph.length := by omega
    simp only [hyn, if_true, this, if_false]
    omega
  · simp only [hyn, if_false] at hw
    have hwn : w ≠ g.graph.length := by have := hwf.edges y w hw; omega
    have := hrank y w hw
    simp only [hwn, hyn, if_false]
    exact this

theorem GraphOp_Acyclic (g g1 : ComponentGraph α) (hwf : WF g) (hop : GraphOp g g1)
    (h : Acyclic g) : Acyclic g1 := by
  cases hop with
  | relabel v l _ => exact Acyclic_setLabel g v l h
  | split u a b hu => exact Acyclic_splitVertex g hwf u a b hu h
  | branch v suf hv => exact Acyclic_addBranch g hwf v suf hv h
  | source x pre hx => exact Acyclic_addSource g hwf x pre hx h

theorem ops_Acyclic (g g1 : ComponentGraph α) (hwf : WF g) (hac : Acyclic g)
    (h : Relation.ReflTransGen GraphOp g g1) : WF g1 ∧ Acyclic g1 := by
  induction h with
  | refl => exact ⟨hwf, hac⟩
  | tail _ hstep ih => exact ⟨GraphOp_WF _ _ ih.1 hstep, GraphOp_Acyclic _ _ ih.1 hstep ih.2⟩

/-! ## Reachability along the graph steps -/

theorem AllReach_ofSeq (s : List α) : AllReach (ComponentGraph.ofSeq s) := by
  intro x hx
  have hx0 : x = 0 := by
    simp [ComponentGraph.ofSeq, addVertex] at hx
    exact hx
  subst hx0
  exact Reach.source 0 (by simp [ComponentGraph.ofSeq, addVertex])

theorem Reach_of_edges (g g1 : ComponentGraph α) (hs : ∀ s, s ∈ g.sources → s ∈ g1.sources)
    (he : ∀ u w, w ∈ outEdges g u → Reach g1 u → Reach g1 w) (x : Nat) (h : Reach g x) :
    Reach g1 x := by
  induction h with
  | source s hsrc => exact Reach.source s (hs s hsrc)
  | edge u w _ hw ih => exact he u w hw ih

theorem Reach_splitVertex (g : ComponentGraph α) (u : Nat) (a b : List α)
    (hu : u < g.graph.length) (x : Nat) (h : Reach g x) : Reach (splitVertex g u a b).1 x := by
  apply Reach_of_edges g _ _ _ x h
  · intro s hs; rw [splitVertex_sources]; exact hs
  · intro y w hw hy
    by_cases hyu : y = u
    · subst hyu
      have hn : Reach (splitVertex g y a b).1 g.graph.length :=
        Reach.edge y _ hy (by rw [outEdges_splitVertex g y a b hu y]; simp)
      refine Reach.edge _ w hn ?_
      rw [outEdges_splitVertex g y a b hu g.graph.length]
      have : g.graph.length ≠ y := by omega
      simp only [this, if_false, if_true, List.mem_reverse]
      exact hw
    · have hyn : y ≠ g.graph.length := by
        intro hy2
        subst hy2
        rw [outEdges_ge g _ (Nat.le_refl _)] at hw
        simp at hw
      refine Reach.edge y w hy ?_
      rw [outEdges_splitVertex g u a b hu y]
      simp only [hyu, hyn, if_false]
      exact hw

theorem AllReach_splitVertex (g : ComponentGraph α) (u : Nat) (a b : List α)
    (hu : u < g.graph.length) (h : AllReach g) : AllReach (splitVertex g u a b).1 := by
  intro x hx
  rw [splitVertex_length] at hx
  by_cases hxn : x = g.graph.length
  · subst hxn
    exact Reach.edge u _ (Reach_splitVertex g u a b hu u (h u hu))
      (by rw [outEdges_splitVertex g u a b hu u]; simp)
  · exact Reach_splitVertex g u a b hu x (h x (by omega))

theorem Reach_addBranch (g : ComponentGraph α) (v : Nat) (suf : List α)
    (hv : v < g.graph.length) (x : Nat) (h : Reach g x) : Reach (addBranch g v suf) x := by
  apply Reach_of_edges g _ _ _ x h
  · intro s hs; exact hs
  · intro y w hw hy
    refine Reach.edge y w hy ?_
    rw [outEdges_addBranch g v suf hv y]
    by_cases hyv : y = v
    · subst hyv
      simp only [if_true]
      exact List.mem_cons_of_mem _ hw
    · simp only [hyv, if_false]
      exact hw

theorem AllReach_addBranch (g : ComponentGraph α) (v : Nat) (suf : List α)
    (hv : v < g.graph.length) (h : AllReach g) : AllReach (addBranch g v suf) := by
  intro x hx
  rw [length_addBranch] at hx
  by_cases hxn : x = g.graph.length
  · subst hxn
    exact Reach.edge v _ (Reach_addBranch g v suf hv v (h v hv))
      (by rw [outEdges_addBranch g v suf hv v]; simp)
  · exact Reach_addBranch g v suf hv x (h x (by omega))

theorem Reach_addSource (g : ComponentGraph α) (x0 : Nat) (pre : List α)
    (x : Nat) (h : Reach g x) : Reach (addSource g x0 pre) x := by
  apply Reach_of_edges g _ _ _ x h
  · intro s hs; rw [sources_addSource]; exact List.mem_append_left _ hs
  · intro y w hw hy
    refine Reach.edge y w hy ?_
    rw [outEdges_addSource]
    have hyn : y ≠ g.graph.length := by
      intro hy2
      subst hy2
      rw [outEdges_ge g _ (Nat.le_refl _)] at hw
      simp at hw
    simp only [hyn, if_false]
    exact hw

theorem AllReach_addSource (g : ComponentGraph α) (x0 : Nat) (pre : List α)
    (h : AllReach g) : AllReach (addSource g x0 pre) := by
  intro x hx
  rw [length_addSource] at hx
  by_cases hxn : x = g.graph.length
  · subst hxn
    exact Reach.source _ (by rw [sources_addSource]; simp)
  · exact Reach_addSource g x0 pre x (h x (by omega))

theorem AllReach_setLabel (g : ComponentGraph α) (v : Nat) (l : List α) (h : AllReach g) :
    AllReach (setLabel g v l) := by
  intro x hx
  exact Reach_of_edges g (setLabel g v l) (fun s hs => hs) (fun u w hw hu => Reach.edge u w hu hw) x (h x hx)

theorem GraphOp_AllReach (g g1 : ComponentGraph α) (hop : GraphOp g g1)
    (h : AllReach g) : AllReach g1 := by
  cases hop with
  | relabel v l _ => exact AllReach_setLabel g v l h
  | split u a b hu => exact AllReach_splitVertex g u a b hu h
  | branch v suf hv => exact AllReach_addBranch g v suf hv h
  | source x pre hx => exact AllReach_addSource g x pre h

theorem ops_AllReach (g g1 : ComponentGraph α) (hwf : WF g) (hre : AllReach g)
    (h : Relation.ReflTransGen GraphOp g g1) : WF g1 ∧ AllReach g1 := by
  induction h with
  | refl => exact ⟨hwf, hre⟩
  | tail _ hstep ih => exact ⟨GraphOp_WF _ _ ih.1 hstep, GraphOp_AllReach _ _ hstep ih.2⟩

end Popins

namespace Popins

variable {α : Type}

/-! ## Paths of a graph with non-empty labels -/

/-- A path of a well-formed graph with non-empty labels is the path of a route
and its offset map lists the cumulative label ends. -/
theorem path_facts (g : ComponentGraph α) (hwf : WF g) (hlab : LabelsNonEmpty g)
    (fuel : Nat) (paths : List (Path α)) (n : Nat)
    (henum : enumeratePaths fuel g [] = some (paths, n)) (P : Path α) (hP : P ∈ paths) :
    ∃ r, IsRoute g r ∧ r ≠ [] ∧ (∀ x ∈ r, x < g.graph.length) ∧
      P.seq = routeSeq g r ∧ P.positionMap = offsets g 0 r := by
  obtain ⟨rs, r, _, _, _, hPr, hroute, _⟩ := path_route fuel g paths n henum P hP
  have hvlt := isRoute_vertex_lt g hwf r hroute
  have hlabr : ∀ x ∈ r, label g x ≠ [] := fun x hx => hlab x (hvlt x hx)
  refine ⟨r, hroute, isChain_ne_nil g r hroute.2, hvlt, by rw [hPr, routePath_nil_seq], ?_⟩
  rw [hPr, routePath_positionMap g _ r hlabr (fun e he => by simp at he)]
  rfl

/-- Both ends of `mergeSeqWithGraph` are defined when the boundaries of the
alignment lie within the path. -/
theorem mergeSeqWithGraph_defined (g : ComponentGraph α) (hwf : WF g) (hlab : LabelsNonEmpty g)
    (fuel : Nat) (paths : List (Path α)) (n : Nat)
    (henum : enumeratePaths fuel g [] = some (paths, n)) (P : Path α) (hP : P ∈ paths)
    (s : List α) (al : Alignment) (mbl : Nat)
    (hb : al.beginPath < P.seq.length) (he : al.endPath ≤ P.seq.length) :
    ∃ g1 g2, mergeRight g P s al mbl = some g1 ∧ mergeLeft g1 P s al mbl = some g2 ∧
      mergeSeqWithGraph g P s al mbl = some g2 := by
  obtain ⟨r, _, hne, _, hseq, hmap⟩ := path_facts g hwf hlab fuel paths n henum P hP
  obtain ⟨g1, hg1⟩ := mergeRight_defined g r hne P hseq hmap s al mbl he
  obtain ⟨r1, u, r2, _, _, _, hfind⟩ :=
    upperBound_offsets g r 0 al.beginPath (Nat.zero_le _)
      (by rw [← hseq, Nat.zero_add]; exact hb)
  rw [← hmap] at hfind
  obtain ⟨g2, hg2⟩ := mergeLeft_defined g1 P s al mbl _ u hfind
  exact ⟨g1, g2, hg1, hg2, by simp only [mergeSeqWithGraph, hg1, Option.some_bind, hg2]⟩

/-! ## Labels stay non-empty -/

theorem LabelsNonEmpty_setLabel (g : ComponentGraph α) (hwf : WF g) (hlab : LabelsNonEmpty g)
    (v : Nat) (l : List α) (hv : v < g.graph.length) (hl : l ≠ []) :
    LabelsNonEmpty (setLabel g v l) := by
  intro w hw
  rw [label_setLabel g v l w (by rw [hwf.len]; exact hv)]
  split
  · exact hl
  · exact hlab w hw

theorem LabelsNonEmpty_addBranch (g : ComponentGraph α) (hwf : WF g) (hlab : LabelsNonEmpty g)
    (v : Nat) (suf : List α) (hl : suf ≠ []) : LabelsNonEmpty (addBranch g v suf) := by
  intro w hw
  rw [length_addBranch] at hw
  rw [label_addBranch g hwf v suf w]
  split
  · exact hl
  · exact hlab w (by omega)

theorem LabelsNonEmpty_addSource (g : ComponentGraph α) (hwf : WF g) (hlab : LabelsNonEmpty g)
    (x : Nat) (pre : List α) (hl : pre ≠ []) : LabelsNonEmpty (addSource g x pre) := by
  intro w hw
  rw [length_addSource] at hw
  rw [label_addSource g hwf x pre w]
  split
  · exact hl
  · exact hlab w (by omega)

theorem LabelsNonEmpty_splitVertex (g : ComponentGraph α) (hwf : WF g) (hlab : LabelsNonEmpty g)
    (u : Nat) (a b : List α) (hu : u < g.graph.length) (ha : a ≠ []) (hb : b ≠ []) :
    LabelsNonEmpty (splitVertex g u a b).1 := by
  intro w hw
  rw [splitVertex_length] at hw
  rw [label_splitVertex g u a b hwf.len hu w]
  split
  · exact ha
  · split
    · exact hb
    · exact hlab w (by omega)

theorem take_ne_nil (l : List α) (k : Nat) (hk : 0 < k) (hl : l ≠ []) : l.take k ≠ [] := by
  intro h
  have := congrArg List.length h
  have hpos := List.length_pos.mpr hl
  simp only [List.length_take, List.length_nil] at this
  omega

theorem drop_ne_nil (l : List α) (k : Nat) (hk : k < l.length) : l.drop k ≠ [] := by
  intro h
  have := congrArg List.length h
  simp only [List.length_drop, List.length_nil] at this
  omega

/-- The split position of the right end lies strictly inside the label. -/
theorem right_split_inside (g : ComponentGraph α) (r : List Nat) (P : Path α)
    (hseq : P.seq = routeSeq g r) (hmap : P.positionMap = offsets g 0 r)
    (x : Nat) (h0 : 0 < x) (hx : x ≤ P.seq.length) (vPos v : Nat)
    (hlb : lowerBound P.positionMap x = some (vPos, v)) (hlt : x < vPos) :
    v ∈ r ∧ wrapSub (label g v).length (vPos - x) = (label g v).length - (vPos - x) ∧
      0 < (label g v).length - (vPos - x) ∧
      (label g v).length - (vPos - x) < (label g v).length := by
  obtain ⟨r1, v1, r2, hr, hlo, hhi, hfind⟩ :=
    lowerBound_offsets g r 0 x h0 (by rw [← hseq, Nat.zero_add]; exact hx)
  rw [Nat.zero_add] at hlo hhi hfind
  rw [← hmap, hlb] at hfind
  simp only [Option.some.injEq, Prod.mk.injEq] at hfind
  obtain ⟨h1, h2⟩ := hfind
  subst h2
  refine ⟨by rw [hr]; simp, ?_, by omega, by omega⟩
  exact wrapSub_le _ _ (by omega)

theorem mergeRight_labels (g : ComponentGraph α) (hwf : WF g) (hlab : LabelsNonEmpty g)
    (r : List Nat) (hr : ∀ x ∈ r, x < g.graph.length) (P : Path α)
    (hseq : P.seq = routeSeq g r) (hmap : P.positionMap = offsets g 0 r)
    (s : List α) (al : Alignment) (mbl : Nat)
    (h0 : 0 < al.endPath) (he : al.endPath ≤ P.seq.length)
    (g1 : ComponentGraph α) (h : mergeRight g P s al mbl = some g1) : LabelsNonEmpty g1 := by
  have hent : ∀ e ∈ P.positionMap, e.2 < g.graph.length := by
    intro e hmem
    rw [hmap] at hmem
    obtain ⟨r1, r2, hre, _⟩ := offsets_entry g 0 r e.1 e.2 hmem
    exact hr _ (by rw [hre]; simp)
  rcases mergeRight_shape g P s al mbl g1 h with rfl | ⟨vPos, v, hlb, hes, hcase⟩
  · exact hlab
  · have hv : v < g.graph.length := hent _ (lowerBound_some _ _ _ hlb).1
    rcases hcase with ⟨_, rfl⟩ | ⟨_, _, _, rfl⟩ | ⟨_, _, hlt, _, rfl⟩
    · exact LabelsNonEmpty_setLabel g hwf hlab v _ hv
        (by intro hnil; exact hlab v hv (List.append_eq_nil.mp hnil).1)
    · exact LabelsNonEmpty_addBranch g hwf hlab v _ (drop_ne_nil s _ hes)
    · obtain ⟨_, hw, hpos, hin⟩ := right_split_inside g r P hseq hmap al.endPath h0 he vPos v hlb hlt
      rw [hw]
      refine LabelsNonEmpty_addBranch _ (WF_splitVertex g hwf v _ _ hv) ?_ v _ (drop_ne_nil s _ hes)
      exact LabelsNonEmpty_splitVertex g hwf hlab v _ _ hv
        (take_ne_nil _ _ hpos (hlab v hv)) (drop_ne_nil _ _ hin)

theorem mergeLeft_labels (g1 : ComponentGraph α) (hwf : WF g1) (hlab : LabelsNonEmpty g1)
    (P : Path α) (hent : ∀ e ∈ P.positionMap, e.2 < g1.graph.length)
    (s : List α) (hs : s ≠ []) (al : Alignment) (mbl : Nat)
    (g2 : ComponentGraph α) (h : mergeLeft g1 P s al mbl = some g2) : LabelsNonEmpty g2 := by
  rcases mergeLeft_shape g1 P s al mbl g2 h with rfl | ⟨uPos, u, hub, hbs, hcase⟩
  · exact hlab
  · have hu : u < g1.graph.length := hent _ (upperBound_some _ _ _ hub).1
    have hlt : al.beginPath < uPos := (upperBound_some _ _ _ hub).2
    rcases hcase with ⟨_, rfl⟩ | ⟨_, _, _, rfl⟩ | ⟨_, _, hin, _, rfl⟩
    · exact LabelsNonEmpty_setLabel g1 hwf hlab u _ hu
        (by intro hnil; exact hlab u hu (List.append_eq_nil.mp hnil).2)
    · exact LabelsNonEmpty_addSource g1 hwf hlab u _ (take_ne_nil s _ hbs hs)
    · obtain ⟨hw, hpos, hin2⟩ := left_split_inside uPos (label g1 u).length al.beginPath hlt hin
      rw [hw]
      refine LabelsNonEmpty_addSource _ (WF_splitVertex g1 hwf u _ _ hu) ?_ _ _
        (take_ne_nil s _ hbs hs)
      exact LabelsNonEmpty_splitVertex g1 hwf hlab u _ _ hu
        (take_ne_nil _ _ hpos (hlab u hu)) (drop_ne_nil _ _ hin2)

end Popins

namespace Popins

variable {α : Type}

/-! ## The selection loop -/

section Select

variable [DecidableEq α]

/-- The selection loop keeps the first path whose score exceeds every score
seen before and the initial value of `maxScore`. -/
theorem select_fold (aligner : Aligner α) (s : List α) (ms ep : Int) (k : Nat)
    (paths : List (Path α)) (st : Int × Option (Path α × Alignment))
    (hdef : ∀ p ∈ paths, ∃ al, alignPath aligner s ms ep k p = some al) :
    ∃ st1, paths.foldlM (selectStep aligner s ms ep k) st = some st1 ∧
      ((st1 = st ∧ ∀ p ∈ paths, ∀ al, alignPath aligner s ms ep k p = some al →
          al.score ≤ st.1) ∨
       (∃ (j : Nat) (P : Path α) (al : Alignment), paths[j]? = some P ∧ alignPath aligner s ms ep k P = some al ∧
          st1 = (al.score, some (P, al)) ∧ st.1 < al.score ∧
          (∀ (i : Nat) (Q : Path α) (al1 : Alignment), paths[i]? = some Q → alignPath aligner s ms ep k Q = some al1 →
            al1.score ≤ al.score) ∧
          (∀ (i : Nat) (Q : Path α) (al1 : Alignment), i < j → paths[i]? = some Q →
            alignPath aligner s ms ep k Q = some al1 → al1.score < al.score))) := by
  induction paths generalizing st with
  | nil =>
    exact ⟨st, rfl, Or.inl ⟨rfl, fun p hp => by simp at hp⟩⟩
  | cons p ps ih =>
    obtain ⟨al, hal⟩ := hdef p (List.mem_cons_self _ _)
    have hstep : selectStep aligner s ms ep k st p
        = some (if al.score > st.1 then (al.score, some (p, al)) else st) := by
      simp only [selectStep, hal, Option.map_some']
    obtain ⟨st1, hfold, hcase⟩ :=
      ih (if al.score > st.1 then (al.score, some (p, al)) else st)
        (fun q hq => hdef q (List.mem_cons_of_mem _ hq))
    refine ⟨st1, ?_, ?_⟩
    · rw [List.foldlM_cons, hstep]; exact hfold
    · rcases hcase with ⟨heq, hle⟩ | ⟨j, P, alj, hj, halj, hst1, hgt, hmax, hfirst⟩
      · by_cases hsc : al.score > st.1
        · right
          simp only [hsc, if_true] at heq hle
          refine ⟨0, p, al, List.getElem?_cons_zero, hal, heq, hsc, ?_, ?_⟩
          · intro i Q al1 hi hQ
            cases i with
            | zero =>
              simp only [List.getElem?_cons_zero, Option.some.injEq] at hi
              subst hi
              rw [hal] at hQ
              simp only [Option.some.injEq] at hQ
              subst hQ
              exact le_refl _
            | succ i =>
              simp only [List.getElem?_cons_succ] at hi
              exact hle Q (List.getElem?_mem hi) al1 hQ
          · intro i Q al1 hi; omega
        · left
          simp only [hsc, if_false] at heq hle
          refine ⟨heq, ?_⟩
          intro q hq alq halq
          rcases List.mem_cons.mp hq with rfl | hq
          · rw [hal] at halq
            simp only [Option.some.injEq] at halq
            subst halq
            omega
          · exact hle q hq alq halq
      · right
        have hst : st.1 ≤ (if al.score > st.1 then (al.score, some (p, al)) else st).1 ∧
            al.score ≤ (if al.score > st.1 then (al.score, some (p, al)) else st).1 := by
          by_cases hsc : al.score > st.1
          · simp only [hsc, if_true]; omega
          · simp only [hsc, if_false]; omega
        refine ⟨j + 1, P, alj, by simpa using hj, halj, hst1, by omega, ?_, ?_⟩
        · intro i Q al1 hi hQ
          cases i with
          | zero =>
            simp only [List.getElem?_cons_zero, Option.some.injEq] at hi
            subst hi
            rw [hal] at hQ
            simp only [Option.some.injEq] at hQ
            subst hQ
            omega
          | succ i =>
            simp only [List.getElem?_cons_succ] at hi
            exact hmax i Q al1 hi hQ
        · intro i Q al1 hlt hi hQ
          cases i with
          | zero =>
            simp only [List.getElem?_cons_zero, Option.some.injEq] at hi
            subst hi
            rw [hal] at hQ
            simp only [Option.some.injEq] at hQ
            subst hQ
            omega
          | succ i =>
            simp only [List.getElem?_cons_succ] at hi
            exact hfirst i Q al1 (by omega) hi hQ

/-- A selected path is one of the enumerated paths. -/
theorem select_fold_mem (aligner : Aligner α) (s : List α) (ms ep : Int) (k : Nat)
    (paths : List (Path α)) (st st1 : Int × Option (Path α × Alignment))
    (h : paths.foldlM (selectStep aligner s ms ep k) st = some st1) :
    st1.2 = st.2 ∨ ∃ P al, st1.2 = some (P, al) ∧ P ∈ paths := by
  induction paths generalizing st with
  | nil =>
    simp only [List.foldlM_nil, pure, Option.some.injEq] at h
    subst h
    exact Or.inl rfl
  | cons p ps ih =>
    rw [List.foldlM_cons] at h
    cases hs : selectStep aligner s ms ep k st p with
    | none => simp [hs] at h
    | some st2 =>
      simp only [hs, Option.bind_eq_bind, Option.some_bind] at h
      have h2 : st2.2 = st.2 ∨ ∃ al, st2.2 = some (p, al) := by
        simp only [selectStep] at hs
        cases hal : alignPath aligner s ms ep k p with
        | none => simp [hal] at hs
        | some al =>
          simp only [hal, Option.map_some', Option.some.injEq] at hs
          subst hs
          split
          · right; exact ⟨al, rfl⟩
          · left; rfl
      rcases ih st2 h with h3 | ⟨P, al, h3, hP⟩
      · rcases h2 with h4 | ⟨al, h4⟩
        · left; rw [h3, h4]
        · right; exact ⟨p, al, by rw [h3, h4], List.mem_cons_self _ _⟩
      · right; exact ⟨P, al, h3, List.mem_cons_of_mem _ hP⟩

theorem selectPath_mem (aligner : Aligner α) (s : List α) (ms ep : Int) (k : Nat)
    (paths : List (Path α)) (sc : Int) (P : Path α) (al : Alignment)
    (h : selectPath aligner s ms ep k paths = some (sc, some (P, al))) : P ∈ paths := by
  rcases select_fold_mem aligner s ms ep k paths _ _ h with h1 | ⟨Q, al1, h1, hQ⟩
  · simp at h1
  · simp only [Option.some.injEq, Prod.mk.injEq] at h1
    rw [h1.1]; exact hQ

/-- The graphs of the driver loop are graphs of a merge session. -/
theorem addSequencesLoop_session (fuel : Nat) (aligner : Aligner α) (mbl : Nat) (ms ep : Int)
    (k : Nat) (xs : List (List α)) (g g1 : ComponentGraph α) (b : Bool)
    (h : addSequencesLoop fuel aligner mbl ms ep k g xs = some (b, g1))
    (hg : MergeSession g) : MergeSession g1 := by
  induction xs generalizing g with
  | nil =>
    simp only [addSequencesLoop, Option.some.injEq, Prod.mk.injEq] at h
    rw [← h.2]; exact hg
  | cons s rest ih =>
    simp only [addSequencesLoop] at h
    cases hen : enumeratePaths fuel g [] with
    | none => simp [hen] at h
    | some pr =>
      obtain ⟨paths, n⟩ := pr
      simp only [hen] at h
      by_cases hcap : paths.length > 30
      · simp only [hcap, if_true, Option.some.injEq, Prod.mk.injEq] at h
        rw [← h.2]; exact hg
      · simp only [hcap, if_false] at h
        cases hsel : selectPath aligner s ms ep k paths with
        | none => simp [hsel] at h
        | some sel =>
          obtain ⟨sc, best⟩ := sel
          cases best with
          | none => simp [hsel] at h
          | some pa =>
            obtain ⟨P, al⟩ := pa
            simp only [hsel] at h
            cases hm : mergeSeqWithGraph g P s al mbl with
            | none => simp [hm] at h
            | some g2 =>
              simp only [hm] at h
              exact ih g2 h (MergeSession.merge g g2 fuel paths n P s al mbl hg hen
                (selectPath_mem aligner s ms ep k paths sc P al hsel) hm)

end Select

/-! ## Session graphs are acyclic and fully reachable -/

theorem session_invariants (g : ComponentGraph α) (h : MergeSession g) :
    WF g ∧ Acyclic g ∧ AllReach g := by
  induction h with
  | seed s => exact ⟨WF_ofSeq s, Acyclic_ofSeq s, AllReach_ofSeq s⟩
  | merge g g1 fuel paths n P s al mbl _ hen hP hm ih =>
    have hops := mergeSeqWithGraph_ops g ih.1 fuel paths n hen P hP s al mbl g1 hm
    exact ⟨ops_WF g g1 ih.1 hops, (ops_Acyclic g g1 ih.1 ih.2.1 hops).2,
      (ops_AllReach g g1 ih.1 ih.2.2 hops).2⟩

/-- On an acyclic graph the enumeration returns for every sufficient depth. -/
theorem enumeratePaths_total (g : ComponentGraph α) (h : Acyclic g) :
    ∃ fuel0, ∀ f, fuel0 ≤ f → ∃ paths, enumeratePaths f g [] = some (paths, paths.length) := by
  obtain ⟨rank, hrank⟩ := h
  refine ⟨(g.sources.map rank).sum + 1, ?_⟩
  intro f hf
  obtain ⟨rs, hrs⟩ := allRoutes_terminates g rank hrank f (by omega)
  exact ⟨_, (enumeratePaths_of_allRoutes f g rs hrs).1⟩

/-! ## Every reachable vertex lies on a listed route -/

theorem routesFrom_ne_nil (f : Nat) (g : ComponentGraph α) (w : Nat) (L : List (List Nat))
    (h : routesFrom f g w = some L) : L ≠ [] := by
  induction f generalizing w L with
  | zero => simp [routesFrom] at h
  | succ f ih =>
    by_cases hs : outEdges g w = []
    · rw [routesFrom_sink f g w hs] at h
      simp only [Option.some.injEq] at h
      subst h; simp
    · obtain ⟨hall, hrs⟩ := (routesFrom_inner f g w hs L).mp h
      obtain ⟨u, rest, hu⟩ := List.exists_cons_of_ne_nil hs
      obtain ⟨Lu, hLu⟩ := hall u (by rw [hu]; exact List.mem_cons_self _ _)
      obtain ⟨r, rest2, hr⟩ := List.exists_cons_of_ne_nil (ih u Lu hLu)
      intro hnil
      have hmem : (w :: r) ∈ L := by
        rw [hrs]
        simp only [List.mem_flatMap, List.mem_map]
        exact ⟨u, by rw [hu]; exact List.mem_cons_self _ _, r,
          by rw [hLu, Option.getD_some, hr]; exact List.mem_cons_self _ _, rfl⟩
      rw [hnil] at hmem
      simp at hmem

theorem reach_routes (f : Nat) (g : ComponentGraph α) (rs : List (List Nat))
    (h : allRoutes f g = some rs) (x : Nat) (hx : Reach g x) :
    ∃ f1 L pre, routesFrom f1 g x = some L ∧ ∀ r ∈ L, pre ++ r ∈ rs := by
  obtain ⟨hall, hrs⟩ := (allRoutes_iff f g rs).mp h
  induction hx with
  | source s hs =>
    obtain ⟨L, hL⟩ := hall s hs
    refine ⟨f, L, [], hL, ?_⟩
    intro r hr
    rw [List.nil_append, hrs]
    simp only [List.mem_flatMap]
    exact ⟨s, hs, by rw [hL, Option.getD_some]; exact hr⟩
  | edge u w _ hw ih =>
    obtain ⟨f1, L, pre, hL, hsub⟩ := ih
    have hne : outEdges g u ≠ [] := List.ne_nil_of_mem hw
    cases f1 with
    | zero => simp [routesFrom] at hL
    | succ f0 =>
      obtain ⟨hch, hLeq⟩ := (routesFrom_inner f0 g u hne L).mp hL
      obtain ⟨Lw, hLw⟩ := hch w hw
      refine ⟨f0, Lw, pre ++ [u], hLw, ?_⟩
      intro r hr
      rw [List.append_assoc, List.singleton_append]
      apply hsub
      rw [hLeq]
      simp only [List.mem_flatMap, List.mem_map]
      exact ⟨w, hw, r, by rw [hLw, Option.getD_some]; exact hr, rfl⟩

theorem routesFrom_head (f : Nat) (g : ComponentGraph α) (w : Nat) (L : List (List Nat))
    (h : routesFrom f g w = some L) (r : List Nat) (hr : r ∈ L) : w ∈ r := by
  cases f with
  | zero => simp [routesFrom] at h
  | succ f =>
    obtain ⟨r1, rfl, _⟩ := mem_routesFrom f g w L h r hr
    exact List.mem_cons_self _ _

theorem label_infix_routeSeq (g : ComponentGraph α) (r : List Nat) (x : Nat) (hx : x ∈ r) :
    label g x <:+: routeSeq g r := by
  obtain ⟨r1, r2, rfl⟩ := List.append_of_mem hx
  rw [routeSeq_append, routeSeq_cons]
  exact ⟨routeSeq g r1, routeSeq g r2, by rw [List.append_assoc]⟩

/-- In a graph whose vertices are all reachable every vertex lies on the route
of an enumerated path, so its label occurs in the sequence of that path. -/
theorem reach_cover (g : ComponentGraph α) (hre : AllReach g) (fuel : Nat)
    (paths : List (Path α)) (n : Nat) (henum : enumeratePaths fuel g [] = some (paths, n))
    (x : Nat) (hx : x < g.graph.length) :
    ∃ P ∈ paths, ∃ r, IsRoute g r ∧ x ∈ r ∧ P.seq = routeSeq g r ∧ label g x <:+: P.seq := by
  rw [enumeratePaths_eq] at henum
  cases hrs : allRoutes fuel g with
  | none => simp [hrs] at henum
  | some rs =>
    simp only [hrs, Option.map_some', List.nil_append, Option.some.injEq, Prod.mk.injEq] at henum
    obtain ⟨hp, _⟩ := henum
    obtain ⟨f1, L, pre, hL, hsub⟩ := reach_routes fuel g rs hrs x (hre x hx)
    obtain ⟨r, rest, hr⟩ := List.exists_cons_of_ne_nil (routesFrom_ne_nil f1 g x L hL)
    have hrL : r ∈ L := by rw [hr]; exact List.mem_cons_self _ _
    have hmem : pre ++ r ∈ rs := hsub r hrL
    have hroute : IsRoute g (pre ++ r) := by
      rw [← routeMult_pos_iff, ← allRoutes_count fuel g rs hrs]
      exact List.count_pos_iff.mpr hmem
    have hxr : x ∈ pre ++ r := List.mem_append_right _ (routesFrom_head f1 g x L hL r hrL)
    refine ⟨routePath g { seq := [], positionMap := [] } (pre ++ r), ?_, pre ++ r, hroute, hxr,
      routePath_nil_seq g _, ?_⟩
    · rw [← hp]; exact List.mem_map.mpr ⟨_, hmem, rfl⟩
    · rw [routePath_nil_seq]; exact label_infix_routeSeq g _ x hxr

/-! ## The example graph is acyclic and fully reachable -/

theorem chainGraph_Acyclic : Acyclic chainGraph := by
  refine ⟨fun w => 1 - w, ?_⟩
  intro u w h
  match u with
  | 0 =>
    have : w = 1 := by simpa [outEdges, chainGraph] using h
    subst this; decide
  | 1 => simp [outEdges, chainGraph] at h
  | k + 2 => simp [outEdges, chainGraph] at h

theorem chainGraph_AllReach : AllReach chainGraph := by
  intro x hx
  have hx2 : x < 2 := hx
  have h0 : Reach chainGraph 0 := Reach.source 0 (by simp [chainGraph])
  match x with
  | 0 => exact h0
  | 1 => exact Reach.edge 0 1 h0 (by simp [outEdges, chainGraph])
  | k + 2 => omega

end Popins

namespace Popins

variable {ρ : Type}

/-! ## The repair of one record -/

theorem slice_whole (s : List Char) (n : Nat) (h : s.length ≤ n) : slice s 0 (n - 0) = s := by
  simp only [slice, List.drop_zero, Nat.sub_zero]
  exact List.take_of_length_le h

theorem segment_eq_slice (s : List Char) (b e : Nat) (h1 : b ≤ e) (h2 : e ≤ s.length) :
    segment s b e = some (slice s b e) := by
  simp only [segment, h1, h2, and_self, if_true, slice]

/-- For a record that lacks sequence or quality, has a CIGAR string and hard
clips that fit into the first record of its group, the source writes the
slices named by the specification. -/
theorem fillRecord_spec (p r : BamAlignmentRecord ρ) (hq : p.qual.length = p.seq.length)
    (hok : MemberOk p r) : fillRecord p r = some (repairSpec p r) := by
  by_cases hlack : r.seq = [] ∨ r.qual = []
  · obtain ⟨hc, hfit⟩ := hok hlack
    have hlack2 : r.seq.length = 0 ∨ r.qual.length = 0 := by
      simpa only [List.length_eq_zero] using hlack
    obtain ⟨c0, cs, hcig⟩ := List.exists_cons_of_ne_nil hc
    have hpos : 0 < r.cigar.length := List.length_pos.mpr hc
    have h0 : r.cigar[0]? = some c0 := by rw [hcig]; exact List.getElem?_cons_zero
    have hlastIdx : wrapSub r.cigar.length 1 = r.cigar.length - 1 := wrapSub_le _ _ hpos
    obtain ⟨cl, hcl⟩ : ∃ cl, r.cigar.getLast? = some cl := by
      cases hl : r.cigar.getLast? with
      | none => rw [List.getLast?_eq_none_iff] at hl; exact absurd hl hc
      | some cl => exact ⟨cl, rfl⟩
    have hl : r.cigar[wrapSub r.cigar.length 1]? = some cl := by
      rw [hlastIdx, ← List.getLast?_eq_getElem?, hcl]
    have hb : leadingClip r = if c0.operation = 'H' then c0.count else 0 := by
      simp only [leadingClip, hcig, List.head?_cons]
    have ht : trailingClip r = if cl.operation = 'H' then cl.count else 0 := by
      simp only [trailingClip, hcl]
    simp only [fillRecord, hlack2, if_true, h0, hl, repairSpec, hlack]
    by_cases hH : c0.operation = 'H' ∨ cl.operation = 'H'
    · simp only [hH, if_true]
      have he : (if cl.operation = 'H' then wrapSub p.seq.length cl.count else p.seq.length)
          = p.seq.length - trailingClip r := by
        rw [ht]
        by_cases hcl2 : cl.operation = 'H'
        · simp only [hcl2, if_true] at hfit ht ⊢
          rw [ht] at hfit
          exact wrapSub_le _ _ (by omega)
        · simp only [hcl2, if_false, Nat.sub_zero]
      rw [he, ← hb]
      rw [segment_eq_slice p.seq _ _ (by omega) (by omega),
        segment_eq_slice p.qual _ _ (by omega) (by omega)]
    · simp only [hH, if_false]
      have hb0 : leadingClip r = 0 := by
        rw [hb]; simp only [not_or] at hH; simp only [hH.1, if_false]
      have ht0 : trailingClip r = 0 := by
        rw [ht]; simp only [not_or] at hH; simp only [hH.2, if_false]
      rw [hb0, ht0, slice_whole p.seq _ (Nat.le_refl _), slice_whole p.qual _ (by omega)]
  · have hlack2 : ¬ (r.seq.length = 0 ∨ r.qual.length = 0) := by
      simpa only [List.length_eq_zero] using hlack
    simp only [fillRecord, hlack2, if_false, repairSpec, hlack]

/-! ## The loop on one group -/

theorem fillLoop_members (first : BamAlignmentRecord ρ) (hq : first.qual.length = first.seq.length)
    (ms inStream out : List (BamAlignmentRecord ρ))
    (hsame : ∀ r ∈ ms, sameGroup first r) (hok : ∀ r ∈ ms, MemberOk first r) :
    fillLoop first (ms ++ inStream) out
      = fillLoop first inStream (out ++ ms.map (repairSpec first)) := by
  induction ms generalizing out with
  | nil => simp
  | cons r ms ih =>
    have hs := hsame r (List.mem_cons_self _ _)
    have hcond : ¬ (first.qName ≠ r.qName ∨ hasFlagFirst first ≠ hasFlagFirst r) := by
      intro h
      rcases h with h | h
      · exact h hs.1
      · exact h hs.2
    rw [List.cons_append]
    simp only [fillLoop, hcond, if_false,
      fillRecord_spec first r hq (hok r (List.mem_cons_self _ _))]
    rw [ih _ (fun x hx => hsame x (List.mem_cons_of_mem _ hx))
      (fun x hx => hok x (List.mem_cons_of_mem _ hx))]
    simp

theorem fillLoop_primary (first p : BamAlignmentRecord ρ) (hdiff : ¬ sameGroup first p)
    (hs : p.seq ≠ []) (hqn : p.qual ≠ []) (inStream out : List (BamAlignmentRecord ρ)) :
    fillLoop first (p :: inStream) out = fillLoop p inStream (out ++ [p]) := by
  have hcond : first.qName ≠ p.qName ∨ hasFlagFirst first ≠ hasFlagFirst p := by
    by_contra h
    simp only [not_or, not_not] at h
    exact hdiff ⟨h.1, h.2⟩
  have hlack : ¬ (p.seq.length = 0 ∨ p.qual.length = 0) := by
    simp only [List.length_eq_zero, not_or]
    exact ⟨hs, hqn⟩
  simp only [fillLoop, hcond, if_true, hlack, if_false]

/-! ## The groups of a stream -/

/-- The list of groups is empty for the empty stream and starts with a
non-empty group otherwise. -/
theorem groups_shape (rs : List (BamAlignmentRecord ρ)) :
    (rs = [] ∧ groups rs = []) ∨ ∃ q g gs, groups rs = (q :: g) :: gs := by
  cases rs with
  | nil => exact Or.inl ⟨rfl, rfl⟩
  | cons r rs =>
    right
    simp only [groups]
    split
    · split
      · exact ⟨_, _, _, rfl⟩
      · exact ⟨_, _, _, rfl⟩
    · exact ⟨_, _, _, rfl⟩

theorem groups_cons (r : BamAlignmentRecord ρ) (rs : List (BamAlignmentRecord ρ)) :
    (rs = [] ∧ groups (r :: rs) = [[r]]) ∨
    ∃ q g gs, groups rs = (q :: g) :: gs ∧
      ((sameGroup r q ∧ groups (r :: rs) = (r :: q :: g) :: gs) ∨
       (¬ sameGroup r q ∧ groups (r :: rs) = [r] :: (q :: g) :: gs)) := by
  rcases groups_shape rs with ⟨h1, h2⟩ | ⟨q, g, gs, h⟩
  · left
    exact ⟨h1, by simp only [groups, h2]⟩
  · right
    refine ⟨q, g, gs, h, ?_⟩
    by_cases hs : sameGroup r q
    · left; exact ⟨hs, by simp only [groups, h, hs, if_true]⟩
    · right; exact ⟨hs, by simp only [groups, h, hs, if_false]⟩

theorem groups_flatten (rs : List (BamAlignmentRecord ρ)) : (groups rs).flatten = rs := by
  induction rs with
  | nil => rfl
  | cons r rs ih =>
    rcases groups_cons r rs with ⟨h1, h2⟩ | ⟨q, g, gs, h, ⟨_, h2⟩ | ⟨_, h2⟩⟩
    · rw [h2, h1]; rfl
    · rw [h] at ih
      rw [h2, ← ih]; simp
    · rw [h] at ih
      rw [h2, ← ih]; simp

/-- Every group is a non-empty run of records of the same group. -/
theorem groups_uniform (rs : List (BamAlignmentRecord ρ)) :
    ∀ g ∈ groups rs, ∃ p ms, g = p :: ms ∧ ∀ r ∈ ms, sameGroup p r := by
  induction rs with
  | nil => intro g hg; simp [groups] at hg
  | cons r rs ih =>
    rcases groups_cons r rs with ⟨h1, h2⟩ | ⟨q, g0, gs, h, ⟨hs, h2⟩ | ⟨_, h2⟩⟩
    · intro g hg
      rw [h2] at hg
      simp only [List.mem_singleton] at hg
      exact ⟨r, [], hg, fun x hx => by simp at hx⟩
    · intro g hg
      rw [h2] at hg
      rw [h] at ih
      rcases List.mem_cons.mp hg with rfl | hg
      · obtain ⟨p, ms, hpm, hall⟩ := ih (q :: g0) (List.mem_cons_self _ _)
        simp only [List.cons.injEq] at hpm
        obtain ⟨rfl, rfl⟩ := hpm
        refine ⟨r, q :: g0, rfl, ?_⟩
        intro x hx
        rcases List.mem_cons.mp hx with rfl | hx
        · exact hs
        · have := hall x hx
          exact ⟨hs.1.trans this.1, hs.2.trans this.2⟩
      · exact ih g (List.mem_cons_of_mem _ hg)
    · intro g hg
      rw [h2] at hg
      rw [h] at ih
      rcases List.mem_cons.mp hg with rfl | hg
      · exact ⟨r, [], rfl, fun x hx => by simp at hx⟩
      · exact ih g hg

/-- The first records of two adjacent groups belong to different groups. -/
theorem groups_chain (rs : List (BamAlignmentRecord ρ)) :
    (groups rs).Chain' (fun g h => ∀ p ∈ g.head?, ∀ q ∈ h.head?, ¬ sameGroup p q) := by
  induction rs with
  | nil => simp [groups]
  | cons r rs ih =>
    rcases groups_cons r rs with ⟨h1, h2⟩ | ⟨q, g0, gs, h, ⟨hs, h2⟩ | ⟨hs, h2⟩⟩
    · rw [h2]; simp
    · rw [h2]
      rw [h] at ih
      cases gs with
      | nil => simp
      | cons g1 gs =>
        rw [List.chain'_cons] at ih ⊢
        refine ⟨?_, ih.2⟩
        intro p hp q1 hq1
        simp only [List.head?_cons, Option.mem_def, Option.some.injEq] at hp
        subst hp
        have := ih.1 q (by simp) q1 hq1
        intro hcon
        exact this ⟨hs.1.symm.trans hcon.1, hs.2.symm.trans hcon.2⟩
    · rw [h2]
      rw [h] at ih
      rw [List.chain'_cons]
      refine ⟨?_, ih⟩
      intro p hp q1 hq1
      simp only [List.head?_cons, Option.mem_def, Option.some.injEq] at hp hq1
      subst hp
      subst hq1
      exact hs

/-! ## The loop on a stream of groups -/

theorem fillLoop_groups (gs : List (List (BamAlignmentRecord ρ)))
    (huni : ∀ g ∈ gs, ∃ p ms, g = p :: ms ∧ ∀ r ∈ ms, sameGroup p r)
    (hchain : gs.Chain' (fun g h => ∀ p ∈ g.head?, ∀ q ∈ h.head?, ¬ sameGroup p q))
    (hok : ∀ g ∈ gs, GroupOk g)
    (first : BamAlignmentRecord ρ) (out : List (BamAlignmentRecord ρ))
    (hfirst : ∀ g ∈ gs.head?, ∀ p ∈ g.head?, ¬ sameGroup first p) :
    fillLoop first gs.flatten out = some (false, out ++ gs.flatMap repairGroup) := by
  induction gs generalizing first out with
  | nil => simp [fillLoop]
  | cons g gs ih =>
    obtain ⟨p, ms, rfl, hsame⟩ := huni g (List.mem_cons_self _ _)
    obtain ⟨hs, hqn, hq, hmem⟩ := hok (p :: ms) (List.mem_cons_self _ _)
    have hdiff : ¬ sameGroup first p := hfirst (p :: ms) (by simp) p (by simp)
    rw [List.flatten_cons, List.cons_append, fillLoop_primary first p hdiff hs hqn,
      fillLoop_members p hq ms _ _ hsame hmem]
    rw [ih (fun g hg => huni g (List.mem_cons_of_mem _ hg)) (List.Chain'.tail hchain)
      (fun g hg => hok g (List.mem_cons_of_mem _ hg)) p _ ?_]
    · simp [repairGroup, List.flatMap_cons]
    · intro g1 hg1 q hq1
      cases gs with
      | nil => simp at hg1
      | cons g2 gs =>
        simp only [List.head?_cons, Option.mem_def, Option.some.injEq] at hg1
        subst hg1
        rw [List.chain'_cons] at hchain
        exact hchain.1 p (by simp) q hq1

/-! ## Only sequence and quality of incomplete records change -/

theorem Repaired_refl (r : BamAlignmentRecord ρ) : Repaired r r :=
  ⟨rfl, rfl, rfl, rfl, fun _ => rfl⟩

theorem Repaired_repairSpec (p r : BamAlignmentRecord ρ) : Repaired r (repairSpec p r) := by
  by_cases hlack : r.seq = [] ∨ r.qual = []
  · simp only [repairSpec, hlack, if_true]
    refine ⟨rfl, rfl, rfl, rfl, ?_⟩
    intro h
    rcases hlack with h1 | h1
    · exact absurd h1 h.1
    · exact absurd h1 h.2
  · simp only [repairSpec, hlack, if_false]
    exact Repaired_refl r

theorem forall2_append {R : BamAlignmentRecord ρ → BamAlignmentRecord ρ → Prop}
    (a b c d : List (BamAlignmentRecord ρ)) (h1 : List.Forall₂ R a b) (h2 : List.Forall₂ R c d) :
    List.Forall₂ R (a ++ c) (b ++ d) := by
  induction h1 with
  | nil => exact h2
  | cons h _ ih => exact List.Forall₂.cons h ih

theorem Repaired_group (g : List (BamAlignmentRecord ρ)) :
    List.Forall₂ Repaired g (repairGroup g) := by
  cases g with
  | nil => exact List.Forall₂.nil
  | cons p ms =>
    refine List.Forall₂.cons (Repaired_refl p) ?_
    induction ms with
    | nil => exact List.Forall₂.nil
    | cons r ms ih => exact List.Forall₂.cons (Repaired_repairSpec p r) ih

theorem Repaired_groups (gs : List (List (BamAlignmentRecord ρ))) :
    List.Forall₂ Repaired gs.flatten (gs.flatMap repairGroup) := by
  induction gs with
  | nil => exact List.Forall₂.nil
  | cons g gs ih =>
    rw [List.flatten_cons, List.flatMap_cons]
    exact forall2_append _ _ _ _ (Repaired_group g) ih

end Popins

namespace Popins

/-! ## A reference of `N` symbols `A` followed by `C`, and the query `C` -/

theorem qgram_replicate_lt (N p : Nat) (hp : p < N) :
    qgram (List.replicate N 'A' ++ ['C']) p 1 = ['A'] := by
  obtain ⟨m, hm⟩ : ∃ m, N - p = m + 1 := ⟨N - p - 1, by omega⟩
  simp only [qgram]
  rw [List.drop_append_of_le_length (by simp only [List.length_replicate]; omega),
    List.drop_replicate, hm, List.replicate_succ]
  rfl

theorem qgram_replicate_end (N : Nat) :
    qgram (List.replicate N 'A' ++ ['C']) N 1 = ['C'] := by
  simp only [qgram]
  rw [List.drop_left' (List.length_replicate N 'A')]
  rfl

/-- The only vote of the pair is that of the final `C` of the reference and
the `C` of the query, on the diagonal `-N`; when the `int` stored for it is not
the sentinel, it is what the first call returns. -/
theorem bestDiagonal_replicate (N : Nat)
    (hne : unsignedToInt (-(N : Int)) ≠ NONE) :
    bestDiagonal (List.replicate N 'A' ++ ['C']) ['C'] 1
      = some (unsignedToInt (-(N : Int))) := by
  have hlen1 : (List.replicate N 'A' ++ ['C']).length = N + 1 := by
    rw [List.length_append, List.length_replicate]; rfl
  have hlen2 : (['C'] : List Char).length = 1 := rfl
  have h1 : 1 ≤ (List.replicate N 'A' ++ ['C']).length := by rw [hlen1]; omega
  obtain ⟨cs, hc, hlen, hv⟩ :=
    countHits_spec (List.replicate N 'A' ++ ['C']) ['C'] 1 (Nat.le_refl 1) h1 (Nat.le_refl 1)
  have hq0 : qgram (['C'] : List Char) 0 1 = ['C'] := rfl
  have hvote : 0 < diagVotes (List.replicate N 'A' ++ ['C']) ['C'] 1 ((0 : Nat) - (N : Int)) :=
    diagVotes_pos_of_shared _ _ 1 N 0 (by rw [hlen1]) (by rw [hlen2])
      (by rw [qgram_replicate_end, hq0])
  have hone : ∀ j, 0 < cs.getD j 0 → j = 1 := by
    intro j hj
    rw [hv] at hj
    obtain ⟨p, q, hp, hq, hpq, hqg⟩ := diagVotes_pos_bounds _ _ 1 _ hj
    rw [hlen1] at hp hpq
    rw [hlen2] at hq
    have hq1 : q = 0 := by omega
    subst hq1
    have hpN : p = N := by
      by_contra hcon
      rw [qgram_replicate_lt N p (by omega), hq0] at hqg
      exact absurd hqg (by decide)
    subst hpN
    push_cast at hpq
    omega
  rcases scan_invariant cs (List.replicate N 'A' ++ ['C']).length cs.length with
    ⟨_, hz⟩ | ⟨i0, _, hst, hpos0, _, _⟩
  · exfalso
    have := hz 1 (by rw [hlen, hlen1, hlen2]; omega)
    rw [hv, hlen1] at this
    have h2 : ((1 : Nat) : Int) - ((N + 1 : Nat) : Int) = ((0 : Nat) : Int) - (N : Int) := by
      push_cast; omega
    rw [h2] at this
    omega
  · have hi0 : i0 = 1 := hone i0 hpos0
    subst hi0
    have hd : ((1 : Nat) : Int) - ((List.replicate N 'A' ++ ['C']).length : Int) = -(N : Int) := by
      rw [hlen1]; push_cast; omega
    have hscan : (scanCounters cs (List.replicate N 'A' ++ ['C']).length).1
        = unsignedToInt (-(N : Int)) := by
      simp only [scanCounters, hst, hd]
    exact bestDiagonal_of_scan (List.replicate N 'A' ++ ['C']) ['C'] 1 h1 (Nat.le_refl 1) cs hc _
      hscan hne

end Popins

namespace Popins

variable {α : Type}

/-- C1: `splitVertex(G, u, prefix(L,p), suffix(L,p))` with `L` the label of the
vertex `u` returns the fresh vertex `v` whose id is the previous vertex count;
afterwards `label u ++ label v = L`, the out-edge targets of `v` are those `u`
had before as a multiset, the only out-edge of `u` is `u → v`, and labels and
out-edges of all other vertices and the source list are unchanged. -/
theorem splitVertex_contract (g : ComponentGraph α) (u p : Nat)
    (hlen : g.sequenceMap.length = g.graph.length) (hu : u < g.graph.length)
    (_hp : p ≤ (label g u).length) :
    (splitVertex g u ((label g u).take p) ((label g u).drop p)).2 = numVertices g ∧
    numVertices (splitVertex g u ((label g u).take p) ((label g u).drop p)).1
      = numVertices g + 1 ∧
    label (splitVertex g u ((label g u).take p) ((label g u).drop p)).1 u
      ++ label (splitVertex g u ((label g u).take p) ((label g u).drop p)).1 (numVertices g)
      = label g u ∧
    (↑(outEdges (splitVertex g u ((label g u).take p) ((label g u).drop p)).1 (numVertices g))
      : Multiset Nat) = ↑(outEdges g u) ∧
    outEdges (splitVertex g u ((label g u).take p) ((label g u).drop p)).1 u
      = [numVertices g] ∧
    (∀ w, w ≠ u → w ≠ numVertices g →
      label (splitVertex g u ((label g u).take p) ((label g u).drop p)).1 w = label g w ∧
      outEdges (splitVertex g u ((label g u).take p) ((label g u).drop p)).1 w = outEdges g w) ∧
    (splitVertex g u ((label g u).take p) ((label g u).drop p)).1.sources = g.sources := by
  have hne : g.graph.length ≠ u := Nat.ne_of_gt hu
  refine ⟨rfl, splitVertex_length _ _ _ _, ?_, ?_, ?_, ?_, splitVertex_sources _ _ _ _⟩
  · rw [label_splitVertex _ _ _ _ hlen hu, label_splitVertex _ _ _ _ hlen hu]
    simp [numVertices, hne]
  · rw [outEdges_splitVertex _ _ _ _ hu]
    simp only [numVertices, hne, if_false, if_true]
    exact Multiset.coe_reverse _
  · rw [outEdges_splitVertex _ _ _ _ hu]
    simp [numVertices]
  · intro w hw1 hw2
    rw [label_splitVertex _ _ _ _ hlen hu, outEdges_splitVertex _ _ _ _ hu]
    simp only [numVertices] at hw2
    simp [hw1, hw2]

/-- Witness of C1: the vertex labelled `AACC` with out-edges to vertices 1 and 2,
split at position 2. -/
theorem splitVertex_contract_witness :
    (splitVertex (⟨[[1, 2], [], []], [0], ["AACC".toList, "G".toList, "T".toList]⟩ :
        ComponentGraph Char) 0 "AA".toList "CC".toList).2 = 3 ∧
    outEdges (splitVertex (⟨[[1, 2], [], []], [0], ["AACC".toList, "G".toList, "T".toList]⟩ :
        ComponentGraph Char) 0 "AA".toList "CC".toList).1 0 = [3] :=
  have h := splitVertex_contract (⟨[[1, 2], [], []], [0],
    ["AACC".toList, "G".toList, "T".toList]⟩ : ComponentGraph Char) 0 2 rfl (by decide) (by decide)
  ⟨h.1, h.2.2.2.2.1⟩

end Popins

namespace Popins

variable {α : Type}

/-- C2: on an acyclic component graph `enumeratePaths`, started with an empty
list, returns with enough recursion depth one path per route from a source to a
sink, every route as often as its multiplicity over the source list and over
parallel edges; the sequence of each path is the concatenation of the labels
along its route and the returned count is the length of the list. -/
theorem enumeratePaths_contract (g : ComponentGraph α) (hac : Acyclic g) :
    ∃ (paths : List (Path α)) (routes : List (List Nat)),
      (∃ fuel0, ∀ fuel, fuel0 ≤ fuel → enumeratePaths fuel g [] = some (paths, paths.length)) ∧
      (∀ r, routes.count r = routeMult g r) ∧
      (∀ r, r ∈ routes ↔ IsRoute g r) ∧
      paths.map (fun p => p.seq) = routes.map (routeSeq g) := by
  obtain ⟨rank, hrank⟩ := hac
  obtain ⟨rs, hrs⟩ := allRoutes_terminates g rank hrank ((g.sources.map rank).sum + 1)
    (Nat.lt_succ_self _)
  refine ⟨rs.map (routePath g { seq := [], positionMap := [] }), rs,
    ⟨(g.sources.map rank).sum + 1, ?_⟩, ?_, ?_, ?_⟩
  · intro fuel hle
    rw [enumeratePaths_eq, allRoutes_mono g _ rs hrs fuel hle]
    rfl
  · exact allRoutes_count _ g rs hrs
  · intro r
    rw [← List.count_pos_iff, allRoutes_count _ g rs hrs, routeMult_pos_iff]
  · rw [List.map_map]
    apply List.map_congr_left
    intro r _
    simp [routePath_seq]

/-- Witness of C2: the branching graph of the specification's second example. -/
theorem enumeratePaths_contract_witness :
    Acyclic branchGraph ∧
    ∃ (paths : List (Path Char)) (routes : List (List Nat)),
      (∃ fuel0, ∀ fuel, fuel0 ≤ fuel →
        enumeratePaths fuel branchGraph [] = some (paths, paths.length)) ∧
      (∀ r, routes.count r = routeMult branchGraph r) ∧
      (∀ r, r ∈ routes ↔ IsRoute branchGraph r) ∧
      paths.map (fun p => p.seq) = routes.map (routeSeq branchGraph) :=
  have hac : Acyclic branchGraph :=
    ⟨fun v => if v = 0 then 1 else 0, by
      intro u w h
      match u with
      | 0 =>
        have : w = 2 ∨ w = 1 := by simpa [outEdges, branchGraph] using h
        rcases this with rfl | rfl <;> decide
      | 1 => simp [outEdges, branchGraph] at h
      | 2 => simp [outEdges, branchGraph] at h
      | n + 3 => simp [outEdges, branchGraph] at h⟩
  ⟨hac, enumeratePaths_contract branchGraph hac⟩

end Popins

namespace Popins

variable {α : Type} [DecidableEq α]

/-- C3: `mergeSequences` returns failure, with `mergedSeqs` as on entry, exactly
when for some `i` with `1 ≤ i < len(seqs)` the loop reaches sequence `i` on a
graph for which `enumeratePaths` yields more than 30 paths; a failed call never
changes `mergedSeqs`. -/
theorem mergeSequences_failure_iff (fuel : Nat) (aligner : Aligner α)
    (mergedSeqs seqs : List (List α)) (minBranchLen : Nat) (matchScore errorPenalty : Int)
    (qgramLength : Nat) (verbose : Bool) :
    (mergeSequences fuel aligner mergedSeqs seqs minBranchLen matchScore errorPenalty
        qgramLength verbose = some (false, mergedSeqs) ↔
      ∃ i g paths n, 1 ≤ i ∧ i < seqs.length ∧
        addSequencesToGraph fuel aligner (ComponentGraph.ofSeq (seqs.headD [])) (seqs.take i)
          minBranchLen matchScore errorPenalty qgramLength = some (true, g) ∧
        enumeratePaths fuel g [] = some (paths, n) ∧ 30 < paths.length) ∧
    (∀ out, mergeSequences fuel aligner mergedSeqs seqs minBranchLen matchScore errorPenalty
        qgramLength verbose = some (false, out) → out = mergedSeqs) := by
  cases seqs with
  | nil =>
    refine ⟨⟨fun h => by simp [mergeSequences] at h, ?_⟩, fun out h => by simp [mergeSequences] at h⟩
    rintro ⟨i, _, _, _, _, hi, _⟩
    simp at hi
  | cons s0 rest =>
    have hfail := addSequencesLoop_false_iff fuel aligner minBranchLen matchScore errorPenalty
      qgramLength (ComponentGraph.ofSeq s0) rest
    simp only [mergeSequences, addSequencesToGraph, List.drop_succ_cons, List.drop_zero,
      List.headD_cons]
    constructor
    · constructor
      · intro h
        cases hl : addSequencesLoop fuel aligner minBranchLen matchScore errorPenalty qgramLength
            (ComponentGraph.ofSeq s0) rest with
        | none => simp [hl] at h
        | some r =>
          obtain ⟨b, g1⟩ := r
          cases b with
          | false =>
            obtain ⟨j, g2, paths, n, hj, hlj, hp, hc⟩ := hfail.mp ⟨g1, hl⟩
            refine ⟨j + 1, g2, paths, n, by omega, by simp; omega, ?_, hp, hc⟩
            simpa using hlj
          | true =>
            simp only [hl] at h
            cases he : enumeratePaths fuel g1 [] with
            | none => simp [he] at h
            | some r2 => simp [he] at h
      · rintro ⟨i, g2, paths, n, hi1, hi2, hli, hp, hc⟩
        obtain ⟨j, rfl⟩ : ∃ j, i = j + 1 := ⟨i - 1, by omega⟩
        have hli2 : addSequencesLoop fuel aligner minBranchLen matchScore errorPenalty
            qgramLength (ComponentGraph.ofSeq s0) (rest.take j) = some (true, g2) := by
          simpa using hli
        obtain ⟨g1, hg1⟩ := hfail.mpr ⟨j, g2, paths, n, by simpa using hi2, hli2, hp, hc⟩
        simp [hg1]
    · intro out h
      cases hl : addSequencesLoop fuel aligner minBranchLen matchScore errorPenalty qgramLength
          (ComponentGraph.ofSeq s0) rest with
      | none => simp [hl] at h
      | some r =>
        obtain ⟨b, g1⟩ := r
        cases b with
        | false => simp only [hl, Option.some.injEq, Prod.mk.injEq, true_and] at h; exact h.symm
        | true =>
          simp only [hl] at h
          cases he : enumeratePaths fuel g1 [] with
          | none => simp [he] at h
          | some r2 => simp [he] at h

end Popins

namespace Popins

variable {α : Type} [DecidableEq α]

/-- C4, counterexample: the seed `1 2 3 4 50` and thirty sequences `1 2 3 4 x`
with pairwise different last symbols, each aligned on the common first four
symbols.  Before the last merge the graph has exactly 30 paths, the merge adds
one, and `mergeSequences` returns success with 31 sequences. -/
theorem mergeSequences_cap_counterexample :
    (mergeSequences 3 capAligner [] capSeqs 0 1 (-1) 4 false).map
      (fun r => (r.1, decide (30 < r.2.length))) = some (true, true) := by
  set_option maxRecDepth 100000 in decide

/-- C4, amended: when `mergeSequences` returns success, every round of the loop
started on a graph with at most 30 paths, and the sequences appended to
`mergedSeqs` are the path sequences of the final graph, which is not checked
against the cap. -/
theorem mergeSequences_success_cap (fuel : Nat) (aligner : Aligner α)
    (mergedSeqs seqs : List (List α)) (minBranchLen : Nat) (matchScore errorPenalty : Int)
    (qgramLength : Nat) (verbose : Bool) (out : List (List α))
    (h : mergeSequences fuel aligner mergedSeqs seqs minBranchLen matchScore errorPenalty
        qgramLength verbose = some (true, out)) :
    (∀ i g paths n, 1 ≤ i → i < seqs.length →
        addSequencesToGraph fuel aligner (ComponentGraph.ofSeq (seqs.headD [])) (seqs.take i)
          minBranchLen matchScore errorPenalty qgramLength = some (true, g) →
        enumeratePaths fuel g [] = some (paths, n) → paths.length ≤ 30) ∧
    ∃ g paths,
      addSequencesToGraph fuel aligner (ComponentGraph.ofSeq (seqs.headD [])) seqs
        minBranchLen matchScore errorPenalty qgramLength = some (true, g) ∧
      enumeratePaths fuel g [] = some (paths, paths.length) ∧
      out = mergedSeqs ++ paths.map (fun p => p.seq) := by
  cases seqs with
  | nil => simp [mergeSequences] at h
  | cons s0 rest =>
    have hfail := addSequencesLoop_false_iff fuel aligner minBranchLen matchScore errorPenalty
      qgramLength (ComponentGraph.ofSeq s0) rest
    simp only [mergeSequences, addSequencesToGraph, List.drop_succ_cons, List.drop_zero,
      List.headD_cons] at h ⊢
    cases hl : addSequencesLoop fuel aligner minBranchLen matchScore errorPenalty qgramLength
        (ComponentGraph.ofSeq s0) rest with
    | none => simp [hl] at h
    | some r =>
      obtain ⟨b, g1⟩ := r
      cases b with
      | false => simp [hl] at h
      | true =>
        simp only [hl] at h
        constructor
        · intro i g2 paths n hi1 hi2 hli hp
          obtain ⟨j, rfl⟩ : ∃ j, i = j + 1 := ⟨i - 1, by omega⟩
          have hli2 : addSequencesLoop fuel aligner minBranchLen matchScore errorPenalty
              qgramLength (ComponentGraph.ofSeq s0) (rest.take j) = some (true, g2) := by
            simpa using hli
          by_contra hc
          obtain ⟨g3, hg3⟩ := hfail.mpr
            ⟨j, g2, paths, n, by simpa using hi2, hli2, hp, by omega⟩
          rw [hl] at hg3
          simp at hg3
        · cases he : enumeratePaths fuel g1 [] with
          | none => simp [he] at h
          | some r2 =>
            obtain ⟨paths, n⟩ := r2
            simp only [he, Option.some.injEq, Prod.mk.injEq, true_and] at h
            have hn : n = paths.length := by
              simp only [enumeratePaths, Option.map_eq_some'] at he
              obtain ⟨a, _, ha⟩ := he
              simp only [Prod.mk.injEq] at ha
              rw [← ha.2, ha.1]
            subst hn
            exact ⟨g1, paths, rfl, he, h.symm⟩

/-- Witness of the amended C4: the right extension of the specification's first
example. -/
theorem mergeSequences_success_cap_witness :
    mergeSequences 2 extendAligner [] ["AAAACCCCTTTT".toList, "CCCCTTTTGGGG".toList]
        2 1 (-1) 4 false = some (true, ["AAAACCCCTTTTGGGG".toList]) ∧
    ∃ g paths,
      addSequencesToGraph 2 extendAligner (ComponentGraph.ofSeq "AAAACCCCTTTT".toList)
        ["AAAACCCCTTTT".toList, "CCCCTTTTGGGG".toList] 2 1 (-1) 4 = some (true, g) ∧
      enumeratePaths 2 g [] = some (paths, paths.length) ∧
      ["AAAACCCCTTTTGGGG".toList] = [] ++ paths.map (fun p => p.seq) :=
  ⟨by decide,
   (mergeSequences_success_cap 2 extendAligner [] ["AAAACCCCTTTT".toList, "CCCCTTTTGGGG".toList]
      2 1 (-1) 4 false ["AAAACCCCTTTTGGGG".toList] (by decide)).2⟩

end Popins

namespace Popins

variable {α : Type} [DecidableEq α]

/-- C5: for a one-element input set `[s]` and empty `mergedSeqs`, whatever the
parameters and the aligner, `mergeSequences` returns success with
`mergedSeqs = [s]`; the loop of `addSequencesToGraph` makes no round (it
returns the seed graph), so neither the diagonal finder nor the aligner runs. -/
theorem mergeSequences_single (fuel : Nat) (hfuel : 0 < fuel) (aligner : Aligner α)
    (s : List α) (minBranchLen : Nat) (matchScore errorPenalty : Int)
    (qgramLength : Nat) (verbose : Bool) :
    mergeSequences fuel aligner [] [s] minBranchLen matchScore errorPenalty qgramLength verbose
      = some (true, [s]) ∧
    addSequencesToGraph fuel aligner (ComponentGraph.ofSeq s) [s] minBranchLen matchScore
      errorPenalty qgramLength = some (true, ComponentGraph.ofSeq s) := by
  obtain ⟨f, rfl⟩ : ∃ f, fuel = f + 1 := ⟨fuel - 1, by omega⟩
  constructor
  · simp [mergeSequences, addSequencesToGraph, addSequencesLoop, enumeratePaths,
      enumeratePathsDfs, ComponentGraph.ofSeq, addVertex, outDegree, outEdges, label]
  · rfl

/-- Witness of C5: the seed of the specification's examples alone, with a seed
length of 0 for which the diagonal finder returns nothing. -/
theorem mergeSequences_single_witness :
    mergeSequences 1 extendAligner [] ["AAAACCCCTTTT".toList] 2 1 (-1) 0 false
      = some (true, ["AAAACCCCTTTT".toList]) :=
  (mergeSequences_single 1 (by decide) extendAligner "AAAACCCCTTTT".toList 2 1 (-1) 0 false).1

end Popins

namespace Popins

variable {α : Type} [DecidableEq α]

end Popins

namespace Popins

variable {α : Type} [DecidableEq α]

/-- C7: when the seed length exceeds the length of either sequence,
`bestDiagonal` returns the sentinel `NONE` from its first call: one level of
recursion is enough, no shorter seed is tried. -/
theorem bestDiagonal_long_seed (seq1 seq2 : List α) (k : Nat)
    (h : seq1.length < k ∨ seq2.length < k) :
    bestDiagonal seq1 seq2 k = some NONE ∧ bestDiagonalFuel 1 seq1 seq2 k = some NONE := by
  have hg : k > seq1.length ∨ k > seq2.length := h
  constructor
  · simp only [bestDiagonal, bestDiagonalFuel, hg, if_true]
  · simp only [bestDiagonalFuel, hg, if_true]

/-- Witness of C7: two sequences sharing all shorter k-mers, seed length 5. -/
theorem bestDiagonal_long_seed_witness :
    bestDiagonal "AAAA".toList "AAAAA".toList 5 = some NONE ∧
    bestDiagonalFuel 1 "AAAA".toList "AAAAA".toList 5 = some NONE :=
  bestDiagonal_long_seed "AAAA".toList "AAAAA".toList 5 (Or.inl (by decide))

end Popins

namespace Popins

variable {α : Type} [DecidableEq α]

/-- C8, failing input: `AAAA` and `CCCC` share no symbol.  With seed length 4
the retry chain 4, 2, 1 finds no hit and reaches the seed length 0, where the
vote of the empty q-gram at the end of the query addresses the counter
`len1 + len2` outside the array; the sentinel `NONE` is returned at no
recursion depth. -/
theorem bestDiagonal_no_hits :
    bestDiagonal "AAAA".toList "CCCC".toList 4 = none ∧
    (countHits "AAAA".toList "CCCC".toList 4).map (fun cs => cs.all (fun c => c == 0)) = some true ∧
    countHits "AAAA".toList "CCCC".toList 0 = none ∧
    ∀ fuel, bestDiagonalFuel fuel "AAAA".toList "CCCC".toList 4 ≠ some NONE :=
  ⟨by decide, by decide, by decide,
   fun fuel => bestDiagonalFuel_ne_NONE fuel "AAAA".toList "CCCC".toList 4 (by decide) (by decide)⟩

end Popins

namespace Popins

variable {α : Type}

/-- C9: right extension.  For a well-formed graph `g`, a path `P` returned by
`enumeratePaths`, a sequence `s` and an alignment with `alignBeginSeq = 0`,
`alignEndSeq < |s|` and `alignEndPath = |P.seq|`, `mergeSeqWithGraph` appends
`s[alignEndSeq..)` to the label of the last vertex of the route of `P` and
leaves the vertex count, the edges, the sources and all other labels as they
were, for every `minBranchLen`. -/
theorem mergeSeqWithGraph_right_extension (g : ComponentGraph α) (hwf : WF g)
    (fuel : Nat) (paths : List (Path α)) (n : Nat)
    (henum : enumeratePaths fuel g [] = some (paths, n)) (P : Path α) (hP : P ∈ paths)
    (s : List α) (al : Alignment) (minBranchLen : Nat)
    (hb : al.beginSeq = 0) (he : al.endSeq < s.length) (hep : al.endPath = P.seq.length) :
    ∃ r v g1, IsRoute g r ∧ P.seq = routeSeq g r ∧ r.getLast? = some v ∧
      mergeSeqWithGraph g P s al minBranchLen = some g1 ∧
      label g1 v = label g v ++ s.drop al.endSeq ∧
      (∀ w, w ≠ v → label g1 w = label g w) ∧
      numVertices g1 = numVertices g ∧ g1.graph = g.graph ∧ g1.sources = g.sources := by
  obtain ⟨rs, r, _, _, _, hPr, hroute, _⟩ := path_route fuel g paths n henum P hP
  have hne : r ≠ [] := isChain_ne_nil g r hroute.2
  rcases List.eq_nil_or_concat r with h | ⟨r1, v, hr⟩
  · exact absurd h hne
  rw [List.concat_eq_append] at hr
  subst hr
  have hv : v < g.sequenceMap.length := by
    rw [hwf.len]
    exact isRoute_vertex_lt g hwf _ hroute v (by simp)
  have hlb : lowerBound P.positionMap P.seq.length = some (P.seq.length, v) := by
    rw [hPr]
    exact lowerBound_routePath_end g r1 v
  refine ⟨r1 ++ [v], v, setLabel g v (label g v ++ s.drop al.endSeq), hroute,
    by rw [hPr, routePath_nil_seq], by simp, ?_, ?_, ?_, rfl, rfl, rfl⟩
  · simp only [mergeSeqWithGraph, mergeRight, he, if_true, hep, hlb, mergeLeft, hb,
      Option.some_bind]
    simp
  · rw [label_setLabel _ _ _ _ hv]; simp
  · intro w hw
    rw [label_setLabel _ _ _ _ hv]; simp [hw]

/-- Witness of C9: the first example of the specification.  The seed
`AAAACCCCTTTT` and `CCCCTTTTGGGG` aligned as `s[0..8)` on `P.seq[4..12)` give
the single output `AAAACCCCTTTTGGGG`. -/
theorem mergeSeqWithGraph_right_extension_witness :
    mergeSequences 2 extendAligner [] ["AAAACCCCTTTT".toList, "CCCCTTTTGGGG".toList]
        2 1 (-1) 4 false = some (true, ["AAAACCCCTTTTGGGG".toList]) ∧
    ∃ r v g1, IsRoute (ComponentGraph.ofSeq "AAAACCCCTTTT".toList) r ∧
      "AAAACCCCTTTT".toList = routeSeq (ComponentGraph.ofSeq "AAAACCCCTTTT".toList) r ∧
      r.getLast? = some v ∧
      mergeSeqWithGraph (ComponentGraph.ofSeq "AAAACCCCTTTT".toList)
        { seq := "AAAACCCCTTTT".toList, positionMap := [(12, 0)] } "CCCCTTTTGGGG".toList
        { score := 8, beginPath := 4, endPath := 12, beginSeq := 0, endSeq := 8 } 2 = some g1 ∧
      label g1 v = label (ComponentGraph.ofSeq "AAAACCCCTTTT".toList) v
        ++ "CCCCTTTTGGGG".toList.drop 8 ∧
      (∀ w, w ≠ v → label g1 w = label (ComponentGraph.ofSeq "AAAACCCCTTTT".toList) w) ∧
      numVertices g1 = numVertices (ComponentGraph.ofSeq "AAAACCCCTTTT".toList) ∧
      g1.graph = (ComponentGraph.ofSeq "AAAACCCCTTTT".toList).graph ∧
      g1.sources = (ComponentGraph.ofSeq "AAAACCCCTTTT".toList).sources :=
  ⟨by decide,
   mergeSeqWithGraph_right_extension (ComponentGraph.ofSeq "AAAACCCCTTTT".toList)
     (WF_ofSeq _) 1 [{ seq := "AAAACCCCTTTT".toList, positionMap := [(12, 0)] }] 1
     (by decide) { seq := "AAAACCCCTTTT".toList, positionMap := [(12, 0)] }
     (List.mem_singleton.mpr rfl) "CCCCTTTTGGGG".toList
     { score := 8, beginPath := 4, endPath := 12, beginSeq := 0, endSeq := 8 } 2
     rfl (by decide) (by decide)⟩

end Popins

namespace Popins

variable {α : Type}

/-- C10: right branch.  For a well-formed graph with non-empty labels, a path
`P` of `enumeratePaths`, and an alignment with `alignBeginSeq = 0`,
`0 < alignEndPath < |P.seq|` and `|s| - alignEndSeq > minBranchLen`:
`mergeSeqWithGraph` returns a graph whose path sequences are those of the old
graph plus new ones, all ending in `s[alignEndSeq..)`, among them
`P.seq[0..alignEndPath) ++ s[alignEndSeq..)`.  The vertex `v` of the route of
`P` whose label covers `alignEndPath` is split, with two vertices more, when
the boundary lies strictly inside its label; otherwise one vertex is added. -/
theorem mergeSeqWithGraph_right_branch (g : ComponentGraph α) (hwf : WF g)
    (hlab : ∀ v, v < g.graph.length → label g v ≠ [])
    (fuel : Nat) (paths : List (Path α)) (n : Nat)
    (henum : enumeratePaths fuel g [] = some (paths, n)) (P : Path α) (hP : P ∈ paths)
    (s : List α) (al : Alignment) (minBranchLen : Nat)
    (hb : al.beginSeq = 0) (h0 : 0 < al.endPath) (h1 : al.endPath < P.seq.length)
    (hov : minBranchLen < s.length - al.endSeq) :
    ∃ g2 r1 v r2,
      mergeSeqWithGraph g P s al minBranchLen = some g2 ∧
      IsRoute g (r1 ++ v :: r2) ∧ P.seq = routeSeq g (r1 ++ v :: r2) ∧
      (routeSeq g r1).length < al.endPath ∧
      al.endPath ≤ (routeSeq g r1).length + (label g v).length ∧
      (al.endPath < (routeSeq g r1).length + (label g v).length →
        numVertices g2 = numVertices g + 2 ∧
        label g2 v = (label g v).take (al.endPath - (routeSeq g r1).length) ∧
        label g2 (numVertices g) = (label g v).drop (al.endPath - (routeSeq g r1).length)) ∧
      (al.endPath = (routeSeq g r1).length + (label g v).length →
        numVertices g2 = numVertices g + 1) ∧
      ∃ fuel2 paths2 newSeqs,
        enumeratePaths fuel2 g2 [] = some (paths2, paths2.length) ∧
        (paths2.map (fun p => p.seq)).Perm (paths.map (fun p => p.seq) ++ newSeqs) ∧
        (∀ x ∈ newSeqs, s.drop al.endSeq <:+ x) ∧
        P.seq.take al.endPath ++ s.drop al.endSeq ∈ newSeqs := by
  obtain ⟨rs, r, hrs, hr, hpaths, hPr, hroute, hnd⟩ := path_route fuel g paths n henum P hP
  have hvlt := isRoute_vertex_lt g hwf r hroute
  have hseq : P.seq = routeSeq g r := by rw [hPr, routePath_nil_seq]
  have hmap : P.positionMap = offsets g 0 r := by
    rw [hPr, routePath_positionMap g _ r (fun x hx => hlab x (hvlt x hx))
      (fun e he => by simp at he)]
    rfl
  obtain ⟨r1, v, r2, hr12, hlo, hhi, hfind⟩ :=
    lowerBound_offsets g r 0 al.endPath h0 (by rw [← hseq]; omega)
  subst hr12
  simp only [Nat.zero_add] at hlo hhi hfind
  rw [← hmap] at hfind
  have hvn : v < g.graph.length := hvlt v (by simp)
  have hes : al.endSeq < s.length := by omega
  have hend : al.endPath ≠ P.seq.length := by omega
  have hr1 : ∀ u ∈ r1, u ≠ v ∧ u < g.graph.length := by
    intro u hu
    refine ⟨?_, hvlt u (by simp [hu])⟩
    rintro rfl
    have := (List.nodup_append.mp hnd).2.2
    exact this hu (List.mem_cons_self _ _)
  have hpseq : paths.map (fun p => p.seq) = rs.map (routeSeq g) := by
    rw [hpaths]; exact (enumeratePaths_of_allRoutes fuel g rs hrs).2
  have hlen : P.seq.length
      = (routeSeq g r1).length + ((label g v).length + (routeSeq g r2).length) := by
    rw [hseq, routeSeq_append, routeSeq_cons]; simp
  have htake : P.seq.take al.endPath
      = routeSeq g r1 ++ (label g v).take (al.endPath - (routeSeq g r1).length) := by
    rw [hseq, routeSeq_append, routeSeq_cons]
    exact take_route_cover _ _ _ _ hlo hhi
  by_cases hin : al.endPath < (routeSeq g r1).length + (label g v).length
  · -- the boundary lies strictly inside the label of `v`
    have hsp : (label g v).length - ((routeSeq g r1).length + (label g v).length - al.endPath)
        = al.endPath - (routeSeq g r1).length := by omega
    have heval := mergeSeqWithGraph_split_eval g P s al minBranchLen _ v hb hes hfind hend hov
      hin (by omega)
    rw [hsp] at heval
    have hwf1 := WF_splitVertex g hwf v
      ((label g v).take (al.endPath - (routeSeq g r1).length))
      ((label g v).drop (al.endPath - (routeSeq g r1).length)) hvn
    obtain ⟨rs1, hrs1, hperm1⟩ := splitVertex_allRoutes g hwf v
      ((label g v).take (al.endPath - (routeSeq g r1).length))
      ((label g v).drop (al.endPath - (routeSeq g r1).length)) hvn
      (List.take_append_drop _ _) fuel rs hrs
    have hv1 : v < (splitVertex g v
        ((label g v).take (al.endPath - (routeSeq g r1).length))
        ((label g v).drop (al.endPath - (routeSeq g r1).length))).1.graph.length := by
      rw [splitVertex_length]; omega
    obtain ⟨rs2, newSeqs, hrs2, hperm2, hsuf, hmem⟩ := right_branch_paths g _ hwf1 r1 v r2
      (s.drop al.endSeq) hroute hv1
      (by rw [outEdges_splitVertex g v _ _ hvn, if_pos rfl]; simp)
      (by
        intro u hu
        obtain ⟨huv, hult⟩ := hr1 u hu
        have hun : u ≠ g.graph.length := Nat.ne_of_lt hult
        refine ⟨?_, ?_, huv, ?_⟩
        · rw [outEdges_splitVertex g v _ _ hvn, if_neg huv, if_neg hun]
        · rw [label_splitVertex g v _ _ hwf.len hvn, if_neg huv, if_neg hun]
        · rw [splitVertex_length]; omega)
      (splitVertex_sources g v _ _) (2 * fuel) rs1 hrs1
    obtain ⟨he2, hseq2⟩ := enumeratePaths_of_allRoutes (2 * fuel) _ rs2 hrs2
    refine ⟨_, r1, v, r2, heval, hroute, hseq, hlo, hhi, ?_, ?_, 2 * fuel, _, newSeqs, he2, ?_,
      hsuf, ?_⟩
    · intro _
      refine ⟨?_, ?_, ?_⟩
      · simp only [numVertices, length_addBranch, splitVertex_length]
      · rw [label_addBranch _ hwf1, if_neg (Nat.ne_of_lt hv1),
          label_splitVertex g v _ _ hwf.len hvn, if_pos rfl]
      · rw [label_addBranch _ hwf1, splitVertex_length, if_neg (by simp [numVertices]),
          label_splitVertex g v _ _ hwf.len hvn, if_neg (by simp [numVertices]; omega)]
        simp [numVertices]
    · intro heq; omega
    · rw [hseq2, hpseq]
      exact hperm2.trans (List.Perm.append_right _ hperm1)
    · rw [htake]
      rw [label_splitVertex g v _ _ hwf.len hvn, if_pos rfl] at hmem
      exact hmem
  · -- the boundary is the end of the label of `v`
    have heq : al.endPath = (routeSeq g r1).length + (label g v).length := by omega
    have heval := mergeSeqWithGraph_nosplit_eval g P s al minBranchLen _ v hb hes hfind hend hov
      hin
    have hr2 : r2 ≠ [] := by
      rintro rfl
      rw [routeSeq_nil] at hlen
      simp at hlen
      omega
    obtain ⟨u, r3, rfl⟩ := List.exists_cons_of_ne_nil hr2
    have hne : outEdges g v ≠ [] :=
      List.ne_nil_of_mem (chain_next g r1 v u r3 hroute.2)
    obtain ⟨rs2, newSeqs, hrs2, hperm2, hsuf, hmem⟩ := right_branch_paths g g hwf r1 v (u :: r3)
      (s.drop al.endSeq) hroute hvn hne
      (fun x hx => ⟨rfl, rfl, (hr1 x hx).1, (hr1 x hx).2⟩) rfl fuel rs hrs
    obtain ⟨he2, hseq2⟩ := enumeratePaths_of_allRoutes fuel _ rs2 hrs2
    refine ⟨_, r1, v, u :: r3, heval, hroute, hseq, hlo, hhi, ?_, ?_, fuel, _, newSeqs, he2, ?_,
      hsuf, ?_⟩
    · intro hlt; omega
    · intro _
      simp only [numVertices, length_addBranch]
    · rw [hseq2, hpseq]
      exact hperm2
    · rw [htake]
      have : al.endPath - (routeSeq g r1).length = (label g v).length := by omega
      rw [this, List.take_length]
      exact hmem

/-- Witness of C10: the second example of the specification.  The seed
`AAAACCCCTTTT` and `AAAACCCCGGGG` aligned on the first eight symbols of both,
`minBranchLen = 2`: the outputs are `AAAACCCCGGGG` and `AAAACCCCTTTT`, and
vertex 0 is labelled `AAAACCCC`. -/
theorem mergeSeqWithGraph_right_branch_witness :
    mergeSequences 2 branchAligner [] ["AAAACCCCTTTT".toList, "AAAACCCCGGGG".toList]
        2 1 (-1) 4 false = some (true, ["AAAACCCCGGGG".toList, "AAAACCCCTTTT".toList]) ∧
    addSequencesToGraph 2 branchAligner (ComponentGraph.ofSeq "AAAACCCCTTTT".toList)
        ["AAAACCCCTTTT".toList, "AAAACCCCGGGG".toList] 2 1 (-1) 4 = some (true, branchGraph) ∧
    label branchGraph 0 = "AAAACCCC".toList ∧
    ∃ g2 r1 v r2,
      mergeSeqWithGraph (ComponentGraph.ofSeq "AAAACCCCTTTT".toList)
        { seq := "AAAACCCCTTTT".toList, positionMap := [(12, 0)] } "AAAACCCCGGGG".toList
        { score := 8, beginPath := 0, endPath := 8, beginSeq := 0, endSeq := 8 } 2 = some g2 ∧
      IsRoute (ComponentGraph.ofSeq "AAAACCCCTTTT".toList) (r1 ++ v :: r2) ∧
      "AAAACCCCTTTT".toList
        = routeSeq (ComponentGraph.ofSeq "AAAACCCCTTTT".toList) (r1 ++ v :: r2) ∧
      (routeSeq (ComponentGraph.ofSeq "AAAACCCCTTTT".toList) r1).length < 8 ∧
      8 ≤ (routeSeq (ComponentGraph.ofSeq "AAAACCCCTTTT".toList) r1).length
        + (label (ComponentGraph.ofSeq "AAAACCCCTTTT".toList) v).length ∧
      (8 < (routeSeq (ComponentGraph.ofSeq "AAAACCCCTTTT".toList) r1).length
          + (label (ComponentGraph.ofSeq "AAAACCCCTTTT".toList) v).length →
        numVertices g2 = numVertices (ComponentGraph.ofSeq "AAAACCCCTTTT".toList) + 2 ∧
        label g2 v = (label (ComponentGraph.ofSeq "AAAACCCCTTTT".toList) v).take
          (8 - (routeSeq (ComponentGraph.ofSeq "AAAACCCCTTTT".toList) r1).length) ∧
        label g2 (numVertices (ComponentGraph.ofSeq "AAAACCCCTTTT".toList))
          = (label (ComponentGraph.ofSeq "AAAACCCCTTTT".toList) v).drop
          (8 - (routeSeq (ComponentGraph.ofSeq "AAAACCCCTTTT".toList) r1).length)) ∧
      (8 = (routeSeq (ComponentGraph.ofSeq "AAAACCCCTTTT".toList) r1).length
          + (label (ComponentGraph.ofSeq "AAAACCCCTTTT".toList) v).length →
        numVertices g2 = numVertices (ComponentGraph.ofSeq "AAAACCCCTTTT".toList) + 1) ∧
      ∃ fuel2 paths2 newSeqs,
        enumeratePaths fuel2 g2 [] = some (paths2, paths2.length) ∧
        (paths2.map (fun p => p.seq)).Perm
          (([{ seq := "AAAACCCCTTTT".toList, positionMap := [(12, 0)] }] :
            List (Path Char)).map (fun p => p.seq) ++ newSeqs) ∧
        (∀ x ∈ newSeqs, "AAAACCCCGGGG".toList.drop 8 <:+ x) ∧
        "AAAACCCCTTTT".toList.take 8 ++ "AAAACCCCGGGG".toList.drop 8 ∈ newSeqs :=
  ⟨by decide, by decide, by decide,
   mergeSeqWithGraph_right_branch (ComponentGraph.ofSeq "AAAACCCCTTTT".toList)
     (WF_ofSeq _)
     (fun v hv => by
       have hv0 : v = 0 := Nat.lt_one_iff.mp hv
       subst hv0
       decide)
     1 [{ seq := "AAAACCCCTTTT".toList, positionMap := [(12, 0)] }] 1
     (by decide) { seq := "AAAACCCCTTTT".toList, positionMap := [(12, 0)] }
     (List.mem_singleton.mpr rfl) "AAAACCCCGGGG".toList
     { score := 8, beginPath := 0, endPath := 8, beginSeq := 0, endSeq := 8 } 2
     rfl (by decide) (by decide) (by decide)⟩

end Popins

namespace Popins

/-- C11, failing input: seed `TAAAACCCCG`, sequence `GGGAAAACCCCTTT`, aligned
bases `[3, 11)` of the sequence on `[1, 9)` of the path, `minBranchLen = 2`.
The right end cuts the seed vertex after `TAAAACCCC`; the left end then reads
the shortened label (length 9) together with the end offset 10 of the vertex
in the path as enumerated before, finds `10 - 9 < 1` false and does not split:
the new source `GGG` enters the whole vertex `TAAAACCCC`.  No path of the
result begins with `GGG` followed by the aligned bases `AAAACCCC`.  When the
right end leaves the graph alone (the sequence `GGGAAAACCCC`), the same left
boundary does split the vertex after `T`. -/
theorem mergeSeqWithGraph_left_stale_offset :
    enumeratePaths 1 (ComponentGraph.ofSeq "TAAAACCCCG".toList) [] = some ([stalePath], 1) ∧
    mergeRight (ComponentGraph.ofSeq "TAAAACCCCG".toList) stalePath "GGGAAAACCCCTTT".toList
      innerAlignment 2 = some staleRight ∧
    upperBound stalePath.positionMap innerAlignment.beginPath = some (10, 0) ∧
    ¬ wrapSub 10 (label staleRight 0).length < innerAlignment.beginPath ∧
    mergeSeqWithGraph (ComponentGraph.ofSeq "TAAAACCCCG".toList) stalePath
      "GGGAAAACCCCTTT".toList innerAlignment 2 = some staleResult ∧
    label staleResult 3 = "GGG".toList ∧ outEdges staleResult 3 = [0] ∧
    label staleResult 0 = "TAAAACCCC".toList ∧
    (enumeratePaths 3 staleResult []).map (fun x => x.1.map (fun P => P.seq))
      = some ["TAAAACCCCTTT".toList, "TAAAACCCCG".toList,
              "GGGTAAAACCCCTTT".toList, "GGGTAAAACCCCG".toList] ∧
    ["TAAAACCCCTTT".toList, "TAAAACCCCG".toList,
        "GGGTAAAACCCCTTT".toList, "GGGTAAAACCCCG".toList].filter
      (fun x => ("GGG".toList ++ (stalePath.seq.drop 1).take 8).isPrefixOf x) = [] ∧
    mergeSequences 3 innerAligner [] ["TAAAACCCCG".toList, "GGGAAAACCCCTTT".toList] 2 1 (-1) 4
        false
      = some (true, ["TAAAACCCCTTT".toList, "TAAAACCCCG".toList,
              "GGGTAAAACCCCTTT".toList, "GGGTAAAACCCCG".toList]) ∧
    mergeSeqWithGraph (ComponentGraph.ofSeq "TAAAACCCCG".toList) stalePath
        "GGGAAAACCCC".toList innerAlignment 2
      = some { graph := [[1], [], [1]], sources := [0, 2],
               sequenceMap := ["T".toList, "AAAACCCCG".toList, "GGG".toList] } := by
  refine ⟨by decide, by decide, by decide, by decide, by decide, by decide, by decide,
    by decide, by decide, by decide, ?_, by decide⟩
  set_option maxRecDepth 100000 in decide

end Popins

namespace Popins

variable {α : Type}

/-- C12, counterexample: in the graph `AAAA → CCCC` the sequence `GGGCCCC` is
aligned with its bases `[3, 7)` on the bases `[4, 8)` of the path, so the begin
boundary 4 is the start offset of the label of the second vertex.  The label
`CCCC` is left as it is: with `minBranchLen = 2` a new source vertex `GGG`
with an edge to the vertex is added, and with `minBranchLen = 5` the graph is
not changed at all. -/
theorem mergeSeqWithGraph_left_later_vertex :
    enumeratePaths 2 chainGraph [] = some ([chainPath], 1) ∧
    upperBound chainPath.positionMap laterAlignment.beginPath = some (8, 1) ∧
    laterAlignment.beginPath = 8 - (label chainGraph 1).length ∧
    mergeSeqWithGraph chainGraph chainPath "GGGCCCC".toList laterAlignment 2
      = some { graph := [[1], [], [1]], sources := [0, 2],
               sequenceMap := ["AAAA".toList, "CCCC".toList, "GGG".toList] } ∧
    mergeSeqWithGraph chainGraph chainPath "GGGCCCC".toList laterAlignment 5
      = some chainGraph := by
  refine ⟨by decide, by decide, by decide, by decide, by decide⟩

/-- C12, amended: in a well-formed graph with non-empty labels, for a path `P`
of `enumeratePaths` and an alignment with `alignBeginSeq > 0`,
`alignBeginPath = 0` and `alignEndPath ≤ |P.seq|`, the left end prepends
`s[0..alignBeginSeq)` to the label of the first vertex `u` of `P` in the graph
`g1` left by the right end; no other label, no edge and no source changes, so
no vertex is created by the left end. -/
theorem mergeSeqWithGraph_left_prepend (g : ComponentGraph α) (hwf : WF g)
    (hlab : LabelsNonEmpty g) (fuel : Nat) (paths : List (Path α)) (n : Nat)
    (henum : enumeratePaths fuel g [] = some (paths, n)) (P : Path α) (hP : P ∈ paths)
    (s : List α) (al : Alignment) (minBranchLen : Nat)
    (hbs : 0 < al.beginSeq) (hbp : al.beginPath = 0) (hep : al.endPath ≤ P.seq.length) :
    ∃ r u g1 g2, IsRoute g r ∧ P.seq = routeSeq g r ∧ r.head? = some u ∧
      mergeRight g P s al minBranchLen = some g1 ∧
      mergeSeqWithGraph g P s al minBranchLen = some g2 ∧
      g2 = setLabel g1 u (s.take al.beginSeq ++ label g1 u) ∧
      label g2 u = s.take al.beginSeq ++ label g1 u ∧
      (∀ w, w ≠ u → label g2 w = label g1 w) ∧
      g2.graph = g1.graph ∧ g2.sources = g1.sources := by
  obtain ⟨r, hroute, hne, hr, hseq, hmap⟩ := path_facts g hwf hlab fuel paths n henum P hP
  obtain ⟨g1, hg1⟩ := mergeRight_defined g r hne P hseq hmap s al minBranchLen hep
  have hent := path_entries_lt g hwf fuel paths n henum P hP
  have hops1 := mergeRight_ops g P s al minBranchLen g1 hent hg1
  have hwf1 := ops_WF g g1 hwf hops1
  have hlen1 := ops_length g g1 hops1
  have hlabr : ∀ x ∈ r, label g x ≠ [] := fun x hx => hlab x (hr x hx)
  obtain ⟨r1, u, r2, hdec, hlo, _, hfind⟩ :=
    upperBound_offsets g r 0 0 (Nat.le_refl _)
      (by rw [Nat.zero_add]; exact routeSeq_length_pos g r hne hlabr)
  have hr1 : r1 = [] := by
    by_contra hcon
    have := routeSeq_length_pos g r1 hcon
      (fun x hx => hlabr x (by rw [hdec]; exact List.mem_append_left _ hx))
    omega
  subst hr1
  rw [← hmap] at hfind
  have hu : u < g1.sequenceMap.length := by
    rw [hwf1.len]
    exact Nat.lt_of_lt_of_le (hr u (by rw [hdec]; simp)) hlen1
  have hleft : mergeLeft g1 P s al minBranchLen
      = some (setLabel g1 u (s.take al.beginSeq ++ label g1 u)) := by
    have hbs2 : al.beginSeq > 0 := hbs
    simp only [mergeLeft, hbs2, if_true, hbp, hfind]
  refine ⟨r, u, g1, _, hroute, hseq, by rw [hdec]; rfl, hg1,
    by simp only [mergeSeqWithGraph, hg1, Option.some_bind, hleft], rfl, ?_, ?_, rfl, rfl⟩
  · rw [label_setLabel g1 u _ u hu]; simp
  · intro w hw
    rw [label_setLabel g1 u _ w hu]; simp [hw]

/-- Witness of C12: in the graph `AAAA → CCCC` the sequence `GGGAAAA` is
aligned with its bases `[3, 7)` on the bases `[0, 4)` of the path; the label of
the first vertex becomes `GGGAAAA`. -/
theorem mergeSeqWithGraph_left_prepend_witness :
    mergeSeqWithGraph chainGraph chainPath "GGGAAAA".toList firstAlignment 2
      = some { graph := [[1], []], sources := [0],
               sequenceMap := ["GGGAAAA".toList, "CCCC".toList] } ∧
    ∃ r u g1 g2, IsRoute chainGraph r ∧ chainPath.seq = routeSeq chainGraph r ∧
      r.head? = some u ∧
      mergeRight chainGraph chainPath "GGGAAAA".toList firstAlignment 2 = some g1 ∧
      mergeSeqWithGraph chainGraph chainPath "GGGAAAA".toList firstAlignment 2 = some g2 ∧
      g2 = setLabel g1 u ("GGGAAAA".toList.take firstAlignment.beginSeq ++ label g1 u) ∧
      label g2 u = "GGGAAAA".toList.take firstAlignment.beginSeq ++ label g1 u ∧
      (∀ w, w ≠ u → label g2 w = label g1 w) ∧
      g2.graph = g1.graph ∧ g2.sources = g1.sources :=
  ⟨by decide,
   mergeSeqWithGraph_left_prepend chainGraph chainGraph_WF chainGraph_labels 2 [chainPath] 1
    (by decide) chainPath (List.mem_singleton.mpr rfl) "GGGAAAA".toList firstAlignment 2
    (by decide) (by decide) (by decide)⟩

end Popins

namespace Popins

variable {α : Type}

/-- C13: noise trimming.  For a path `P` of `enumeratePaths` and an alignment
with `0 < alignBeginPath ≤ alignEndPath < |P.seq|` whose two overhangs are at
or below the threshold (`|s| - alignEndSeq ≤ minBranchLen` and
`alignBeginSeq ≤ minBranchLen`), `mergeSeqWithGraph` returns the graph as it
was: vertices, labels, edges and sources are the same. -/
theorem mergeSeqWithGraph_noise (g : ComponentGraph α)
    (fuel : Nat) (paths : List (Path α)) (n : Nat)
    (henum : enumeratePaths fuel g [] = some (paths, n)) (P : Path α) (hP : P ∈ paths)
    (s : List α) (al : Alignment) (minBranchLen : Nat)
    (h0 : 0 < al.beginPath) (hbe : al.beginPath ≤ al.endPath) (h1 : al.endPath < P.seq.length)
    (hr : s.length - al.endSeq ≤ minBranchLen) (hl : al.beginSeq ≤ minBranchLen) :
    mergeSeqWithGraph g P s al minBranchLen = some g := by
  obtain ⟨rs, r, _, _, _, hPr, hroute, _⟩ := path_route fuel g paths n henum P hP
  have hne : r ≠ [] := isChain_ne_nil g r hroute.2
  obtain ⟨hlow, hupp⟩ := path_bounds g r hne
  rw [← hPr] at hlow hupp
  obtain ⟨vPos, v, hlb, _, _⟩ := hlow al.endPath (Nat.le_of_lt h1)
  obtain ⟨uPos, u, hub, _, _⟩ := hupp al.beginPath (by omega)
  have hend : al.endPath ≠ P.seq.length := Nat.ne_of_lt h1
  have hov : ¬ s.length - al.endSeq > minBranchLen := by omega
  have hbp : al.beginPath ≠ 0 := by omega
  have hov2 : ¬ al.beginSeq > minBranchLen := by omega
  have hright : mergeRight g P s al minBranchLen = some g := by
    simp only [mergeRight, hlb, hend, if_false, hov]
    split <;> rfl
  have hleft : mergeLeft g P s al minBranchLen = some g := by
    simp only [mergeLeft, hub, hbp, if_false, hov2]
    split <;> rfl
  simp only [mergeSeqWithGraph, hright, Option.some_bind, hleft]

/-- Witness of C13: `GCCCT` aligned as `seq[1..4)` on `path[4..7)` of the path
`AAAACCCC`, both overhangs of length 1, `minBranchLen = 2`. -/
theorem mergeSeqWithGraph_noise_witness :
    mergeSeqWithGraph chainGraph chainPath "GCCCT".toList
      { score := 3, beginPath := 4, endPath := 7, beginSeq := 1, endSeq := 4 } 2
      = some chainGraph :=
  mergeSeqWithGraph_noise chainGraph 2 [chainPath] 1 (by decide) chainPath
    (List.mem_singleton.mpr rfl) "GCCCT".toList
    { score := 3, beginPath := 4, endPath := 7, beginSeq := 1, endSeq := 4 } 2
    (by decide) (by decide) (by decide) (by decide) (by decide)

end Popins

namespace Popins

variable {α : Type} [DecidableEq α]

end Popins

namespace Popins

/-- C15: acyclicity invariant.  The seed graph of the constructor is acyclic;
`splitVertex` on a vertex of a well-formed acyclic graph gives an acyclic
graph; whenever `mergeSeqWithGraph` returns on a well-formed acyclic graph,
for a path of that graph, any sequence and any alignment, the result is
well-formed and acyclic; it does return when the labels are non-empty and the
boundaries lie within the path (`alignBeginPath < |P.seq|`,
`alignEndPath ≤ |P.seq|`).  Consequently every graph reachable in a merge
session is acyclic and `enumeratePaths` returns on it for every sufficient
recursion depth, with the count equal to the number of paths; the graphs of
`addSequencesToGraph` are graphs of a merge session. -/
theorem acyclic_invariant (α : Type) [DecidableEq α] :
    (∀ s : List α, Acyclic (ComponentGraph.ofSeq s)) ∧
    (∀ (g : ComponentGraph α) (u : Nat) (uSeq vSeq : List α), WF g → Acyclic g →
      u < numVertices g → Acyclic (splitVertex g u uSeq vSeq).1) ∧
    (∀ (g g1 : ComponentGraph α) (fuel : Nat) (paths : List (Path α)) (n : Nat) (P : Path α)
      (s : List α) (al : Alignment) (minBranchLen : Nat), WF g → Acyclic g →
      enumeratePaths fuel g [] = some (paths, n) → P ∈ paths →
      mergeSeqWithGraph g P s al minBranchLen = some g1 → WF g1 ∧ Acyclic g1) ∧
    (∀ (g : ComponentGraph α) (fuel : Nat) (paths : List (Path α)) (n : Nat) (P : Path α)
      (s : List α) (al : Alignment) (minBranchLen : Nat), WF g → LabelsNonEmpty g →
      enumeratePaths fuel g [] = some (paths, n) → P ∈ paths →
      al.beginPath < P.seq.length → al.endPath ≤ P.seq.length →
      ∃ g1, mergeSeqWithGraph g P s al minBranchLen = some g1) ∧
    (∀ g : ComponentGraph α, MergeSession g →
      WF g ∧ Acyclic g ∧
      ∃ fuel0, ∀ f, fuel0 ≤ f → ∃ paths, enumeratePaths f g [] = some (paths, paths.length)) ∧
    (∀ (fuel : Nat) (aligner : Aligner α) (s0 : List α) (seqs : List (List α))
      (minBranchLen : Nat) (matchScore errorPenalty : Int) (qgramLength : Nat) (b : Bool)
      (g : ComponentGraph α),
      addSequencesToGraph fuel aligner (ComponentGraph.ofSeq s0) seqs minBranchLen matchScore
        errorPenalty qgramLength = some (b, g) → MergeSession g) := by
  refine ⟨Acyclic_ofSeq, ?_, ?_, ?_, ?_, ?_⟩
  · intro g u a b hwf hac hu
    exact Acyclic_splitVertex g hwf u a b hu hac
  · intro g g1 fuel paths n P s al mbl hwf hac hen hP hm
    exact ops_Acyclic g g1 hwf hac (mergeSeqWithGraph_ops g hwf fuel paths n hen P hP s al mbl g1 hm)
  · intro g fuel paths n P s al mbl hwf hlab hen hP hb he
    obtain ⟨_, g2, _, _, hm⟩ :=
      mergeSeqWithGraph_defined g hwf hlab fuel paths n hen P hP s al mbl hb he
    exact ⟨g2, hm⟩
  · intro g hg
    obtain ⟨hwf, hac, _⟩ := session_invariants g hg
    exact ⟨hwf, hac, enumeratePaths_total g hac⟩
  · intro fuel aligner s0 seqs mbl ms ep k b g h
    exact addSequencesLoop_session fuel aligner mbl ms ep k _ _ g b h (MergeSession.seed s0)

/-- Witness of C15: the merge of `GGGAACCTTT` into the graph `AAAA → CCCC`,
which splits two vertices and adds a branch at either end, leaves a
well-formed acyclic graph. -/
theorem acyclic_invariant_witness :
    mergeSeqWithGraph chainGraph chainPath "GGGAACCTTT".toList midAlignment 2 = some midResult ∧
    WF midResult ∧ Acyclic midResult :=
  ⟨by decide,
   (acyclic_invariant Char).2.2.1 chainGraph midResult 2 [chainPath] 1 chainPath
    "GGGAACCTTT".toList midAlignment 2 chainGraph_WF chainGraph_Acyclic (by decide)
    (List.mem_singleton.mpr rfl) (by decide)⟩

end Popins

namespace Popins

/-- C16: reachability invariant.  In the seed graph of the constructor every
vertex is reachable from the source list.  The suffix vertex of a split is a
successor of the prefix vertex, a right-branch vertex is a successor of the
vertex it hangs off, and a left-branch vertex is appended to the source list.
Whenever `mergeSeqWithGraph` returns on a well-formed graph all of whose
vertices are reachable, for a path of that graph, any sequence and any
alignment, the result is well-formed and all its vertices are reachable; it
does return when the labels are non-empty and the boundaries lie within the
path.  So every vertex of a graph of a merge session is reachable.  Hence, in
such a graph, every vertex lies on the route of an enumerated path and its
label is a contiguous part of the sequence of that path. -/
theorem reachability_invariant (α : Type) :
    (∀ s : List α, AllReach (ComponentGraph.ofSeq s)) ∧
    (∀ (g : ComponentGraph α) (u : Nat) (uSeq vSeq : List α), u < numVertices g →
      numVertices g ∈ outEdges (splitVertex g u uSeq vSeq).1 u) ∧
    (∀ (g : ComponentGraph α) (v : Nat) (suf : List α), v < numVertices g →
      numVertices g ∈ outEdges (addBranch g v suf) v) ∧
    (∀ (g : ComponentGraph α) (x : Nat) (pre : List α),
      numVertices g ∈ (addSource g x pre).sources ∧
      outEdges (addSource g x pre) (numVertices g) = [x]) ∧
    (∀ (g g1 : ComponentGraph α) (fuel : Nat) (paths : List (Path α)) (n : Nat) (P : Path α)
      (s : List α) (al : Alignment) (minBranchLen : Nat), WF g → AllReach g →
      enumeratePaths fuel g [] = some (paths, n) → P ∈ paths →
      mergeSeqWithGraph g P s al minBranchLen = some g1 → WF g1 ∧ AllReach g1) ∧
    (∀ (g : ComponentGraph α) (fuel : Nat) (paths : List (Path α)) (n : Nat) (P : Path α)
      (s : List α) (al : Alignment) (minBranchLen : Nat), WF g → LabelsNonEmpty g →
      enumeratePaths fuel g [] = some (paths, n) → P ∈ paths →
      al.beginPath < P.seq.length → al.endPath ≤ P.seq.length →
      ∃ g1, mergeSeqWithGraph g P s al minBranchLen = some g1) ∧
    (∀ g : ComponentGraph α, MergeSession g → AllReach g) ∧
    (∀ (g : ComponentGraph α) (fuel : Nat) (paths : List (Path α)) (n : Nat), AllReach g →
      enumeratePaths fuel g [] = some (paths, n) →
      ∀ x, x < numVertices g →
        ∃ P ∈ paths, ∃ r, IsRoute g r ∧ x ∈ r ∧ P.seq = routeSeq g r ∧ label g x <:+: P.seq) := by
  refine ⟨AllReach_ofSeq, ?_, ?_, ?_, ?_, ?_, ?_, ?_⟩
  · intro g u a b hu
    rw [outEdges_splitVertex g u a b hu u]
    simp [numVertices]
  · intro g v suf hv
    rw [outEdges_addBranch g v suf hv v]
    simp [numVertices]
  · intro g x pre
    constructor
    · rw [sources_addSource]; simp [numVertices]
    · rw [outEdges_addSource]; simp [numVertices]
  · intro g g1 fuel paths n P s al mbl hwf hre hen hP hm
    exact ops_AllReach g g1 hwf hre (mergeSeqWithGraph_ops g hwf fuel paths n hen P hP s al mbl g1 hm)
  · intro g fuel paths n P s al mbl hwf hlab hen hP hb he
    obtain ⟨_, g2, _, _, hm⟩ :=
      mergeSeqWithGraph_defined g hwf hlab fuel paths n hen P hP s al mbl hb he
    exact ⟨g2, hm⟩
  · intro g hg
    exact (session_invariants g hg).2.2
  · intro g fuel paths n hre hen x hx
    exact reach_cover g hre fuel paths n hen x hx

/-- Witness of C16: after the merge of `GGGAACCTTT` into the graph
`AAAA → CCCC` all six vertices are reachable from the sources 0 and 5. -/
theorem reachability_invariant_witness :
    mergeSeqWithGraph chainGraph chainPath "GGGAACCTTT".toList midAlignment 2 = some midResult ∧
    midResult.sources = [0, 5] ∧ WF midResult ∧ AllReach midResult :=
  ⟨by decide, rfl,
   (reachability_invariant Char).2.2.2.2.1 chainGraph midResult 2 [chainPath] 1 chainPath
    "GGGAACCTTT".toList midAlignment 2 chainGraph_WF chainGraph_AllReach (by decide)
    (List.mem_singleton.mpr rfl) (by decide)⟩

end Popins

namespace Popins

variable {α : Type}

/-- C17: non-empty label invariant.  In a well-formed graph whose labels are
all non-empty, for a path `P` of `enumeratePaths`, a non-empty sequence `s`
and boundaries with `alignBeginPath < alignEndPath ≤ |P.seq|`, both ends of
`mergeSeqWithGraph` are defined and every label is non-empty after the right
end and after the left end.  A split position computed at the right end (on
the entry of `lower_bound`, when the boundary is before the end of the label)
and one computed at the left end (on the entry of `upper_bound`, on the graph
left by the right end) lies strictly between 0 and the length of the label;
the suffix and the prefix of `s` given to a branch vertex are non-empty.  The
bounds on `alignBeginSeq` and `alignEndSeq` are not needed. -/
theorem mergeSeqWithGraph_labels (g : ComponentGraph α) (hwf : WF g) (hlab : LabelsNonEmpty g)
    (fuel : Nat) (paths : List (Path α)) (n : Nat)
    (henum : enumeratePaths fuel g [] = some (paths, n)) (P : Path α) (hP : P ∈ paths)
    (s : List α) (hs : s ≠ []) (al : Alignment) (minBranchLen : Nat)
    (hp1 : al.beginPath < al.endPath) (hp2 : al.endPath ≤ P.seq.length) :
    ∃ g1 g2, mergeRight g P s al minBranchLen = some g1 ∧
      mergeSeqWithGraph g P s al minBranchLen = some g2 ∧
      WF g2 ∧ LabelsNonEmpty g1 ∧ LabelsNonEmpty g2 ∧
      (∀ vPos v, lowerBound P.positionMap al.endPath = some (vPos, v) → al.endPath < vPos →
        0 < wrapSub (label g v).length (vPos - al.endPath) ∧
        wrapSub (label g v).length (vPos - al.endPath) < (label g v).length) ∧
      (∀ uPos u, upperBound P.positionMap al.beginPath = some (uPos, u) →
        wrapSub uPos (label g1 u).length < al.beginPath →
        0 < wrapSub (label g1 u).length (uPos - al.beginPath) ∧
        wrapSub (label g1 u).length (uPos - al.beginPath) < (label g1 u).length) ∧
      (al.endSeq < s.length → s.drop al.endSeq ≠ []) ∧
      (0 < al.beginSeq → s.take al.beginSeq ≠ []) := by
  obtain ⟨r, _, _, hr, hseq, hmap⟩ := path_facts g hwf hlab fuel paths n henum P hP
  obtain ⟨g1, g2, hg1, hg2, hm⟩ := mergeSeqWithGraph_defined g hwf hlab fuel paths n henum P hP
    s al minBranchLen (by omega) hp2
  have hent := path_entries_lt g hwf fuel paths n henum P hP
  have hops1 := mergeRight_ops g P s al minBranchLen g1 hent hg1
  have hwf1 := ops_WF g g1 hwf hops1
  have hlen1 := ops_length g g1 hops1
  have hent1 : ∀ e ∈ P.positionMap, e.2 < g1.graph.length :=
    fun e he => Nat.lt_of_lt_of_le (hent e he) hlen1
  have hlab1 := mergeRight_labels g hwf hlab r hr P hseq hmap s al minBranchLen (by omega) hp2
    g1 hg1
  have hlab2 := mergeLeft_labels g1 hwf1 hlab1 P hent1 s hs al minBranchLen g2 hg2
  have hwf2 := ops_WF g1 g2 hwf1 (mergeLeft_ops g1 P s al minBranchLen g2 hent1 hg2)
  refine ⟨g1, g2, hg1, hm, hwf2, hlab1, hlab2, ?_, ?_, fun h => drop_ne_nil s _ h,
    fun h => take_ne_nil s _ h hs⟩
  · intro vPos v hlb hlt
    obtain ⟨_, hw, hpos, hin⟩ :=
      right_split_inside g r P hseq hmap al.endPath (by omega) hp2 vPos v hlb hlt
    rw [hw]
    exact ⟨hpos, hin⟩
  · intro uPos u hub hin
    obtain ⟨hw, hpos, hin2⟩ := left_split_inside uPos (label g1 u).length al.beginPath
      (upperBound_some _ _ _ hub).2 hin
    rw [hw]
    exact ⟨hpos, hin2⟩

/-- Witness of C17: the sequence `GGGAACCTTT` aligned with the middle of the
path `AAAACCCC` of the graph `AAAA → CCCC`; both ends split a vertex in the
middle of its label and add a branch vertex. -/
theorem mergeSeqWithGraph_labels_witness :
    mergeSeqWithGraph chainGraph chainPath "GGGAACCTTT".toList midAlignment 2 = some midResult ∧
    ∃ g1 g2, mergeRight chainGraph chainPath "GGGAACCTTT".toList midAlignment 2 = some g1 ∧
      mergeSeqWithGraph chainGraph chainPath "GGGAACCTTT".toList midAlignment 2 = some g2 ∧
      WF g2 ∧ LabelsNonEmpty g1 ∧ LabelsNonEmpty g2 ∧
      (∀ vPos v, lowerBound chainPath.positionMap midAlignment.endPath = some (vPos, v) →
        midAlignment.endPath < vPos →
        0 < wrapSub (label chainGraph v).length (vPos - midAlignment.endPath) ∧
        wrapSub (label chainGraph v).length (vPos - midAlignment.endPath)
          < (label chainGraph v).length) ∧
      (∀ uPos u, upperBound chainPath.positionMap midAlignment.beginPath = some (uPos, u) →
        wrapSub uPos (label g1 u).length < midAlignment.beginPath →
        0 < wrapSub (label g1 u).length (uPos - midAlignment.beginPath) ∧
        wrapSub (label g1 u).length (uPos - midAlignment.beginPath) < (label g1 u).length) ∧
      (midAlignment.endSeq < "GGGAACCTTT".toList.length →
        "GGGAACCTTT".toList.drop midAlignment.endSeq ≠ []) ∧
      (0 < midAlignment.beginSeq → "GGGAACCTTT".toList.take midAlignment.beginSeq ≠ []) :=
  ⟨by decide,
   mergeSeqWithGraph_labels chainGraph chainGraph_WF chainGraph_labels 2 [chainPath] 1
    (by decide) chainPath (List.mem_singleton.mpr rfl) "GGGAACCTTT".toList (by decide)
    midAlignment 2 (by decide) (by decide)⟩

end Popins

namespace Popins

variable {α : Type}

/-- C18: path offset index.  In a well-formed graph with non-empty labels every
path `P` returned by `enumeratePaths` has a route `r` such that `positionMap`
holds one entry per vertex of `r`, in route order, keyed by the cumulative end
offset of its label; the keys strictly increase and the last one is `|P.seq|`;
for every entry `(k, v)` the slice `P.seq[k - |label v| .. k)` is the label of
`v`; `lower_bound(x)` for `0 < x ≤ |P.seq|` and `upper_bound(x)` for
`x < |P.seq|` return the entry whose label covers the offset. -/
theorem positionMap_index (g : ComponentGraph α) (hwf : WF g) (hlab : LabelsNonEmpty g)
    (fuel : Nat) (paths : List (Path α)) (n : Nat)
    (henum : enumeratePaths fuel g [] = some (paths, n)) (P : Path α) (hP : P ∈ paths) :
    ∃ r, IsRoute g r ∧ P.seq = routeSeq g r ∧
      P.positionMap.map Prod.snd = r ∧
      (∀ i v, r[i]? = some v →
        P.positionMap[i]? = some ((routeSeq g (r.take (i + 1))).length, v)) ∧
      P.positionMap.Pairwise (fun a b => a.1 < b.1) ∧
      (∃ v, P.positionMap.getLast? = some (P.seq.length, v)) ∧
      (∀ k v, (k, v) ∈ P.positionMap → (label g v).length ≤ k ∧
        (P.seq.drop (k - (label g v).length)).take (label g v).length = label g v) ∧
      (∀ x, 0 < x → x ≤ P.seq.length →
        ∃ k v, lowerBound P.positionMap x = some (k, v) ∧ (k, v) ∈ P.positionMap ∧
          k - (label g v).length < x ∧ x ≤ k) ∧
      (∀ x, x < P.seq.length →
        ∃ k v, upperBound P.positionMap x = some (k, v) ∧ (k, v) ∈ P.positionMap ∧
          k - (label g v).length ≤ x ∧ x < k) := by
  obtain ⟨rs, r, _, _, _, hPr, hroute, _⟩ := path_route fuel g paths n henum P hP
  have hvlt := isRoute_vertex_lt g hwf r hroute
  have hne : r ≠ [] := isChain_ne_nil g r hroute.2
  have hlabr : ∀ x ∈ r, label g x ≠ [] := fun x hx => hlab x (hvlt x hx)
  have hseq : P.seq = routeSeq g r := by rw [hPr, routePath_nil_seq]
  have hmap : P.positionMap = offsets g 0 r := by
    rw [hPr, routePath_positionMap g _ r hlabr (fun e he => by simp at he)]
    rfl
  refine ⟨r, hroute, hseq, ?_, ?_, ?_, ?_, ?_, ?_, ?_⟩
  · rw [hmap]; exact offsets_map_snd g 0 r
  · intro i v hi
    rw [hmap, offsets_getElem? g 0 r i v hi, Nat.zero_add]
  · rw [hmap]; exact offsets_sorted g 0 r hlabr
  · obtain ⟨v, hv⟩ := offsets_getLast? g 0 r hne
    exact ⟨v, by rw [hmap, hv, hseq, Nat.zero_add]⟩
  · intro k v hkv
    rw [hmap] at hkv
    obtain ⟨r1, r2, hr, hk⟩ := offsets_entry g 0 r k v hkv
    rw [Nat.zero_add] at hk
    refine ⟨by omega, ?_⟩
    rw [hseq, hr, routeSeq_append, routeSeq_cons, hk]
    exact slice_of_entry _ _ _
  · intro x hx0 hx1
    obtain ⟨r1, v, r2, hr, hlo, hhi, hfind⟩ :=
      lowerBound_offsets g r 0 x hx0 (by rw [← hseq, Nat.zero_add]; exact hx1)
    rw [Nat.zero_add] at hlo hhi hfind
    rw [← hmap] at hfind
    exact ⟨_, v, hfind, (lowerBound_some _ _ _ hfind).1, by omega, hhi⟩
  · intro x hx1
    obtain ⟨r1, v, r2, hr, hlo, hhi, hfind⟩ :=
      upperBound_offsets g r 0 x (Nat.zero_le _) (by rw [← hseq, Nat.zero_add]; exact hx1)
    rw [Nat.zero_add] at hlo hhi hfind
    rw [← hmap] at hfind
    exact ⟨_, v, hfind, (upperBound_some _ _ _ hfind).1, by omega, hhi⟩

/-- Witness of C18: the path of the two-vertex graph `AAAA → CCCC`, whose map
is `{4 ↦ 0, 8 ↦ 1}`. -/
theorem positionMap_index_witness :
    ∃ r, IsRoute chainGraph r ∧ chainPath.seq = routeSeq chainGraph r ∧
      chainPath.positionMap.map Prod.snd = r ∧
      (∀ i v, r[i]? = some v →
        chainPath.positionMap[i]? = some ((routeSeq chainGraph (r.take (i + 1))).length, v)) ∧
      chainPath.positionMap.Pairwise (fun a b => a.1 < b.1) ∧
      (∃ v, chainPath.positionMap.getLast? = some (chainPath.seq.length, v)) ∧
      (∀ k v, (k, v) ∈ chainPath.positionMap → (label chainGraph v).length ≤ k ∧
        (chainPath.seq.drop (k - (label chainGraph v).length)).take
          (label chainGraph v).length = label chainGraph v) ∧
      (∀ x, 0 < x → x ≤ chainPath.seq.length →
        ∃ k v, lowerBound chainPath.positionMap x = some (k, v) ∧
          (k, v) ∈ chainPath.positionMap ∧ k - (label chainGraph v).length < x ∧ x ≤ k) ∧
      (∀ x, x < chainPath.seq.length →
        ∃ k v, upperBound chainPath.positionMap x = some (k, v) ∧
          (k, v) ∈ chainPath.positionMap ∧ k - (label chainGraph v).length ≤ x ∧ x < k) :=
  positionMap_index chainGraph chainGraph_WF chainGraph_labels 2 [chainPath] 1 (by decide)
    chainPath (List.mem_singleton.mpr rfl)

end Popins

namespace Popins

/-- C19, failing input: for `AAAA` and `CCCC` with seed length 4 the retry
chain 4, 2, 1, 0 never reaches a call that returns a diagonal or the sentinel:
at every recursion depth no value is returned.  The same holds for every call
with the seed length 0 (also on two empty sequences, which pass the length
check), since `0 * 2 / 3 = 0` and the seed length 0 is not a base case. -/
theorem bestDiagonal_retry_chain :
    (∀ fuel, bestDiagonalFuel fuel "AAAA".toList "CCCC".toList 4 = none) ∧
    (∀ (seq1 seq2 : List Char) (fuel : Nat), bestDiagonalFuel fuel seq1 seq2 0 = none) ∧
    bestDiagonal ([] : List Char) [] 0 = none ∧
    0 * 2 / 3 = 0 := by
  refine ⟨?_, fun seq1 seq2 fuel => bestDiagonalFuel_zero fuel seq1 seq2, by decide, by decide⟩
  intro fuel
  by_cases h : 4 < fuel
  · rw [bestDiagonalFuel_stable _ _ _ _ h]; decide
  · have h4 : fuel ≤ 4 := by omega
    interval_cases fuel <;> decide

end Popins

namespace Popins

variable {α : Type} [DecidableEq α]

/-- C20, counterexample: the reference of 2147483650 symbols `A` followed by
`C` and the query `C`, with seed length 1.  The only shared 1-mer votes for the
diagonal `-2147483650` at the counter 1; the source computes
`1u - 2147483651u` in 32-bit `unsigned` and stores it in an `int` (line 203),
which gives 2147483646.  That value is returned, and it is not below
`len2 = 1`. -/
theorem bestDiagonal_diagonal_wraps :
    (1 ≤ (List.replicate 2147483650 'A' ++ ['C']).length ∧ 1 ≤ (['C'] : List Char).length) ∧
    bestDiagonal (List.replicate 2147483650 'A' ++ ['C']) ['C'] 1 = some 2147483646 ∧
    ¬ ((2147483646 : Int) < ((['C'] : List Char).length : Int)) := by
  have hconv : unsignedToInt (-((2147483650 : Nat) : Int)) = 2147483646 := by
    norm_num [unsignedToInt]
  have hret := bestDiagonal_replicate 2147483650 (by rw [hconv]; decide)
  rw [hconv] at hret
  refine ⟨⟨?_, by decide⟩, hret, by decide⟩
  rw [List.length_append, List.length_replicate]
  omega

/-- C20, amended: for sequences whose lengths fit the 32-bit integers of the
source (`|seq1| ≤ 2^31`, `|seq2| ≤ 2^31 - 1`) and a seed length `k` with
`1 ≤ k ≤ min(|seq1|,|seq2|)`, every index `len1 + i - p` of the voting loop
(`i` a k-mer start of `seq2`, `p` an occurrence of that k-mer in `seq1`) is
computed without underflow and lies below `len1 + len2`, the size of the
counter array; the loop completes, and the diagonal scanned by this call, if
it is not the sentinel, lies strictly between `-len1` and `len2`.  So does
every diagonal that the retry chain from `k` returns, unless it is returned by
the call with the seed length 0, about which nothing is stated. -/
theorem bestDiagonal_counters_in_bounds (seq1 seq2 : List α) (k : Nat) (hk : 1 ≤ k)
    (h1 : k ≤ seq1.length) (h2 : k ≤ seq2.length)
    (hint1 : seq1.length ≤ 2147483648) (hint2 : seq2.length ≤ 2147483647) :
    (∀ i ∈ List.range (seq2.length - k + 1), ∀ p ∈ getOccurrences seq1 k (qgram seq2 i k),
      p ≤ seq1.length + i ∧ seq1.length + i - p < seq1.length + seq2.length) ∧
    (∃ cs, countHits seq1 seq2 k = some cs ∧ cs.length = seq1.length + seq2.length ∧
      ((scanCounters cs seq1.length).1 ≠ NONE →
        -(seq1.length : Int) < (scanCounters cs seq1.length).1 ∧
        (scanCounters cs seq1.length).1 < (seq2.length : Int))) ∧
    (∀ fuel d, bestDiagonalFuel fuel seq1 seq2 k = some d → d ≠ NONE →
      (-(seq1.length : Int) < d ∧ d < (seq2.length : Int)) ∨
      ∃ f, bestDiagonalFuel f seq1 seq2 0 = some d) := by
  have hscan : ∀ k1, 1 ≤ k1 → ∀ cs, countHits seq1 seq2 k1 = some cs →
      cs.length = seq1.length + seq2.length →
      (∀ j, cs.getD j 0 = diagVotes seq1 seq2 k1 ((j : Int) - (seq1.length : Int))) →
      (scanCounters cs seq1.length).1 ≠ NONE →
      -(seq1.length : Int) < (scanCounters cs seq1.length).1 ∧
        (scanCounters cs seq1.length).1 < (seq2.length : Int) := by
    intro k1 hk1 cs _ _ hv hne
    rcases scan_invariant cs seq1.length cs.length with ⟨hst, _⟩ | ⟨i0, _, hst, hpos0, _, _⟩
    · exfalso; apply hne; simp only [scanCounters, hst]
    · rw [hv] at hpos0
      obtain ⟨hlo, hhi, hconv, _⟩ := diag_in_range seq1 seq2 k1 hk1 hint1 hint2 _ hpos0
      have hs : (scanCounters cs seq1.length).1 = (i0 : Int) - (seq1.length : Int) := by
        simp only [scanCounters, hst, hconv]
      rw [hs]
      exact ⟨hlo, hhi⟩
  refine ⟨?_, ?_, ?_⟩
  · intro i hi p hp
    exact countHits_index_lt seq1 seq2 k i p hk h1 h2 hi hp
  · obtain ⟨cs, hc, hlen, hv⟩ := countHits_spec seq1 seq2 k hk h1 h2
    exact ⟨cs, hc, hlen, hscan k hk cs hc hlen hv⟩
  · intro fuel
    induction k using Nat.strong_induction_on generalizing fuel with
    | _ k ih =>
      intro d h hne
      cases fuel with
      | zero => simp [bestDiagonalFuel] at h
      | succ f =>
        have hg : ¬ (k > seq1.length ∨ k > seq2.length) := by omega
        obtain ⟨cs, hc, hlen, hv⟩ := countHits_spec seq1 seq2 k hk h1 h2
        simp only [bestDiagonalFuel, hg, if_false, hc] at h
        by_cases hd : (scanCounters cs seq1.length).1 = NONE
        · rw [if_pos hd] at h
          by_cases hk0 : k * 2 / 3 = 0
          · rw [hk0] at h
            exact Or.inr ⟨f, h⟩
          · exact ih (k * 2 / 3) (by omega) (by omega) (by omega) (by omega) f d h hne
        · rw [if_neg hd] at h
          simp only [Option.some.injEq] at h
          rw [← h]
          exact Or.inl (hscan k hk cs hc hlen hv hd)

/-- Witness of C20: the pair of the specification's first example with the
seed length 4. -/
theorem bestDiagonal_counters_in_bounds_witness :
    (∀ i ∈ List.range ("AAAACCCCTTTT".toList.length - 4 + 1),
      ∀ p ∈ getOccurrences "CCCCTTTTGGGG".toList 4 (qgram "AAAACCCCTTTT".toList i 4),
      p ≤ "CCCCTTTTGGGG".toList.length + i ∧
      "CCCCTTTTGGGG".toList.length + i - p
        < "CCCCTTTTGGGG".toList.length + "AAAACCCCTTTT".toList.length) ∧
    (∃ cs, countHits "CCCCTTTTGGGG".toList "AAAACCCCTTTT".toList 4 = some cs ∧
      cs.length = "CCCCTTTTGGGG".toList.length + "AAAACCCCTTTT".toList.length ∧
      ((scanCounters cs "CCCCTTTTGGGG".toList.length).1 ≠ NONE →
        -("CCCCTTTTGGGG".toList.length : Int) < (scanCounters cs "CCCCTTTTGGGG".toList.length).1 ∧
        (scanCounters cs "CCCCTTTTGGGG".toList.length).1
          < ("AAAACCCCTTTT".toList.length : Int))) ∧
    (∀ fuel d, bestDiagonalFuel fuel "CCCCTTTTGGGG".toList "AAAACCCCTTTT".toList 4 = some d →
      d ≠ NONE →
      (-("CCCCTTTTGGGG".toList.length : Int) < d ∧ d < ("AAAACCCCTTTT".toList.length : Int)) ∨
      ∃ f, bestDiagonalFuel f "CCCCTTTTGGGG".toList "AAAACCCCTTTT".toList 0 = some d) :=
  bestDiagonal_counters_in_bounds "CCCCTTTTGGGG".toList "AAAACCCCTTTT".toList 4
    (by decide) (by decide) (by decide) (by decide) (by decide)

end Popins

namespace Popins

variable {α : Type} [DecidableEq α]

/-- C21, counterexample: the seed `AAAA` and the sequence `CCCC` with seed
length 5, so that the alignment is unbanded, and an aligner that finds nothing
(score 0).  The comparison is against `minValue<int>()`, so the only path wins
with score 0; its alignment is handed to `mergeSeqWithGraph` and applied: the
seed vertex is cut at position 0 and `CCCC` becomes a branch. -/
theorem selectPath_zero_score_selected :
    enumeratePaths 1 (ComponentGraph.ofSeq "AAAA".toList) [] = some ([seedPath], 1) ∧
    bestDiagonal "CCCC".toList seedPath.seq 5 = some NONE ∧
    alignPath zeroAligner "CCCC".toList 1 (-1) 5 seedPath
      = some { score := 0, beginPath := 0, endPath := 0, beginSeq := 0, endSeq := 0 } ∧
    selectPath zeroAligner "CCCC".toList 1 (-1) 5 [seedPath]
      = some (0, some (seedPath,
          { score := 0, beginPath := 0, endPath := 0, beginSeq := 0, endSeq := 0 })) ∧
    mergeRound 1 zeroAligner 2 1 (-1) 5 (ComponentGraph.ofSeq "AAAA".toList) "CCCC".toList
      = some (true, { graph := [[2, 1], [], []], sources := [0],
                      sequenceMap := [[], "AAAA".toList, "CCCC".toList] }) ∧
    mergeSequences 2 zeroAligner [] ["AAAA".toList, "CCCC".toList] 2 1 (-1) 5 false
      = some (true, ["CCCC".toList, "AAAA".toList]) := by
  refine ⟨by decide, by decide, by decide, by decide, by decide, by decide⟩

/-- C21, amended: when `bestDiagonal` returns for every enumerated path and
some path scores above `minValue<int>()`, the selected alignment has the
maximal score.  So an alignment with a zero or negative score loses whenever
some path scores above zero; when no path scores above zero the selected
alignment has a zero or negative score, and it is the one the merge step
hands to `mergeSeqWithGraph`; when every path scores 0 the first path is
selected with score 0. -/
theorem selectPath_degenerate (aligner : Aligner α) (s : List α) (matchScore errorPenalty : Int)
    (qgramLength : Nat) (paths : List (Path α))
    (hdiag : ∀ p ∈ paths, bestDiagonal s p.seq qgramLength ≠ none)
    (hmin : ∃ p ∈ paths, ∃ al,
      alignPath aligner s matchScore errorPenalty qgramLength p = some al ∧ INT_MIN < al.score) :
    ∃ (j : Nat) (P : Path α) (al : Alignment), paths[j]? = some P ∧
      alignPath aligner s matchScore errorPenalty qgramLength P = some al ∧
      selectPath aligner s matchScore errorPenalty qgramLength paths
        = some (al.score, some (P, al)) ∧
      (∀ Q ∈ paths, ∀ al1, alignPath aligner s matchScore errorPenalty qgramLength Q = some al1 →
        al1.score ≤ al.score) ∧
      ((∃ Q ∈ paths, ∃ al1,
          alignPath aligner s matchScore errorPenalty qgramLength Q = some al1 ∧ 0 < al1.score) →
        0 < al.score) ∧
      ((∀ Q ∈ paths, ∀ al1,
          alignPath aligner s matchScore errorPenalty qgramLength Q = some al1 → al1.score ≤ 0) →
        al.score ≤ 0) ∧
      ((∀ Q ∈ paths, ∀ al1,
          alignPath aligner s matchScore errorPenalty qgramLength Q = some al1 → al1.score = 0) →
        j = 0 ∧ al.score = 0) ∧
      (∀ (fuel : Nat) (g : ComponentGraph α) (n minBranchLen : Nat),
        enumeratePaths fuel g [] = some (paths, n) → paths.length ≤ 30 →
        mergeRound fuel aligner minBranchLen matchScore errorPenalty qgramLength g s
          = (mergeSeqWithGraph g P s al minBranchLen).map (fun g1 => (true, g1))) := by
  have hdef : ∀ p ∈ paths, ∃ al,
      alignPath aligner s matchScore errorPenalty qgramLength p = some al := by
    intro p hp
    obtain ⟨d, hd⟩ := Option.ne_none_iff_exists'.mp (hdiag p hp)
    simp only [alignPath, hd, Option.map_some']
    exact ⟨_, rfl⟩
  obtain ⟨st1, hfold, hcase⟩ :=
    select_fold aligner s matchScore errorPenalty qgramLength paths (INT_MIN, none) hdef
  rcases hcase with ⟨_, hle⟩ | ⟨j, P, al, hj, hal, hst1, _, hmax, hfirst⟩
  · obtain ⟨p, hp, al, hal, hgt⟩ := hmin
    have := hle p hp al hal
    simp only at this
    omega
  · have hsel : selectPath aligner s matchScore errorPenalty qgramLength paths
        = some (al.score, some (P, al)) := by
      simp only [selectPath]; rw [hfold, hst1]
    have hPmem : P ∈ paths := List.getElem?_mem hj
    have hmax2 : ∀ Q ∈ paths, ∀ al1,
        alignPath aligner s matchScore errorPenalty qgramLength Q = some al1 →
        al1.score ≤ al.score := by
      intro Q hQ al1 hal1
      obtain ⟨i, hi⟩ := List.getElem?_of_mem hQ
      exact hmax i Q al1 hi hal1
    refine ⟨j, P, al, hj, hal, hsel, hmax2, ?_, ?_, ?_, ?_⟩
    · rintro ⟨Q, hQ, al1, hal1, hpos⟩
      have := hmax2 Q hQ al1 hal1
      omega
    · intro hall
      exact hall P hPmem al hal
    · intro hall
      refine ⟨?_, hall P hPmem al hal⟩
      by_contra hj0
      have hlen : 0 < paths.length := by
        cases paths with
        | nil => simp at hPmem
        | cons a t => simp
      obtain ⟨Q, hQ⟩ : ∃ Q, paths[0]? = some Q := ⟨paths[0], List.getElem?_eq_getElem hlen⟩
      obtain ⟨al0, hal0⟩ := hdef Q (List.getElem?_mem hQ)
      have h1 := hfirst 0 Q al0 (by omega) hQ hal0
      have h2 := hall Q (List.getElem?_mem hQ) al0 hal0
      have h3 := hall P hPmem al hal
      omega
    · intro fuel g n mbl hen hcap
      have hc : ¬ paths.length > 30 := by omega
      simp only [mergeRound, hen, hc, if_false, hsel]

/-- Witness of C21: the seed path of `AAAA`, the sequence `CCCC` and the
aligner that finds nothing; the only path is selected with score 0. -/
theorem selectPath_degenerate_witness :
    ∃ (j : Nat) (P : Path Char) (al : Alignment), [seedPath][j]? = some P ∧
      alignPath zeroAligner "CCCC".toList 1 (-1) 5 P = some al ∧
      selectPath zeroAligner "CCCC".toList 1 (-1) 5 [seedPath]
        = some (al.score, some (P, al)) ∧
      (∀ Q ∈ [seedPath], ∀ al1, alignPath zeroAligner "CCCC".toList 1 (-1) 5 Q = some al1 →
        al1.score ≤ al.score) ∧
      ((∃ Q ∈ [seedPath], ∃ al1,
          alignPath zeroAligner "CCCC".toList 1 (-1) 5 Q = some al1 ∧ 0 < al1.score) →
        0 < al.score) ∧
      ((∀ Q ∈ [seedPath], ∀ al1,
          alignPath zeroAligner "CCCC".toList 1 (-1) 5 Q = some al1 → al1.score ≤ 0) →
        al.score ≤ 0) ∧
      ((∀ Q ∈ [seedPath], ∀ al1,
          alignPath zeroAligner "CCCC".toList 1 (-1) 5 Q = some al1 → al1.score = 0) →
        j = 0 ∧ al.score = 0) ∧
      (∀ (fuel : Nat) (g : ComponentGraph Char) (n minBranchLen : Nat),
        enumeratePaths fuel g [] = some ([seedPath], n) → [seedPath].length ≤ 30 →
        mergeRound fuel zeroAligner minBranchLen 1 (-1) 5 g "CCCC".toList
          = (mergeSeqWithGraph g P "CCCC".toList al minBranchLen).map (fun g1 => (true, g1))) :=
  selectPath_degenerate zeroAligner "CCCC".toList 1 (-1) 5 [seedPath] (by decide)
    ⟨seedPath, List.mem_singleton.mpr rfl,
     { score := 0, beginPath := 0, endPath := 0, beginSeq := 0, endSeq := 0 },
     by decide, by decide⟩

end Popins

namespace Popins

variable {ρ : Type}

/-- C22, counterexample: two streams in which every group starts with a
record that has sequence and quality.  In the first the secondary record of
`r1` has no CIGAR string: the specification expects the whole sequence and
quality of the primary record, the source reads `cigar[0]` of an empty string
and has no defined result.  In the second the read name is empty and the
first-in-pair flag is not set, as in the default-constructed `firstRecord`:
the first record of the stream is not taken as the first of its group and the
secondary record is written with the empty sequence and quality of the
default record. -/
theorem fill_sequences_counterexample :
    (groups [primaryRecord, bareRecord] = [[primaryRecord, bareRecord]] ∧
     primaryRecord.seq ≠ [] ∧ primaryRecord.qual ≠ [] ∧
     repairSpec primaryRecord bareRecord
       = setSeqQual bareRecord "ACGTACGT".toList "IIIIHHHH".toList ∧
     fill_sequences [primaryRecord, bareRecord] = none) ∧
    (groups [namelessRecord, namelessSecondary] = [[namelessRecord, namelessSecondary]] ∧
     namelessRecord.seq ≠ [] ∧ namelessRecord.qual ≠ [] ∧
     repairSpec namelessRecord namelessSecondary
       = setSeqQual namelessSecondary "ACGT".toList "IIII".toList ∧
     fill_sequences [namelessRecord, namelessSecondary]
       = some (false, [namelessRecord, namelessSecondary])) := by
  refine ⟨⟨by decide, by decide, by decide, by decide, by decide⟩,
    ⟨by decide, by decide, by decide, by decide, by decide⟩⟩

/-- C22, amended: let the stream be cut into its groups, the maximal runs of
consecutive records with the same read name and the same first-in-pair flag.
If the first record of the stream has a non-empty read name or the
first-in-pair flag, every group starts with a record whose sequence and
quality are non-empty and of the same length, and every later record of a
group that lacks sequence or quality has a non-empty CIGAR string whose
leading and trailing hard clips together do not exceed the length of the
sequence of the first record, then `fill_sequences` returns 0 and writes, for
every group, its first record unchanged and every later record `r` as
`repairSpec`: with `seq = primary.seq[b..e)` and `qual = primary.qual[b..e)`
if `r` lacks sequence or quality, unchanged otherwise.  The output has as many
records as the input, in the same order, and differs from it only in the
sequence and quality of records that lacked one of them. -/
theorem fill_sequences_repair [Inhabited ρ] (inStream : List (BamAlignmentRecord ρ))
    (hfirst : ∀ r ∈ inStream.head?, r.qName ≠ [] ∨ hasFlagFirst r = true)
    (hgroups : ∀ g ∈ groups inStream, GroupOk g) :
    fill_sequences inStream = some (false, (groups inStream).flatMap repairGroup) ∧
    (groups inStream).flatten = inStream ∧
    (∀ g ∈ groups inStream, ∃ p ms, g = p :: ms ∧ ∀ r ∈ ms, sameGroup p r) ∧
    (groups inStream).Chain' (fun g h => ∀ p ∈ g.head?, ∀ q ∈ h.head?, ¬ sameGroup p q) ∧
    ((groups inStream).flatMap repairGroup).length = inStream.length ∧
    List.Forall₂ Repaired inStream ((groups inStream).flatMap repairGroup) := by
  have hflat := groups_flatten inStream
  have huni := groups_uniform inStream
  have hchain := groups_chain inStream
  have hrep : List.Forall₂ Repaired inStream ((groups inStream).flatMap repairGroup) := by
    have := Repaired_groups (groups inStream)
    rw [hflat] at this
    exact this
  refine ⟨?_, hflat, huni, hchain, (List.Forall₂.length_eq hrep).symm, hrep⟩
  have hloop := fillLoop_groups (groups inStream) huni hchain hgroups defaultRecord [] ?_
  · rw [hflat] at hloop
    simpa [fill_sequences] using hloop
  · intro g hg p hp
    have hhead : p ∈ inStream.head? := by
      rw [← hflat]
      cases hgs : groups inStream with
      | nil => rw [hgs] at hg; simp at hg
      | cons g1 gs =>
        rw [hgs] at hg
        simp only [List.head?_cons, Option.mem_def, Option.some.injEq] at hg
        subst hg
        cases g1 with
        | nil => simp at hp
        | cons q ms =>
          simp only [List.head?_cons, Option.mem_def, Option.some.injEq] at hp
          subst hp
          simp
    intro hsame
    rcases hfirst p hhead with h | h
    · exact h hsame.1.symm
    · have h2 : hasFlagFirst (defaultRecord : BamAlignmentRecord ρ) = false := by
        simp [hasFlagFirst, defaultRecord]
      rw [← hsame.2, h2] at h
      exact Bool.noConfusion h

/-- Witness of C22: the primary record of `r1`, a secondary record with hard
clips 2 and 3, a secondary record without hard clip, and the record of the
mate, which starts a new group. -/
theorem fill_sequences_repair_witness :
    fill_sequences [primaryRecord, clippedRecord, plainRecord, mateRecord]
      = some (false, [primaryRecord,
          setSeqQual clippedRecord "GTA".toList "IIH".toList,
          setSeqQual plainRecord "ACGTACGT".toList "IIIIHHHH".toList,
          mateRecord]) ∧
    (fill_sequences [primaryRecord, clippedRecord, plainRecord, mateRecord]
      = some (false,
          (groups [primaryRecord, clippedRecord, plainRecord, mateRecord]).flatMap repairGroup) ∧
    (groups [primaryRecord, clippedRecord, plainRecord, mateRecord]).flatten
      = [primaryRecord, clippedRecord, plainRecord, mateRecord] ∧
    (∀ g ∈ groups [primaryRecord, clippedRecord, plainRecord, mateRecord],
      ∃ p ms, g = p :: ms ∧ ∀ r ∈ ms, sameGroup p r) ∧
    (groups [primaryRecord, clippedRecord, plainRecord, mateRecord]).Chain'
      (fun g h => ∀ p ∈ g.head?, ∀ q ∈ h.head?, ¬ sameGroup p q) ∧
    ((groups [primaryRecord, clippedRecord, plainRecord, mateRecord]).flatMap repairGroup).length
      = [primaryRecord, clippedRecord, plainRecord, mateRecord].length ∧
    List.Forall₂ Repaired [primaryRecord, clippedRecord, plainRecord, mateRecord]
      ((groups [primaryRecord, clippedRecord, plainRecord, mateRecord]).flatMap repairGroup)) :=
  ⟨by decide,
   fill_sequences_repair [primaryRecord, clippedRecord, plainRecord, mateRecord]
    (by decide) (by decide)⟩

end Popins
